import Mathlib

/-!
# A shallow embedding of `triedbmut.rs` (rust-merkle-trie)

This file embeds the mutation engine of the Merkle-Patricia-style trie from
`src/triedbmut.rs` into Lean 4 and proves / refutes the specification claims
about it.

Modelling decisions (collaborators that are not part of `src/`):

* Nibble paths (`NibbleSlice`): modelled from the spec (sec. 4.1) as plain
  lists of naturals, one element per nibble.  `mid n` is `List.drop n`,
  `at i` is `List.getD i 0`, `common_prefix` counts equal leading nibbles,
  `to_vec` / `from_vec` round-trip to the identity.
* The node codec (`node.rs`, spec sec. 4.2): modelled from the spec as an
  injective canonical byte encoding with an executable inverse `decoded`.
  `encoded_until n k` truncates the encoded node's head nibbles to the first
  `k` (spec sec. 4.5 and sec. 9: "truncate the prefix to the shared-head
  length").
* The 256-bit hash: the spec treats collisions as impossible, so the digest
  of a byte string is modelled as the byte string itself (the initial
  collision-free hash).  A content-addressed store therefore maps `b` to `b`
  and is represented as the list of byte strings that were `put`.
* `MemoryDB` (crate `cdb`): modelled from the repository's own tests
  (`from_null_rlp_succeeds`, `insert_on_empty`): the store resolves the
  null-RLP digest `EMPTY_ROOT` out of the box, i.e. the fresh store already
  holds `EMPTY_ROOT`.
* `LruCache` (crate `lru_cache`): modelled as an association list without
  eviction; the mutation engine only relies on entries being
  content-consistent, which eviction cannot break.
* Rust panics (`expect`, out-of-range indexing) are modelled by the
  dedicated error value `TrieError.programError`; the bounded recursion of
  the Rust functions (paths are at most 64 nibbles) is made total by a fuel
  parameter, with `TrieError.fuelExhausted` as the (never reached for
  well-formed inputs) out-of-fuel answer.
-/

set_option autoImplicit false

namespace MerkleTrie

/-- Byte strings (`Vec<u8>` / `DBValue`); we use lists of naturals. -/
abbrev Bytes := List Nat

/-- A digest (`H256`).  Hash collisions are impossible by assumption
(spec sec. 3), so a digest is identified with the hashed bytes. -/
abbrev Digest := List Nat

/-- NibbleSlice `at`: `p.at(i)`, modelled from the spec sec. 4.1 with
default `0` where the source would panic. -/
def nsAt (p : List Nat) (i : Nat) : Nat := p.getD i 0

/-- NibbleSlice `common_prefix`: the number of shared leading nibbles
(modelled from the spec sec. 4.1). -/
def nsCommon : List Nat → List Nat → Nat
  | a :: as, b :: bs => if a = b then nsCommon as bs + 1 else 0
  | _, _ => 0

/-- Errors of the mutation core (`TrieError`), plus two totalization
artifacts: `programError` stands for a Rust panic (`expect`), and
`fuelExhausted` for running out of recursion fuel (never happens for
well-formed inputs; the Rust recursion is bounded by the 64-nibble path). -/
inductive TrieError where
  | InvalidStateRoot (d : Digest)
  | IncompleteDatabase (d : Digest)
  | programError
  | fuelExhausted
deriving DecidableEq, Repr

/-- The two node variants (`Node` of `node.rs`, spec sec. 3): a leaf with
the remaining nibbles and a value, or a branch with a shared head and 16
optional child digests. -/
inductive RlpNode where
  | Leaf (part : List Nat) (value : Bytes)
  | Branch (part : List Nat) (children : List (Option Digest))
deriving DecidableEq, Repr

/-- `empty_children()`: sixteen empty child slots. -/
def empty_children : List (Option Digest) := List.replicate 16 none

/-- Encoding of one optional child digest (length-prefixed, so the
concatenation of children is parseable). -/
def encodeChild : Option Digest → List Nat
  | none => [0]
  | some d => 1 :: d.length :: d

/-- Node codec, encoding direction.  Modelled from the spec sec. 4.2:
a canonical injective serialization holding the variant tag, the head
nibbles, and the value or the 16 children. -/
def RlpNode.encoded : RlpNode → Bytes
  | .Leaf part value => 0 :: part.length :: (part ++ value)
  | .Branch part children =>
      1 :: part.length :: (part ++ children.foldr (fun c acc => encodeChild c ++ acc) [])

/-- Parser for `n` consecutive encoded children; returns the children and
the remaining bytes. -/
def decodeChildren : Nat → List Nat → Option (List (Option Digest) × List Nat)
  | 0, rest => some ([], rest)
  | n + 1, 0 :: rest =>
      (decodeChildren n rest).map (fun cr => (none :: cr.1, cr.2))
  | n + 1, 1 :: len :: rest =>
      if len ≤ rest.length then
        (decodeChildren n (rest.drop len)).map (fun cr => (some (rest.take len) :: cr.1, cr.2))
      else none
  | _, _ => none

/-- Node codec, decoding direction (`Node::decoded`): inverse of
`RlpNode.encoded`, `none` on malformed input (modelled from the spec
sec. 4.2). -/
def RlpNode.decoded (b : Bytes) : Option RlpNode :=
  match b with
  | 0 :: plen :: rest =>
      if plen ≤ rest.length then some (.Leaf (rest.take plen) (rest.drop plen)) else none
  | 1 :: plen :: rest =>
      if plen ≤ rest.length then
        match decodeChildren 16 (rest.drop plen) with
        | some (cs, []) => some (.Branch (rest.take plen) cs)
        | _ => none
      else none
  | _ => none

/-- `Node::encoded_until(node, k)`: encode the node with its head nibbles
truncated to the first `k` (modelled from the spec sec. 4.5 / sec. 9:
every produced `Branch` is encoded with its head truncated to the
shared-head length). -/
def RlpNode.encoded_until : RlpNode → Nat → Bytes
  | .Leaf part value, k => RlpNode.encoded (.Leaf (part.take k) value)
  | .Branch part children, k => RlpNode.encoded (.Branch (part.take k) children)

/-- `Node::mid(node, k)`: the same node with the first `k` head nibbles
dropped (modelled from the spec sec. 4.2, used by the raw-insert path). -/
def RlpNode.mid : RlpNode → Nat → RlpNode
  | .Leaf part value, k => .Leaf (part.drop k) value
  | .Branch part children, k => .Branch (part.drop k) children

/-- The path stored inside a node (its head nibbles). -/
def RlpNode.path : RlpNode → List Nat
  | .Leaf part _ => part
  | .Branch part _ => part

/-- `BLAKE_NULL_RLP`: the digest of the canonical empty encoding
(the RLP null byte `0x80 = 128`).  It is not a valid node encoding, so
`RlpNode.decoded EMPTY_ROOT = none`, exactly as in the Rust code where
decoding the null RLP yields no node. -/
def EMPTY_ROOT : Digest := [128]

/-- The whole mutable state a `TrieDBMut` can touch: the backing store
(the set of byte strings that were `put`, since digests are the bytes
themselves), the node cache, the borrowed root slot, and the `old_val`
out-parameter threaded through the recursion. -/
structure TrieState where
  db : List Bytes
  cache : List (Digest × Bytes)
  root : Digest
  oldVal : Option Bytes
deriving DecidableEq, Repr

/-- `HashDB::get`: content-addressed read; a present digest resolves to
its own bytes (collaborator contract, spec sec. 6). -/
def dbGet (db : List Bytes) (h : Digest) : Option Bytes :=
  if h ∈ db then some h else none

/-- `HashDB::insert` (`put`): store the bytes, return their digest. -/
def dbInsert (db : List Bytes) (b : Bytes) : Digest × List Bytes :=
  (b, b :: db)

/-- `HashDB::contains`. -/
def dbContains (db : List Bytes) (h : Digest) : Prop := h ∈ db

instance (db : List Bytes) (h : Digest) : Decidable (dbContains db h) := by
  unfold dbContains; infer_instance

/-- `LruCache` lookup (both `contains_key` and `get_mut`, which only
differ by the MRU touch we do not track). -/
def lookupCache : List (Digest × Bytes) → Digest → Option Bytes
  | [], _ => none
  | e :: es, h => if e.1 = h then some e.2 else lookupCache es h

/-- `LruCache::insert` (eviction not modelled; see the header comment). -/
def cacheInsert (cache : List (Digest × Bytes)) (h : Digest) (b : Bytes) :
    List (Digest × Bytes) :=
  (h, b) :: cache

/-- The cache-then-store read of `insert_aux` (`triedbmut.rs` lines 78-86):
consult the cache first; on a miss read the store (failing with
`IncompleteDatabase` when absent) and insert the bytes into the cache. -/
def readNodeCached (s : TrieState) (hash : Digest) :
    TrieState × Except TrieError Bytes :=
  match lookupCache s.cache hash with
  | some b => (s, .ok b)
  | none =>
      match dbGet s.db hash with
      | none => (s, .error (.IncompleteDatabase hash))
      | some b => ({ s with cache := cacheInsert s.cache hash b }, .ok b)

/-- `TrieDBMut::insert_aux` (`triedbmut.rs` lines 67-192), embedded with
explicit state passing and a fuel bound on the recursion depth.  The
source's `partial` variable is called `part` here.  `old_val` is the
`oldVal` field of the state. -/
def insert_aux : Nat → TrieState → List Nat → Bytes → Option Digest →
    TrieState × Except TrieError Digest
  | 0, s, _, _, _ => (s, .error .fuelExhausted)
  | fuel + 1, s, path, insert_value, cur_node_hash =>
    match cur_node_hash with
    | some hash =>
      match readNodeCached s hash with
      | (s, .error e) => (s, .error e)
      | (s, .ok node_bytes) =>
        match RlpNode.decoded node_bytes with
        | some (.Leaf part value) =>
          if part = path then
            -- Renew the Leaf
            let node_rlp := RlpNode.encoded (.Leaf path insert_value)
            let (hash, db) := dbInsert s.db node_rlp
            ({ s with
                db := db
                cache := cacheInsert s.cache hash node_rlp
                oldVal := some value }, .ok hash)
          else
            -- Make branch node and insert Leaves
            let common := nsCommon part path
            let new_child := empty_children
            let new_part := part.drop common
            let new_path := path.drop common
            match insert_aux fuel s (new_part.drop 1) value
                (new_child.getD (nsAt new_part 0) none) with
            | (s, .error e) => (s, .error e)
            | (s, .ok d1) =>
              let new_child := new_child.set (nsAt new_part 0) (some d1)
              match insert_aux fuel s (new_path.drop 1) insert_value
                  (new_child.getD (nsAt new_path 0) none) with
              | (s, .error e) => (s, .error e)
              | (s, .ok d2) =>
                let new_child := new_child.set (nsAt new_path 0) (some d2)
                let node_rlp := RlpNode.encoded_until (.Branch part new_child) common
                let (hash, db) := dbInsert s.db node_rlp
                ({ s with db := db, cache := cacheInsert s.cache hash node_rlp }, .ok hash)
        | some (.Branch part children) =>
          let common := nsCommon part path
          if common < part.length then
            -- Make new branch node and insert leaf and branch with new path
            let new_child := empty_children
            let new_part := part.drop common
            let new_path := path.drop common
            let o_branch := RlpNode.Branch (new_part.drop 1) children
            let node_rlp := RlpNode.encoded o_branch
            let (b_hash, db) := dbInsert s.db node_rlp
            let s := { s with db := db, cache := cacheInsert s.cache b_hash node_rlp }
            let new_child := new_child.set (nsAt new_part 0) (some b_hash)
            match insert_aux fuel s (new_path.drop 1) insert_value
                (new_child.getD (nsAt new_path 0) none) with
            | (s, .error e) => (s, .error e)
            | (s, .ok d2) =>
              let new_child := new_child.set (nsAt new_path 0) (some d2)
              let node_rlp := RlpNode.encoded_until (.Branch part new_child) common
              let (hash, db) := dbInsert s.db node_rlp
              ({ s with db := db, cache := cacheInsert s.cache hash node_rlp }, .ok hash)
          else
            -- Insert leaf into the branch node
            let new_path := path.drop common
            match insert_aux fuel s (new_path.drop 1) insert_value
                (children.getD (nsAt new_path 0) none) with
            | (s, .error e) => (s, .error e)
            | (s, .ok d2) =>
              let children := children.set (nsAt new_path 0) (some d2)
              let node_rlp := RlpNode.encoded (.Branch part children)
              let (hash, db) := dbInsert s.db node_rlp
              ({ s with db := db, cache := cacheInsert s.cache hash node_rlp }, .ok hash)
        | none =>
          let node_rlp := RlpNode.encoded (.Leaf path insert_value)
          let (hash, db) := dbInsert s.db node_rlp
          ({ s with db := db, cache := cacheInsert s.cache hash node_rlp }, .ok hash)
    | none =>
      let node_rlp := RlpNode.encoded (.Leaf path insert_value)
      let (hash, db) := dbInsert s.db node_rlp
      ({ s with db := db, cache := cacheInsert s.cache hash node_rlp }, .ok hash)

/-- `TrieDBMut::insert_raw_aux` (`triedbmut.rs` lines 202-299): like
`insert_aux` but inserting an already-shaped node; reads the store
directly (no cache consult) and writes without populating the cache,
except through its `insert_aux` subcall. -/
def insert_raw_aux : Nat → TrieState → RlpNode → Option Digest →
    TrieState × Except TrieError Digest
  | 0, s, _, _ => (s, .error .fuelExhausted)
  | fuel + 1, s, node, cur_node_hash =>
    let path := node.path
    match cur_node_hash with
    | some hash =>
      match dbGet s.db hash with
      | none => (s, .error (.IncompleteDatabase hash))
      | some existing_node_rlp =>
        match RlpNode.decoded existing_node_rlp with
        | some (.Leaf part value) =>
          if part = path then
            -- Renew the Leaf
            let (hash, db) := dbInsert s.db (RlpNode.encoded node)
            ({ s with db := db, oldVal := some existing_node_rlp }, .ok hash)
          else
            -- Make branch node and insert Leaves
            let common := nsCommon part path
            let new_child := empty_children
            let new_part := part.drop common
            let new_path := path.drop common
            match insert_aux fuel s (new_part.drop 1) value
                (new_child.getD (nsAt new_part 0) none) with
            | (s, .error e) => (s, .error e)
            | (s, .ok d1) =>
              let new_child := new_child.set (nsAt new_part 0) (some d1)
              match insert_raw_aux fuel s (node.mid (common + 1))
                  (new_child.getD (nsAt new_path 0) none) with
              | (s, .error e) => (s, .error e)
              | (s, .ok d2) =>
                let new_child := new_child.set (nsAt new_path 0) (some d2)
                let (hash, db) :=
                  dbInsert s.db (RlpNode.encoded_until (.Branch part new_child) common)
                ({ s with db := db }, .ok hash)
        | some (.Branch part children) =>
          let common := nsCommon part path
          if common < part.length then
            -- Make new branch node and insert leaf and branch with new path
            let new_child := empty_children
            let new_part := part.drop common
            let new_path := path.drop common
            let o_branch := RlpNode.Branch (new_part.drop 1) children
            let (b_hash, db) := dbInsert s.db (RlpNode.encoded o_branch)
            let s := { s with db := db }
            let new_child := new_child.set (nsAt new_part 0) (some b_hash)
            match insert_raw_aux fuel s (node.mid (common + 1))
                (new_child.getD (nsAt new_path 0) none) with
            | (s, .error e) => (s, .error e)
            | (s, .ok d2) =>
              let new_child := new_child.set (nsAt new_path 0) (some d2)
              let (hash, db) :=
                dbInsert s.db (RlpNode.encoded_until (.Branch part new_child) common)
              ({ s with db := db }, .ok hash)
          else
            -- Insert leaf into the branch node
            let new_path := path.drop common
            match insert_raw_aux fuel s (node.mid (common + 1))
                (children.getD (nsAt new_path 0) none) with
            | (s, .error e) => (s, .error e)
            | (s, .ok d2) =>
              let children := children.set (nsAt new_path 0) (some d2)
              let (hash, db) := dbInsert s.db (RlpNode.encoded (.Branch part children))
              ({ s with db := db }, .ok hash)
        | none =>
          let (hash, db) := dbInsert s.db (RlpNode.encoded node)
          ({ s with db := db }, .ok hash)
    | none =>
      let (hash, db) := dbInsert s.db (RlpNode.encoded node)
      ({ s with db := db }, .ok hash)

/-- `TrieDBMut::remove_aux` (`triedbmut.rs` lines 302-408).  Note that the
source counts the *empty* child slots and compares with 16 / 15, that the
collapse reads the store directly, and that both the missing collapse
target and its decode failure report `IncompleteDatabase` with the
*parent* hash (lines 347 and 351). -/
def remove_aux : Nat → TrieState → List Nat → Option Digest →
    TrieState × Except TrieError (Option Digest)
  | 0, s, _, _ => (s, .error .fuelExhausted)
  | fuel + 1, s, path, cur_node_hash =>
    match cur_node_hash with
    | some hash =>
      match dbGet s.db hash with
      | none => (s, .error (.IncompleteDatabase hash))
      | some node_rlp =>
        match RlpNode.decoded node_rlp with
        | some (.Leaf part value) =>
          if path = part then
            ({ s with oldVal := some value }, .ok none)
          else
            (s, .ok cur_node_hash)
        | some (.Branch part children) =>
          if part.isPrefixOf path then
            let new_path := path.drop part.length
            match remove_aux fuel s (new_path.drop 1)
                (children.getD (nsAt new_path 0) none) with
            | (s, .error e) => (s, .error e)
            | (s, .ok newSlot) =>
              let children := children.set (nsAt new_path 0) newSlot
              if children.getD (nsAt new_path 0) none = none then
                -- Fix the node
                let child_count := children.countP (fun x => x.isNone)
                if child_count = 16 then
                  -- Branch can be removed
                  (s, .ok none)
                else if child_count = 15 then
                  -- Transform the branch into Leaf
                  match children.findIdx? (fun x => x.isSome) with
                  | none => (s, .error .programError)
                  | some index =>
                    match children.getD index none with
                    | none => (s, .error .programError)
                    | some new_leaf_hash =>
                      match dbGet s.db new_leaf_hash with
                      | none => (s, .error (.IncompleteDatabase hash))
                      | some new_leaf_data =>
                        match RlpNode.decoded new_leaf_data with
                        | none => (s, .error (.IncompleteDatabase hash))
                        | some (.Leaf child_part child_value) =>
                          let vec := part ++ [index] ++ child_part
                          let node_rlp := RlpNode.encoded (.Leaf vec child_value)
                          let (new_hash, db) := dbInsert s.db node_rlp
                          ({ s with db := db }, .ok (some new_hash))
                        | some (.Branch child_part children2) =>
                          let vec := part ++ [index] ++ child_part
                          let node_rlp := RlpNode.encoded (.Branch vec children2)
                          let (new_hash, db) := dbInsert s.db node_rlp
                          ({ s with db := db }, .ok (some new_hash))
                else
                  let node_rlp := RlpNode.encoded (.Branch part children)
                  let (new_hash, db) := dbInsert s.db node_rlp
                  ({ s with db := db }, .ok (some new_hash))
              else
                let node_rlp := RlpNode.encoded (.Branch part children)
                let (new_hash, db) := dbInsert s.db node_rlp
                ({ s with db := db }, .ok (some new_hash))
          else
            (s, .ok cur_node_hash)
        | none => (s, .ok cur_node_hash)
    | none => (s, .ok cur_node_hash)

/-- Fuel that is always sufficient for a well-formed walk: the recursion
consumes at least one path nibble per level except for the immediate
empty-slot and final steps. -/
def defaultFuel (path : List Nat) : Nat := path.length + 2

/-- `TrieDBMut::new` (lines 38-49): the root slot is overwritten with
`EMPTY_ROOT`, the cache starts empty.  The key-hashing of the public
API is kept abstract: operations take the hashed 64-nibble path. -/
def trieNew (db : List Bytes) : TrieState :=
  { db := db, cache := [], root := EMPTY_ROOT, oldVal := none }

/-- The fresh `MemoryDB` backing store: per the repository's tests
(`from_null_rlp_succeeds`, `insert_on_empty`) it resolves `EMPTY_ROOT`
without any prior `put`, so the fresh store already holds it. -/
def memDB : List Bytes := [EMPTY_ROOT]

/-- `TrieDBMut::from_existing` (lines 53-64): fails with
`InvalidStateRoot` when the store does not contain the root; there is no
special case for `EMPTY_ROOT` in this function. -/
def from_existing (db : List Bytes) (root : Digest) : Except TrieError TrieState :=
  if dbContains db root then
    .ok { db := db, cache := [], root := root, oldVal := none }
  else
    .error (.InvalidStateRoot root)

/-- `TrieMut::insert` (lines 449-456) with the `blake256` key hashing
abstracted away: `path` is the 64-nibble hash of the key.  `old_val` is
reset, the walk runs on the current root, and only on success is the
root slot overwritten. -/
def insert (s : TrieState) (path : List Nat) (value : Bytes) :
    TrieState × Except TrieError (Option Bytes) :=
  let s := { s with oldVal := none }
  let cur_hash := s.root
  match insert_aux (defaultFuel path) s path value (some cur_hash) with
  | (s, .ok h) => ({ s with root := h }, .ok s.oldVal)
  | (s, .error e) => (s, .error e)

/-- `TrieMut::remove` (lines 458-469), with the key hashing abstracted
as in `insert`: on success the root becomes the returned digest, or
`EMPTY_ROOT` when the walk reports the tree is now empty. -/
def remove (s : TrieState) (path : List Nat) :
    TrieState × Except TrieError (Option Bytes) :=
  let s := { s with oldVal := none }
  let cur_hash := s.root
  match remove_aux (defaultFuel path) s path (some cur_hash) with
  | (s, .ok (some h)) => ({ s with root := h }, .ok s.oldVal)
  | (s, .ok none) => ({ s with root := EMPTY_ROOT }, .ok s.oldVal)
  | (s, .error e) => (s, .error e)

/-- `TrieDBMut::insert_raw` (lines 194-200). -/
def insert_raw (s : TrieState) (node : RlpNode) :
    TrieState × Except TrieError (Option Bytes) :=
  let s := { s with oldVal := none }
  let cur_hash := s.root
  match insert_raw_aux (defaultFuel node.path) s node (some cur_hash) with
  | (s, .ok h) => ({ s with root := h }, .ok s.oldVal)
  | (s, .error e) => (s, .error e)

/-! ## The abstract key-value view

The trie is specified against the finite map it holds: a list of
(64-nibble path, value) entries with pairwise distinct paths.  The
canonical trie of such a map is defined below, mirroring the invariants
of spec sec. 3, and the main theorems show the mutation engine computes
exactly the canonical root. -/

/-- The abstract contents of a trie: hashed paths with their values. -/
abbrev Entries := List (List Nat × Bytes)

/-- Value bound to a path in the abstract map. -/
def lookupVal : Entries → List Nat → Option Bytes
  | [], _ => none
  | pv :: es, p => if pv.1 = p then some pv.2 else lookupVal es p

/-- Abstract map after an insert: replace in place, or append. -/
def insertEntry : Entries → List Nat → Bytes → Entries
  | [], p, v => [(p, v)]
  | pv :: es, p, v => if pv.1 = p then (p, v) :: es else pv :: insertEntry es p v

/-- Abstract map after a remove. -/
def eraseEntry : Entries → List Nat → Entries
  | [], _ => []
  | pv :: es, p => if pv.1 = p then eraseEntry es p else pv :: eraseEntry es p

/-- The sub-map under child slot `i` of a branch whose shared head has
length `c`: entries whose nibble at position `c` is `i`, with the head
and the selector nibble consumed. -/
def groupAt (c i : Nat) (es : Entries) : Entries :=
  es.filterMap (fun pv => if nsAt pv.1 c = i then some (pv.1.drop (c + 1), pv.2) else none)

/-- All paths of `es` agree on their first `k` nibbles. -/
def allShareB (es : Entries) (k : Nat) : Bool :=
  es.all (fun a => es.all (fun b => a.1.take k == b.1.take k))

/-- Largest `m ≤ n` with `p m = true`, `0` when there is none. -/
def greatestB (p : Nat → Bool) : Nat → Nat
  | 0 => 0
  | n + 1 => if p (n + 1) then n + 1 else greatestB p n

/-- Length of the longest shared head of all paths of `es`. -/
def sharedLen (es : Entries) : Nat :=
  greatestB (allShareB es) (es.headD ([], [])).1.length

/-- The canonical trie node of a non-empty abstract map (spec sec. 3
invariants: a singleton map is a leaf carrying the whole remaining path;
otherwise a branch whose head is the longest shared head of the paths,
with one child per populated nibble group).  Children are stored as
digests, i.e. as the encodings of the canonical child nodes.  `fuel`
bounds the recursion; the remaining path length suffices. -/
def canonNode : Nat → Entries → RlpNode
  | _, [] => .Leaf [] []
  | _, [pv] => .Leaf pv.1 pv.2
  | 0, _ => .Leaf [] []
  | fuel + 1, es =>
      let c := sharedLen es
      .Branch ((es.headD ([], [])).1.take c)
        ((List.range 16).map (fun i =>
          let g := groupAt c i es
          if g.isEmpty then none
          else some (RlpNode.encoded (canonNode fuel g))))

/-- The canonical root digest of a non-empty abstract map. -/
def canonDigest (fuel : Nat) (es : Entries) : Digest :=
  RlpNode.encoded (canonNode fuel es)

/-- Digests of every node of the canonical trie of `es`. -/
def canonAll : Nat → Entries → List Digest
  | _, [] => []
  | _, [pv] => [RlpNode.encoded (.Leaf pv.1 pv.2)]
  | 0, _ => []
  | fuel + 1, es =>
      let c := sharedLen es
      canonDigest (fuel + 1) es ::
        (List.range 16).foldr (fun i acc => canonAll fuel (groupAt c i es) ++ acc) []

/-- A path of the fixed length whose nibbles are in range (spec sec. 3:
the 64 nibbles of the hashed key; the length is kept general). -/
def WFPath (l : Nat) (p : List Nat) : Prop := p.length = l ∧ ∀ n ∈ p, n < 16

/-- A well-formed non-empty abstract map at remaining depth `l`:
distinct paths, all of length `l`, nibbles in range. -/
def Canon (l : Nat) (es : Entries) : Prop :=
  es ≠ [] ∧ (es.map Prod.fst).Nodup ∧ ∀ pv ∈ es, WFPath l pv.1

/-- Every node of the canonical trie of `es` is present in the store. -/
def StoreHas (db : List Bytes) (l : Nat) (es : Entries) : Prop :=
  ∀ d ∈ canonAll l es, d ∈ db

/-- Cache consistency: the cache only ever holds a digest together with
the bytes it is the digest of — with the collision-free hash modelled as
the identity, the entry's bytes are the key itself. -/
def CacheOK (cache : List (Digest × Bytes)) : Prop :=
  ∀ e ∈ cache, e.2 = e.1

/-- The states reachable by the public mutations, described by the
abstract map they hold: an empty trie has root `EMPTY_ROOT`; a non-empty
one has the canonical root with all canonical nodes stored. -/
def Rep (l : Nat) (s : TrieState) (es : Entries) : Prop :=
  CacheOK s.cache ∧ EMPTY_ROOT ∈ s.db ∧
    ((es = [] ∧ s.root = EMPTY_ROOT) ∨
      (Canon l es ∧ StoreHas s.db l es ∧ s.root = canonDigest l es))

/-- A public mutation: insert or remove, by hashed path. -/
inductive Op where
  | ins (path : List Nat) (value : Bytes)
  | del (path : List Nat)
deriving DecidableEq, Repr

/-- The hashed path an operation works on. -/
def Op.pathOf : Op → List Nat
  | .ins p _ => p
  | .del p => p

/-- Run a sequence of public mutations. -/
def runOps (s : TrieState) : List Op → TrieState
  | [] => s
  | .ins p v :: ops => runOps (insert s p v).1 ops
  | .del p :: ops => runOps (remove s p).1 ops

/-- The abstract map after a sequence of public mutations. -/
def applyOps (es : Entries) : List Op → Entries
  | [] => es
  | .ins p v :: ops => applyOps (insertEntry es p v) ops
  | .del p :: ops => applyOps (eraseEntry es p) ops

/-- All operations of the sequence use paths of the fixed length with
in-range nibbles. -/
def WFOps (l : Nat) (ops : List Op) : Prop :=
  ∀ op ∈ ops, WFPath l op.pathOf

/-- Depth-bounded check of spec sec. 3's branch-minimality invariant on
the store: every branch reachable from `d` (through at most `fuel`
levels) has at least two occupied child slots. -/
def reachOK : Nat → List Bytes → Digest → Bool
  | 0, _, _ => true
  | fuel + 1, db, d =>
      match dbGet db d with
      | none => true
      | some b =>
          match RlpNode.decoded b with
          | none => true
          | some (.Leaf _ _) => true
          | some (.Branch _ cs) =>
              decide (2 ≤ cs.countP (fun c => c.isSome)) &&
                cs.all (fun c => match c with
                  | none => true
                  | some d2 => reachOK fuel db d2)

/-- Write-through bookkeeping for `insert_aux`, relative to a starting
state: diagonal cache entries (with the content-addressed store a cached
digest maps to its own bytes, so every entry the walk adds is diagonal)
survive the walk, and every byte string the walk added to the store is
found in the final cache. -/
def WriteThrough (s A : TrieState) : Prop :=
  (∀ x, lookupCache s.cache x = some x → lookupCache A.cache x = some x) ∧
  (∀ b ∈ A.db, b ∈ s.db ∨ lookupCache A.cache b = some b)

/-! ## Codec facts -/

/-- Concatenated encoding of a child list. -/
def encChildren (cs : List (Option Digest)) : List Nat :=
  cs.foldr (fun c acc => encodeChild c ++ acc) []

end MerkleTrie

namespace MerkleTrie

theorem encChildren_nil : encChildren [] = [] := rfl

theorem encChildren_cons (c : Option Digest) (cs : List (Option Digest)) :
    encChildren (c :: cs) = encodeChild c ++ encChildren cs := rfl

theorem decodeChildren_encChildren (cs : List (Option Digest)) (rest : List Nat) :
    decodeChildren cs.length (encChildren cs ++ rest) = some (cs, rest) := by
  induction cs generalizing rest with
  | nil => simp [decodeChildren, encChildren_nil]
  | cons c cs ih =>
    cases c with
    | none =>
      have h1 : encChildren (none :: cs) ++ rest = 0 :: (encChildren cs ++ rest) := by
        rw [encChildren_cons]; rfl
      rw [h1]
      have h2 : decodeChildren (none :: cs).length (0 :: (encChildren cs ++ rest)) =
          (decodeChildren cs.length (encChildren cs ++ rest)).map
            (fun cr => (none :: cr.1, cr.2)) := rfl
      rw [h2, ih]
      rfl
    | some d =>
      have h1 : encChildren (some d :: cs) ++ rest =
          1 :: d.length :: (d ++ (encChildren cs ++ rest)) := by
        rw [encChildren_cons]; simp [encodeChild]
      rw [h1]
      have h2 : decodeChildren (some d :: cs).length
            (1 :: d.length :: (d ++ (encChildren cs ++ rest))) =
          if d.length ≤ (d ++ (encChildren cs ++ rest)).length then
            (decodeChildren cs.length ((d ++ (encChildren cs ++ rest)).drop d.length)).map
              (fun cr => (some ((d ++ (encChildren cs ++ rest)).take d.length) :: cr.1, cr.2))
          else none := rfl
      rw [h2, if_pos (by simp), List.take_left, List.drop_left, ih]
      rfl

theorem decoded_encoded_leaf (p : List Nat) (v : Bytes) :
    RlpNode.decoded (RlpNode.encoded (.Leaf p v)) = some (.Leaf p v) := by
  simp only [RlpNode.encoded, RlpNode.decoded]
  rw [if_pos (by simp)]
  rw [List.take_left, List.drop_left]

theorem decoded_encoded_branch (p : List Nat) (cs : List (Option Digest))
    (hlen : cs.length = 16) :
    RlpNode.decoded (RlpNode.encoded (.Branch p cs)) = some (.Branch p cs) := by
  simp only [RlpNode.encoded, RlpNode.decoded]
  rw [if_pos (by simp)]
  rw [List.take_left, List.drop_left]
  have h := decodeChildren_encChildren cs []
  rw [List.append_nil] at h
  rw [← hlen, show cs.foldr (fun c acc => encodeChild c ++ acc) [] = encChildren cs from rfl, h]

theorem decoded_empty_root : RlpNode.decoded EMPTY_ROOT = none := rfl

/-! ## State-shape facts about the walks -/

theorem readNodeCached_root (s : TrieState) (h : Digest) :
    (readNodeCached s h).1.root = s.root := by
  unfold readNodeCached
  rcases hl : lookupCache s.cache h with _ | b
  · rcases hg : dbGet s.db h with _ | b <;> simp [hl, hg]
  · simp [hl]

theorem readNodeCached_oldVal (s : TrieState) (h : Digest) :
    (readNodeCached s h).1.oldVal = s.oldVal := by
  unfold readNodeCached
  rcases hl : lookupCache s.cache h with _ | b
  · rcases hg : dbGet s.db h with _ | b <;> simp [hl, hg]
  · simp [hl]

theorem insert_aux_fst_root {n : Nat} {s A : TrieState} {p : List Nat} {v : Bytes}
    {c : Option Digest} {r : Except TrieError Digest}
    (h : insert_aux n s p v c = (A, r))
    (ih : ∀ (s : TrieState) (path : List Nat) (v : Bytes) (cur : Option Digest),
      ((insert_aux n s path v cur).1).root = s.root) :
    A.root = s.root := by
  have t := ih s p v c
  rw [h] at t
  exact t

theorem insert_aux_root (fuel : Nat) :
    ∀ (s : TrieState) (path : List Nat) (v : Bytes) (cur : Option Digest),
      ((insert_aux fuel s path v cur).1).root = s.root := by
  induction fuel with
  | zero => intro s path v cur; rfl
  | succ n ih =>
    intro s path v cur
    unfold insert_aux
    split
    · -- cur = some hash
      rename_i hash
      have hroot := readNodeCached_root s hash
      split
      next s1 e heq =>
        rw [heq] at hroot; exact hroot
      next s1 nb heq =>
        rw [heq] at hroot
        split
        · -- decoded Leaf
          split
          · -- renew
            exact hroot
          · -- split the leaf
            dsimp only
            split
            next s2 e h1 => exact (insert_aux_fst_root h1 ih).trans hroot
            next s2 d1 h1 =>
              split
              next s3 e h2 =>
                exact (insert_aux_fst_root h2 ih).trans ((insert_aux_fst_root h1 ih).trans hroot)
              next s3 d2 h2 =>
                exact (insert_aux_fst_root h2 ih).trans ((insert_aux_fst_root h1 ih).trans hroot)
        · -- decoded Branch
          dsimp only
          split
          · -- common < part.length
            split
            next s3 e h2 => exact (insert_aux_fst_root h2 ih).trans hroot
            next s3 d2 h2 => exact (insert_aux_fst_root h2 ih).trans hroot
          · -- common = part.length
            split
            next s3 e h2 => exact (insert_aux_fst_root h2 ih).trans hroot
            next s3 d2 h2 => exact (insert_aux_fst_root h2 ih).trans hroot
        · -- decode failed
          exact hroot
    · -- cur = none
      rfl

theorem remove_aux_fst {n : Nat} {s A : TrieState} {p : List Nat}
    {c : Option Digest} {r : Except TrieError (Option Digest)}
    (h : remove_aux n s p c = (A, r))
    (ih : ∀ (s : TrieState) (path : List Nat) (cur : Option Digest),
      ((remove_aux n s path cur).1).root = s.root ∧
        ((remove_aux n s path cur).1).cache = s.cache) :
    A.root = s.root ∧ A.cache = s.cache := by
  have t := ih s p c
  rw [h] at t
  exact t

theorem remove_aux_root_cache (fuel : Nat) :
    ∀ (s : TrieState) (path : List Nat) (cur : Option Digest),
      ((remove_aux fuel s path cur).1).root = s.root ∧
        ((remove_aux fuel s path cur).1).cache = s.cache := by
  induction fuel with
  | zero => intro s path cur; exact ⟨rfl, rfl⟩
  | succ n ih =>
    intro s path cur
    unfold remove_aux
    split
    · -- cur = some hash
      split
      · -- dbGet missing
        exact ⟨rfl, rfl⟩
      · -- dbGet hit
        split
        · -- decoded Leaf
          split
          · exact ⟨rfl, rfl⟩
          · exact ⟨rfl, rfl⟩
        · -- decoded Branch
          dsimp only
          split
          · -- starts with
            split
            next s1 e h1 => exact remove_aux_fst h1 ih
            next s1 newSlot h1 =>
              have hs1 := remove_aux_fst h1 ih
              split
              · -- slot became empty
                split
                · -- 16 empty slots
                  exact hs1
                · split
                  · -- 15 empty slots: collapse
                    split
                    · -- findIdx? none
                      exact hs1
                    · split
                      · -- slot read back empty
                        exact hs1
                      · split
                        · -- collapse target missing
                          exact hs1
                        · split
                          · -- collapse target does not decode
                            exact hs1
                          · -- collapse into a leaf
                            exact ⟨hs1.1, hs1.2⟩
                          · -- collapse into a branch
                            exact ⟨hs1.1, hs1.2⟩
                  · -- at least two occupied slots
                    exact ⟨hs1.1, hs1.2⟩
              · -- slot still occupied
                exact ⟨hs1.1, hs1.2⟩
          · -- not a prefix
            exact ⟨rfl, rfl⟩
        · -- decode failed
          exact ⟨rfl, rfl⟩
    · -- cur = none
      exact ⟨rfl, rfl⟩

theorem insert_aux_fst_root' {n : Nat} {s A : TrieState} {p : List Nat} {v : Bytes}
    {c : Option Digest} {r : Except TrieError Digest}
    (h : insert_aux n s p v c = (A, r)) : A.root = s.root := by
  have t := insert_aux_root n s p v c
  rw [h] at t
  exact t

theorem insert_raw_aux_fst {n : Nat} {s A : TrieState} {node : RlpNode}
    {c : Option Digest} {r : Except TrieError Digest}
    (h : insert_raw_aux n s node c = (A, r))
    (ih : ∀ (s : TrieState) (node : RlpNode) (cur : Option Digest),
      ((insert_raw_aux n s node cur).1).root = s.root) :
    A.root = s.root := by
  have t := ih s node c
  rw [h] at t
  exact t

theorem insert_raw_aux_root (fuel : Nat) :
    ∀ (s : TrieState) (node : RlpNode) (cur : Option Digest),
      ((insert_raw_aux fuel s node cur).1).root = s.root := by
  induction fuel with
  | zero => intro s node cur; rfl
  | succ n ih =>
    intro s node cur
    unfold insert_raw_aux
    split
    · -- cur = some hash
      split
      · -- dbGet missing
        rfl
      · -- dbGet hit
        split
        · -- decoded Leaf
          dsimp only
          split
          · rfl
          · split
            next s2 e h1 => exact insert_aux_fst_root' h1
            next s2 d1 h1 =>
              have e1 : s2.root = s.root := insert_aux_fst_root' h1
              split
              next s3 e h2 => exact (insert_raw_aux_fst h2 ih).trans e1
              next s3 d2 h2 => exact (insert_raw_aux_fst h2 ih).trans e1
        · -- decoded Branch
          dsimp only
          split
          · split
            next s3 e h2 =>
              have t := insert_raw_aux_fst h2 ih
              exact t
            next s3 d2 h2 =>
              have t := insert_raw_aux_fst h2 ih
              exact t
          · split
            next s3 e h2 =>
              have t := insert_raw_aux_fst h2 ih
              exact t
            next s3 d2 h2 =>
              have t := insert_raw_aux_fst h2 ih
              exact t
        · -- decode failed
          rfl
    · -- cur = none
      rfl

/-! ## Claim C3: `from_existing` -/

/-- C3, counterexample.  The claim says `from_existing` succeeds on
`EMPTY_ROOT` without a store lookup, even over an empty store.  In the
code there is no such special case: over an empty store (one that does
not resolve `EMPTY_ROOT`, unlike `MemoryDB`), construction from
`EMPTY_ROOT` fails with `InvalidStateRoot`. -/
theorem c3_counterexample :
    from_existing ([] : List Bytes) EMPTY_ROOT = .error (.InvalidStateRoot EMPTY_ROOT) := rfl

/-- C3, amended: `from_existing(store, root)` fails with
`InvalidStateRoot` exactly when `store.contains(root)` is false, with no
special-casing of `EMPTY_ROOT` in the constructor itself; on a fresh
`MemoryDB` (which resolves `EMPTY_ROOT` out of the box) construction
from `EMPTY_ROOT` therefore succeeds, and construction from any digest
the store does not contain fails. -/
theorem c3_from_existing_iff_contains (db : List Bytes) (root : Digest) :
    (root ∈ db → from_existing db root =
        .ok { db := db, cache := [], root := root, oldVal := none }) ∧
    (root ∉ db → from_existing db root = .error (.InvalidStateRoot root)) := by
  constructor
  · intro h
    unfold from_existing
    rw [if_pos (by exact h)]
  · intro h
    unfold from_existing
    rw [if_neg (by exact h)]

/-- C3, witness: on the fresh `MemoryDB` store, `from_existing` succeeds
from `EMPTY_ROOT` and fails from a digest that was never stored. -/
theorem c3_witness :
    (EMPTY_ROOT ∈ memDB ∧ from_existing memDB EMPTY_ROOT =
        .ok { db := memDB, cache := [], root := EMPTY_ROOT, oldVal := none }) ∧
    (([3] : Digest) ∉ memDB ∧ from_existing memDB [3] = .error (.InvalidStateRoot [3])) :=
  ⟨⟨by decide, (c3_from_existing_iff_contains memDB EMPTY_ROOT).1 (by decide)⟩,
   ⟨by decide, (c3_from_existing_iff_contains memDB [3]).2 (by decide)⟩⟩

/-! ## Claim C4: the root slot is only advanced on success, once -/

/-- C4: for `insert`, `remove` and `insert_raw`, a failing walk leaves
the root slot exactly as it was before the call, and a successful walk
overwrites it exactly once, with precisely the digest (or
empty-tree marker) the walk returned. -/
theorem c4_root_only_advanced_on_success :
    (∀ (s : TrieState) (path : List Nat) (v : Bytes) (e : TrieError),
      (insert s path v).2 = .error e → (insert s path v).1.root = s.root) ∧
    (∀ (s s' : TrieState) (path : List Nat) (v : Bytes) (d : Digest),
      insert_aux (defaultFuel path) { s with oldVal := none } path v (some s.root) =
          (s', .ok d) →
        (insert s path v).1.root = d) ∧
    (∀ (s : TrieState) (path : List Nat) (e : TrieError),
      (remove s path).2 = .error e → (remove s path).1.root = s.root) ∧
    (∀ (s s' : TrieState) (path : List Nat) (r : Option Digest),
      remove_aux (defaultFuel path) { s with oldVal := none } path (some s.root) =
          (s', .ok r) →
        (remove s path).1.root = (match r with | some h => h | none => EMPTY_ROOT)) ∧
    (∀ (s : TrieState) (node : RlpNode) (e : TrieError),
      (insert_raw s node).2 = .error e → (insert_raw s node).1.root = s.root) ∧
    (∀ (s s' : TrieState) (node : RlpNode) (d : Digest),
      insert_raw_aux (defaultFuel node.path) { s with oldVal := none } node (some s.root) =
          (s', .ok d) →
        (insert_raw s node).1.root = d) := by
  refine ⟨?_, ?_, ?_, ?_, ?_, ?_⟩
  · intro s path v e herr
    unfold insert at herr ⊢
    dsimp only at herr ⊢
    rcases haux : insert_aux (defaultFuel path) { s with oldVal := none } path v
        (some s.root) with ⟨s1, r⟩
    have hr := insert_aux_fst_root' haux
    rw [haux] at herr
    rcases r with e1 | d
    · exact hr
    · exact Except.noConfusion herr
  · intro s s' path v d haux
    unfold insert
    dsimp only
    rw [haux]
  · intro s path e herr
    unfold remove at herr ⊢
    dsimp only at herr ⊢
    rcases haux : remove_aux (defaultFuel path) { s with oldVal := none } path
        (some s.root) with ⟨s1, r⟩
    have hr := (remove_aux_fst haux
      (fun a b c => remove_aux_root_cache (defaultFuel path) a b c)).1
    rw [haux] at herr
    rcases r with e1 | r
    · exact hr
    · rcases r with _ | h
      · exact Except.noConfusion herr
      · exact Except.noConfusion herr
  · intro s s' path r haux
    unfold remove
    dsimp only
    rw [haux]
    rcases r with _ | h <;> rfl
  · intro s node e herr
    unfold insert_raw at herr ⊢
    dsimp only at herr ⊢
    rcases haux : insert_raw_aux (defaultFuel node.path) { s with oldVal := none } node
        (some s.root) with ⟨s1, r⟩
    have hr := insert_raw_aux_fst haux
      (fun a b c => insert_raw_aux_root (defaultFuel node.path) a b c)
    rw [haux] at herr
    rcases r with e1 | d
    · exact hr
    · exact Except.noConfusion herr
  · intro s s' node d haux
    unfold insert_raw
    dsimp only
    rw [haux]

/-- C4, witness: a failing insert (the store cannot resolve the root)
leaves the root slot untouched; a successful insert overwrites it with
the digest the walk returned. -/
theorem c4_witness :
    ((insert (trieNew []) [0] [1]).2 = .error (.IncompleteDatabase EMPTY_ROOT) ∧
      (insert (trieNew []) [0] [1]).1.root = (trieNew []).root) ∧
    (insert_aux (defaultFuel [0]) { trieNew memDB with oldVal := none } [0] [1]
        (some (trieNew memDB).root) =
          (((insert_aux (defaultFuel [0]) { trieNew memDB with oldVal := none } [0] [1]
            (some (trieNew memDB).root)).1), .ok (RlpNode.encoded (.Leaf [0] [1]))) ∧
      (insert (trieNew memDB) [0] [1]).1.root = RlpNode.encoded (.Leaf [0] [1])) :=
  ⟨⟨rfl, c4_root_only_advanced_on_success.1 (trieNew []) [0] [1]
      (.IncompleteDatabase EMPTY_ROOT) rfl⟩,
   ⟨rfl, c4_root_only_advanced_on_success.2.1 (trieNew memDB) _ [0] [1]
      (RlpNode.encoded (.Leaf [0] [1])) rfl⟩⟩

/-! ## Claim C6: cache discipline -/

/-- C6, counterexample.  The claim says every read during a mutation
consults the cache and, on a miss, inserts the read node into the cache.
A `remove` on a one-leaf trie reads the leaf from the store (it returns
its value), yet the cache stays empty: `remove_aux` bypasses the cache
entirely. -/
theorem c6_counterexample :
    (remove { db := [RlpNode.encoded (.Leaf [3] [7]), EMPTY_ROOT], cache := [],
              root := RlpNode.encoded (.Leaf [3] [7]), oldVal := none } [3]).2 =
        .ok (some [7]) ∧
    (remove { db := [RlpNode.encoded (.Leaf [3] [7]), EMPTY_ROOT], cache := [],
              root := RlpNode.encoded (.Leaf [3] [7]), oldVal := none } [3]).1.cache = [] :=
  ⟨rfl, rfl⟩

theorem lookupCache_cacheInsert_self (c : List (Digest × Bytes)) (y : Digest) :
    lookupCache (cacheInsert c y y) y = some y := by
  simp [cacheInsert, lookupCache]

theorem lookupCache_cacheInsert_diag (c : List (Digest × Bytes)) (y x : Digest)
    (h : lookupCache c x = some x) : lookupCache (cacheInsert c y y) x = some x := by
  by_cases hyx : y = x
  · subst hyx
    simp [cacheInsert, lookupCache]
  · simpa [cacheInsert, lookupCache, hyx] using h

theorem writethrough_refl (s : TrieState) : WriteThrough s s :=
  ⟨fun _ h => h, fun _ hb => Or.inl hb⟩

theorem writethrough_trans {a b c : TrieState} (h1 : WriteThrough a b)
    (h2 : WriteThrough b c) : WriteThrough a c := by
  refine ⟨fun x hx => h2.1 x (h1.1 x hx), fun d hd => ?_⟩
  rcases h2.2 d hd with hdb | hc
  · rcases h1.2 d hdb with hda | hb1
    · exact Or.inl hda
    · exact Or.inr (h2.1 d hb1)
  · exact Or.inr hc

/-- One write-through store write: the new bytes go to the store and the
diagonal pair goes to the cache (other fields may change freely). -/
theorem writethrough_write {a s A : TrieState} (nb : Bytes) (h : WriteThrough a s)
    (hdb : A.db = nb :: s.db) (hc : A.cache = cacheInsert s.cache nb nb) :
    WriteThrough a A := by
  constructor
  · intro x hx
    rw [hc]
    exact lookupCache_cacheInsert_diag _ _ _ (h.1 x hx)
  · intro b hb
    rw [hdb] at hb
    rcases List.mem_cons.1 hb with rfl | hmem
    · rw [hc]
      exact Or.inr (lookupCache_cacheInsert_self _ _)
    · rcases h.2 b hmem with hda | hcl
      · exact Or.inl hda
      · rw [hc]
        exact Or.inr (lookupCache_cacheInsert_diag _ _ _ hcl)

/-- The cached read of `insert_aux` is itself write-through: it touches
no store entry, and the only cache entry it may add is the diagonal pair
of the digest it read (the store is content-addressed). -/
theorem readNodeCached_writethrough (s : TrieState) (h : Digest) :
    WriteThrough s ((readNodeCached s h).1) ∧ ((readNodeCached s h).1).db = s.db := by
  unfold readNodeCached
  rcases hl : lookupCache s.cache h with _ | b
  · rcases hg : dbGet s.db h with _ | b
    · simp only [hl, hg]
      exact ⟨writethrough_refl s, trivial⟩
    · have hb : b = h := by
        unfold dbGet at hg
        split at hg
        · exact (Option.some.inj hg).symm
        · exact Option.noConfusion hg
      subst hb
      simp only [hl, hg]
      exact ⟨⟨fun x hx => lookupCache_cacheInsert_diag _ _ _ hx,
        fun d hd => Or.inl hd⟩, trivial⟩
  · simp only [hl]
    exact ⟨writethrough_refl s, trivial⟩

theorem insert_aux_wt_step {n : Nat} {s A : TrieState} {p : List Nat} {v : Bytes}
    {c : Option Digest} {r : Except TrieError Digest}
    (h : insert_aux n s p v c = (A, r))
    (ih : ∀ (s : TrieState) (path : List Nat) (v : Bytes) (cur : Option Digest),
      WriteThrough s ((insert_aux n s path v cur).1)) :
    WriteThrough s A := by
  have t := ih s p v c
  rw [h] at t
  exact t

/-- `insert_aux` is write-through: every byte string it adds to the
store is found in its final cache. -/
theorem insert_aux_writethrough (fuel : Nat) :
    ∀ (s : TrieState) (path : List Nat) (v : Bytes) (cur : Option Digest),
      WriteThrough s ((insert_aux fuel s path v cur).1) := by
  induction fuel with
  | zero => intro s path v cur; exact writethrough_refl s
  | succ n ih =>
    intro s path v cur
    unfold insert_aux
    split
    · -- cur = some hash
      rename_i hash
      have hrd := readNodeCached_writethrough s hash
      split
      next s1 e heq =>
        rw [heq] at hrd
        exact hrd.1
      next s1 nb heq =>
        rw [heq] at hrd
        split
        · -- decoded Leaf
          split
          · -- renew
            exact writethrough_write _ hrd.1 rfl rfl
          · -- split the leaf
            dsimp only
            split
            next s2 e h1 => exact writethrough_trans hrd.1 (insert_aux_wt_step h1 ih)
            next s2 d1 h1 =>
              split
              next s3 e h2 =>
                exact writethrough_trans
                  (writethrough_trans hrd.1 (insert_aux_wt_step h1 ih))
                  (insert_aux_wt_step h2 ih)
              next s3 d2 h2 =>
                exact writethrough_write _
                  (writethrough_trans
                    (writethrough_trans hrd.1 (insert_aux_wt_step h1 ih))
                    (insert_aux_wt_step h2 ih)) rfl rfl
        · -- decoded Branch
          dsimp only
          split
          · -- common < part.length: write the demoted branch, then recurse
            split
            next s3 e h2 =>
              exact writethrough_trans
                (writethrough_write _ hrd.1 rfl rfl) (insert_aux_wt_step h2 ih)
            next s3 d2 h2 =>
              exact writethrough_write _
                (writethrough_trans
                  (writethrough_write _ hrd.1 rfl rfl)
                  (insert_aux_wt_step h2 ih)) rfl rfl
          · -- common = part.length: recurse into the child slot
            split
            next s3 e h2 =>
              exact writethrough_trans hrd.1 (insert_aux_wt_step h2 ih)
            next s3 d2 h2 =>
              exact writethrough_write _
                (writethrough_trans hrd.1 (insert_aux_wt_step h2 ih)) rfl rfl
        · -- decode failed
          exact writethrough_write _ hrd.1 rfl rfl
    · -- cur = none
      exact writethrough_write _ (writethrough_refl s) rfl rfl

theorem remove_aux_cache_transport_step {n : Nat} {s A : TrieState} {p : List Nat}
    {c : Option Digest} {r : Except TrieError (Option Digest)}
    (h : remove_aux n s p c = (A, r)) (c' : List (Digest × Bytes))
    (ih : ∀ (s : TrieState) (path : List Nat) (cur : Option Digest)
        (c' : List (Digest × Bytes)),
      remove_aux n { s with cache := c' } path cur =
        ({ (remove_aux n s path cur).1 with cache := c' },
          (remove_aux n s path cur).2)) :
    remove_aux n { s with cache := c' } p c = ({ A with cache := c' }, r) := by
  have t := ih s p c c'
  rw [h] at t
  exact t

/-- `remove_aux` neither consults nor updates the cache: swapping the
cache in changes nothing but the (passed-through) cache field of the
result. -/
theorem remove_aux_cache_transport (fuel : Nat) :
    ∀ (s : TrieState) (path : List Nat) (cur : Option Digest)
      (c' : List (Digest × Bytes)),
      remove_aux fuel { s with cache := c' } path cur =
        ({ (remove_aux fuel s path cur).1 with cache := c' },
          (remove_aux fuel s path cur).2) := by
  induction fuel with
  | zero => intro s path cur c'; rfl
  | succ n ih =>
    intro s path cur c'
    unfold remove_aux
    dsimp only
    split
    · -- cur = some hash
      split
      · -- dbGet missing
        rfl
      · -- dbGet hit
        split
        · -- decoded Leaf
          split
          · rfl
          · rfl
        · -- decoded Branch
          split
          · -- starts with: the recursive call
            rename_i part children hdec hpp
            rw [ih]
            rcases hrec : remove_aux n s ((path.drop part.length).drop 1)
                (children.getD (nsAt (path.drop part.length) 0) none) with ⟨s1, r1⟩
            dsimp only
            rcases r1 with e | newSlot
            · rfl
            · dsimp only
              split
              · -- slot became empty
                split
                · -- 16 empty slots
                  rfl
                · split
                  · -- 15 empty slots: collapse
                    split
                    · rfl
                    · split
                      · rfl
                      · split
                        · rfl
                        · split
                          · rfl
                          · rfl
                          · rfl
                  · rfl
              · rfl
          · -- not a prefix of the path
            rfl
        · -- decode failed
          rfl
    · -- cur = none
      rfl

/-- `insert_raw_aux` reads the store directly: a digest the store cannot
resolve fails the walk even when the cache holds its bytes. -/
theorem insert_raw_aux_read_bypass (fuel : Nat) (s : TrieState) (node : RlpNode)
    (h : Digest) (hget : dbGet s.db h = none) :
    insert_raw_aux (fuel + 1) s node (some h) = (s, .error (.IncompleteDatabase h)) := by
  unfold insert_raw_aux
  dsimp only
  rw [hget]

theorem cache_of_insert_aux {n : Nat} {s A : TrieState} {p : List Nat} {v : Bytes}
    {c : Option Digest} {r : Except TrieError Digest}
    (h : insert_aux n s p v c = (A, r)) :
    ∃ (f2 : Nat) (s2 : TrieState) (p2 : List Nat) (v2 : Bytes) (c2 : Option Digest),
      A.cache = ((insert_aux f2 s2 p2 v2 c2).1).cache :=
  ⟨n, s, p, v, c, by rw [h]⟩

theorem insert_raw_aux_cache_step {n : Nat} {s A : TrieState} {node : RlpNode}
    {c : Option Digest} {r : Except TrieError Digest}
    (h : insert_raw_aux n s node c = (A, r))
    (ih : ∀ (s : TrieState) (node : RlpNode) (cur : Option Digest),
      ((insert_raw_aux n s node cur).1).cache = s.cache ∨
        ∃ (f2 : Nat) (s2 : TrieState) (p2 : List Nat) (v2 : Bytes) (c2 : Option Digest),
          ((insert_raw_aux n s node cur).1).cache = ((insert_aux f2 s2 p2 v2 c2).1).cache) :
    A.cache = s.cache ∨
      ∃ (f2 : Nat) (s2 : TrieState) (p2 : List Nat) (v2 : Bytes) (c2 : Option Digest),
        A.cache = ((insert_aux f2 s2 p2 v2 c2).1).cache := by
  have t := ih s node c
  rw [h] at t
  exact t

/-- `insert_raw_aux`'s own writes never touch the cache: its final cache
is its initial one, unless an `insert_aux` subcall produced it. -/
theorem insert_raw_aux_cache (fuel : Nat) :
    ∀ (s : TrieState) (node : RlpNode) (cur : Option Digest),
      ((insert_raw_aux fuel s node cur).1).cache = s.cache ∨
        ∃ (f2 : Nat) (s2 : TrieState) (p2 : List Nat) (v2 : Bytes) (c2 : Option Digest),
          ((insert_raw_aux fuel s node cur).1).cache =
            ((insert_aux f2 s2 p2 v2 c2).1).cache := by
  induction fuel with
  | zero => intro s node cur; exact Or.inl rfl
  | succ n ih =>
    intro s node cur
    unfold insert_raw_aux
    split
    · -- cur = some hash
      split
      · -- dbGet missing
        exact Or.inl rfl
      · -- dbGet hit
        split
        · -- decoded Leaf
          dsimp only
          split
          · -- renew
            exact Or.inl rfl
          · -- split the leaf: insert_aux subcall, then the raw recursion
            split
            next s2 e h1 => exact Or.inr (cache_of_insert_aux h1)
            next s2 d1 h1 =>
              split
              next s3 e h2 =>
                rcases insert_raw_aux_cache_step h2 ih with heq | hex
                · rcases cache_of_insert_aux h1 with ⟨f2, t2, p2, v2, c2, hc⟩
                  exact Or.inr ⟨f2, t2, p2, v2, c2, heq.trans hc⟩
                · rcases hex with ⟨f2, t2, p2, v2, c2, hc⟩
                  exact Or.inr ⟨f2, t2, p2, v2, c2, hc⟩
              next s3 d2 h2 =>
                rcases insert_raw_aux_cache_step h2 ih with heq | hex
                · rcases cache_of_insert_aux h1 with ⟨f2, t2, p2, v2, c2, hc⟩
                  exact Or.inr ⟨f2, t2, p2, v2, c2, heq.trans hc⟩
                · rcases hex with ⟨f2, t2, p2, v2, c2, hc⟩
                  exact Or.inr ⟨f2, t2, p2, v2, c2, hc⟩
        · -- decoded Branch
          dsimp only
          split
          · -- common < part.length: a plain store write, then recurse
            split
            next s3 e h2 =>
              rcases insert_raw_aux_cache_step h2 ih with heq | hex
              · exact Or.inl heq
              · rcases hex with ⟨f2, t2, p2, v2, c2, hc⟩
                exact Or.inr ⟨f2, t2, p2, v2, c2, hc⟩
            next s3 d2 h2 =>
              rcases insert_raw_aux_cache_step h2 ih with heq | hex
              · exact Or.inl heq
              · rcases hex with ⟨f2, t2, p2, v2, c2, hc⟩
                exact Or.inr ⟨f2, t2, p2, v2, c2, hc⟩
          · -- common = part.length: recurse into the child slot
            split
            next s3 e h2 =>
              rcases insert_raw_aux_cache_step h2 ih with heq | hex
              · exact Or.inl heq
              · rcases hex with ⟨f2, t2, p2, v2, c2, hc⟩
                exact Or.inr ⟨f2, t2, p2, v2, c2, hc⟩
            next s3 d2 h2 =>
              rcases insert_raw_aux_cache_step h2 ih with heq | hex
              · exact Or.inl heq
              · rcases hex with ⟨f2, t2, p2, v2, c2, hc⟩
                exact Or.inr ⟨f2, t2, p2, v2, c2, hc⟩
        · -- decode failed
          exact Or.inl rfl
    · -- cur = none
      exact Or.inl rfl

/-- C6, amended: only `insert_aux` follows the claimed cache discipline —
its node read consults the cache first (a hit answers from the cache with
the state untouched, whatever the store holds), on a miss it reads the
store (failing with `IncompleteDatabase` when absent) and inserts the
bytes into the cache, and every node it freshly writes to the store is
found in its cache afterwards.  `remove_aux` neither consults nor updates
the cache: swapping the cache in changes nothing but the (passed-through)
cache field of the result.  `insert_raw_aux`'s own reads and writes
bypass the cache: dereferencing a digest absent from the store fails
even when the digest is cached, and its final cache is its initial one
except when an `insert_aux` subcall produced it. -/
theorem c6_cache_discipline :
    (∀ (s : TrieState) (h : Digest) (b : Bytes),
      lookupCache s.cache h = some b → readNodeCached s h = (s, .ok b)) ∧
    (∀ (s : TrieState) (h : Digest) (b : Bytes),
      lookupCache s.cache h = none → dbGet s.db h = some b →
        readNodeCached s h = ({ s with cache := cacheInsert s.cache h b }, .ok b)) ∧
    (∀ (s : TrieState) (h : Digest),
      lookupCache s.cache h = none → dbGet s.db h = none →
        readNodeCached s h = (s, .error (.IncompleteDatabase h))) ∧
    (∀ (fuel : Nat) (s : TrieState) (path : List Nat) (v : Bytes) (cur : Option Digest)
        (b : Bytes),
      b ∈ ((insert_aux fuel s path v cur).1).db → b ∉ s.db →
        lookupCache ((insert_aux fuel s path v cur).1).cache b = some b) ∧
    (∀ (fuel : Nat) (s : TrieState) (path : List Nat) (cur : Option Digest)
        (c' : List (Digest × Bytes)),
      remove_aux fuel { s with cache := c' } path cur =
        ({ (remove_aux fuel s path cur).1 with cache := c' },
          (remove_aux fuel s path cur).2)) ∧
    (∀ (fuel : Nat) (s : TrieState) (node : RlpNode) (h : Digest),
      dbGet s.db h = none →
        insert_raw_aux (fuel + 1) s node (some h) =
          (s, .error (.IncompleteDatabase h))) ∧
    (∀ (fuel : Nat) (s : TrieState) (node : RlpNode) (cur : Option Digest),
      ((insert_raw_aux fuel s node cur).1).cache = s.cache ∨
        ∃ (f2 : Nat) (s2 : TrieState) (p2 : List Nat) (v2 : Bytes) (c2 : Option Digest),
          ((insert_raw_aux fuel s node cur).1).cache =
            ((insert_aux f2 s2 p2 v2 c2).1).cache) := by
  refine ⟨?_, ?_, ?_, ?_, ?_, ?_, ?_⟩
  · intro s h b hl
    unfold readNodeCached
    rw [hl]
  · intro s h b hl hg
    unfold readNodeCached
    rw [hl, hg]
  · intro s h hl hg
    unfold readNodeCached
    rw [hl, hg]
  · intro fuel s path v cur b hb hnot
    rcases (insert_aux_writethrough fuel s path v cur).2 b hb with hin | hc
    · exact absurd hin hnot
    · exact hc
  · exact remove_aux_cache_transport
  · exact insert_raw_aux_read_bypass
  · exact insert_raw_aux_cache

/-- C6, witness: a cache hit answers a read over an empty store; the
first read of the fresh trie fills the cache; the missing digest fails;
the leaf `insert_aux` writes is found in its cache afterwards; and a raw
insert fails on a store miss although the digest sits in the cache. -/
theorem c6_witness :
    (readNodeCached { db := [], cache := [([9], [9])], root := [0], oldVal := none } [9] =
      ({ db := [], cache := [([9], [9])], root := [0], oldVal := none }, .ok [9])) ∧
    (readNodeCached (trieNew memDB) EMPTY_ROOT =
      ({ trieNew memDB with
          cache := cacheInsert (trieNew memDB).cache EMPTY_ROOT EMPTY_ROOT },
        .ok EMPTY_ROOT)) ∧
    (readNodeCached (trieNew []) EMPTY_ROOT =
      (trieNew [], .error (.IncompleteDatabase EMPTY_ROOT))) ∧
    (lookupCache ((insert_aux 2 (trieNew memDB) [4] [6] (some EMPTY_ROOT)).1).cache
        [0, 1, 4, 6] = some [0, 1, 4, 6]) ∧
    (insert_raw_aux 3 { db := [], cache := [([9], [9])], root := [0], oldVal := none }
        (.Leaf [] []) (some [9]) =
      ({ db := [], cache := [([9], [9])], root := [0], oldVal := none },
        .error (.IncompleteDatabase [9]))) :=
  ⟨c6_cache_discipline.1 _ [9] [9] (by decide),
   c6_cache_discipline.2.1 (trieNew memDB) EMPTY_ROOT EMPTY_ROOT (by decide) (by decide),
   c6_cache_discipline.2.2.1 (trieNew []) EMPTY_ROOT (by decide) (by decide),
   c6_cache_discipline.2.2.2.1 2 (trieNew memDB) [4] [6] (some EMPTY_ROOT) [0, 1, 4, 6]
     (by decide) (by decide),
   c6_cache_discipline.2.2.2.2.2.1 2 _ (.Leaf [] []) [9] (by decide)⟩

/-! ## Claim C10: mutating the empty trie dereferences `EMPTY_ROOT` -/

/-- C10: `insert`, `remove` and `insert_raw` pass the root digest to the
walk as an existing node even when it is `EMPTY_ROOT`, so over a store
that cannot resolve `EMPTY_ROOT` the first mutation fails with
`IncompleteDatabase(EMPTY_ROOT)` instead of creating the leaf or being a
no-op. -/
theorem c10_empty_root_is_dereferenced
    (s : TrieState) (path : List Nat) (v : Bytes) (node : RlpNode)
    (hroot : s.root = EMPTY_ROOT) (hdb : EMPTY_ROOT ∉ s.db)
    (hcache : lookupCache s.cache EMPTY_ROOT = none) :
    (insert s path v).2 = .error (.IncompleteDatabase EMPTY_ROOT) ∧
    (remove s path).2 = .error (.IncompleteDatabase EMPTY_ROOT) ∧
    (insert_raw s node).2 = .error (.IncompleteDatabase EMPTY_ROOT) := by
  have hget : dbGet s.db EMPTY_ROOT = none := by
    unfold dbGet
    rw [if_neg hdb]
  refine ⟨?_, ?_, ?_⟩
  · unfold insert
    dsimp only
    rw [hroot, show defaultFuel path = path.length + 1 + 1 from rfl]
    unfold insert_aux readNodeCached
    simp [hcache, hget]
  · unfold remove
    dsimp only
    rw [hroot, show defaultFuel path = path.length + 1 + 1 from rfl]
    unfold remove_aux
    simp [hget]
  · unfold insert_raw
    dsimp only
    rw [hroot, show defaultFuel node.path = node.path.length + 1 + 1 from rfl]
    unfold insert_raw_aux
    simp [hget]

/-- C10, witness: over the empty store (which, unlike `MemoryDB`, does
not resolve `EMPTY_ROOT`), the first mutation of a fresh trie fails with
`IncompleteDatabase(EMPTY_ROOT)`. -/
theorem c10_witness :
    (trieNew []).root = EMPTY_ROOT ∧ EMPTY_ROOT ∉ (trieNew []).db ∧
    lookupCache (trieNew []).cache EMPTY_ROOT = none ∧
    ((insert (trieNew []) [0] [1]).2 = .error (.IncompleteDatabase EMPTY_ROOT) ∧
      (remove (trieNew []) [0]).2 = .error (.IncompleteDatabase EMPTY_ROOT) ∧
      (insert_raw (trieNew []) (.Leaf [0] [1])).2 =
        .error (.IncompleteDatabase EMPTY_ROOT)) :=
  ⟨rfl, by decide, rfl,
    c10_empty_root_is_dereferenced (trieNew []) [0] [1] (.Leaf [0] [1]) rfl (by decide) rfl⟩

/-! ## Claim C9: decode failures are silently replaced, not errors -/

/-- C9: when the bytes stored under the current digest fail to decode,
no error is raised: `insert_aux` replaces the position with a fresh leaf
holding only the new (path, value), `insert_raw_aux` replaces it with
the given node, and `remove_aux` returns the position unchanged, all
leaving `old_val` untouched. -/
theorem c9_decode_failure_not_an_error
    (s : TrieState) (path : List Nat) (v : Bytes) (node : RlpNode) (h : Digest) (fuel : Nat)
    (hcache : lookupCache s.cache h = none) (hmem : h ∈ s.db)
    (hdec : RlpNode.decoded h = none) :
    (insert_aux (fuel + 1) s path v (some h)).2 = .ok (RlpNode.encoded (.Leaf path v)) ∧
    ((insert_aux (fuel + 1) s path v (some h)).1).oldVal = s.oldVal ∧
    (insert_raw_aux (fuel + 1) s node (some h)).2 = .ok (RlpNode.encoded node) ∧
    ((insert_raw_aux (fuel + 1) s node (some h)).1).oldVal = s.oldVal ∧
    remove_aux (fuel + 1) s path (some h) = (s, .ok (some h)) := by
  have hget : dbGet s.db h = some h := by
    unfold dbGet
    rw [if_pos hmem]
  refine ⟨?_, ?_, ?_, ?_, ?_⟩
  · unfold insert_aux readNodeCached
    simp [hcache, hget, hdec, dbInsert]
  · unfold insert_aux readNodeCached
    simp [hcache, hget, hdec, dbInsert]
  · unfold insert_raw_aux
    simp [hget, hdec, dbInsert]
  · unfold insert_raw_aux
    simp [hget, hdec, dbInsert]
  · unfold remove_aux
    simp [hget, hdec, dbInsert]

/-- C9, witness: the byte string `[99]` is not a valid node encoding;
with it stored under the root, the three walks behave as stated. -/
theorem c9_witness :
    lookupCache ([] : List (Digest × Bytes)) [99] = none ∧ ([99] : Digest) ∈
      [([99] : Bytes), EMPTY_ROOT] ∧ RlpNode.decoded [99] = none ∧
    ((insert_aux 1 { db := [[99], EMPTY_ROOT], cache := [], root := [99], oldVal := none }
        [4] [5] (some [99])).2 = .ok (RlpNode.encoded (.Leaf [4] [5])) ∧
      (insert_raw_aux 1 { db := [[99], EMPTY_ROOT], cache := [], root := [99], oldVal := none }
        (.Leaf [4] [5]) (some [99])).2 = .ok (RlpNode.encoded (.Leaf [4] [5])) ∧
      remove_aux 1 { db := [[99], EMPTY_ROOT], cache := [], root := [99], oldVal := none }
        [4] (some [99]) =
        ({ db := [[99], EMPTY_ROOT], cache := [], root := [99], oldVal := none },
          .ok (some [99]))) :=
  ⟨rfl, by decide, rfl,
    (c9_decode_failure_not_an_error
      { db := [[99], EMPTY_ROOT], cache := [], root := [99], oldVal := none }
      [4] [5] (.Leaf [4] [5]) [99] 0 rfl (by decide) rfl).1,
    (c9_decode_failure_not_an_error
      { db := [[99], EMPTY_ROOT], cache := [], root := [99], oldVal := none }
      [4] [5] (.Leaf [4] [5]) [99] 0 rfl (by decide) rfl).2.2.1,
    (c9_decode_failure_not_an_error
      { db := [[99], EMPTY_ROOT], cache := [], root := [99], oldVal := none }
      [4] [5] (.Leaf [4] [5]) [99] 0 rfl (by decide) rfl).2.2.2.2⟩

/-! ## Claim C7: which digest a failure report carries -/

/-- C7, counterexample.  During a remove whose branch collapse needs the
surviving child, that child's digest `[9,9,9]` is absent from the store;
the claim says the failure carries the missing digest, but the code
(src line 347) reports the digest of the *parent* branch instead. -/
theorem c7_counterexample :
    dbGet [RlpNode.encoded (.Branch []
        ((empty_children.set 0 (some (RlpNode.encoded (.Leaf [] [5])))).set 1 (some [9,9,9]))),
      RlpNode.encoded (.Leaf [] [5]), EMPTY_ROOT] [9,9,9] = none ∧
    (remove
      { db := [RlpNode.encoded (.Branch []
            ((empty_children.set 0 (some (RlpNode.encoded (.Leaf [] [5])))).set 1 (some [9,9,9]))),
          RlpNode.encoded (.Leaf [] [5]), EMPTY_ROOT]
        cache := []
        root := RlpNode.encoded (.Branch []
          ((empty_children.set 0 (some (RlpNode.encoded (.Leaf [] [5])))).set 1 (some [9,9,9])))
        oldVal := none } [0]).2 =
      .error (.IncompleteDatabase (RlpNode.encoded (.Branch []
        ((empty_children.set 0 (some (RlpNode.encoded (.Leaf [] [5])))).set 1 (some [9,9,9]))))) ∧
    RlpNode.encoded (.Branch []
        ((empty_children.set 0 (some (RlpNode.encoded (.Leaf [] [5])))).set 1 (some [9,9,9]))) ≠
      [9,9,9] :=
  ⟨rfl, rfl, by decide⟩

/-- C7, amended: when a walk dereferences the digest of the *current*
node and it is absent from the store, the failure carries exactly that
digest (for all three walks); the collapse-target read during remove is
the exception — there the failure carries the digest of the branch
being fixed, not the missing child digest. -/
theorem c7_missing_digest_reported
    : (∀ (fuel : Nat) (s : TrieState) (path : List Nat) (v : Bytes) (h : Digest),
        lookupCache s.cache h = none → h ∉ s.db →
        insert_aux (fuel + 1) s path v (some h) = (s, .error (.IncompleteDatabase h))) ∧
      (∀ (fuel : Nat) (s : TrieState) (node : RlpNode) (h : Digest), h ∉ s.db →
        insert_raw_aux (fuel + 1) s node (some h) = (s, .error (.IncompleteDatabase h))) ∧
      (∀ (fuel : Nat) (s : TrieState) (path : List Nat) (h : Digest), h ∉ s.db →
        remove_aux (fuel + 1) s path (some h) = (s, .error (.IncompleteDatabase h))) := by
  refine ⟨?_, ?_, ?_⟩
  · intro fuel s path v h hcache hdb
    have hget : dbGet s.db h = none := by
      unfold dbGet
      rw [if_neg hdb]
    unfold insert_aux readNodeCached
    simp [hcache, hget]
  · intro fuel s node h hdb
    have hget : dbGet s.db h = none := by
      unfold dbGet
      rw [if_neg hdb]
    unfold insert_raw_aux
    simp [hget]
  · intro fuel s path h hdb
    have hget : dbGet s.db h = none := by
      unfold dbGet
      rw [if_neg hdb]
    unfold remove_aux
    simp [hget]

/-- C7, witness: a dangling current-node digest makes each walk fail
with `IncompleteDatabase` of exactly that digest. -/
theorem c7_witness :
    lookupCache ([] : List (Digest × Bytes)) [42] = none ∧ ([42] : Digest) ∉ [EMPTY_ROOT] ∧
    (insert_aux 1 { db := [EMPTY_ROOT], cache := [], root := [42], oldVal := none }
        [4] [5] (some [42]) =
      ({ db := [EMPTY_ROOT], cache := [], root := [42], oldVal := none },
        .error (.IncompleteDatabase [42]))) ∧
    (remove_aux 1 { db := [EMPTY_ROOT], cache := [], root := [42], oldVal := none }
        [4] (some [42]) =
      ({ db := [EMPTY_ROOT], cache := [], root := [42], oldVal := none },
        .error (.IncompleteDatabase [42]))) :=
  ⟨rfl, by decide,
    c7_missing_digest_reported.1 0
      { db := [EMPTY_ROOT], cache := [], root := [42], oldVal := none } [4] [5] [42]
      rfl (by decide),
    c7_missing_digest_reported.2.2 0
      { db := [EMPTY_ROOT], cache := [], root := [42], oldVal := none } [4] [42]
      (by decide)⟩

/-! ## Claim C2: the branch fixup after a removal empties a slot -/

theorem getD_set_none_self (l : List (Option Digest)) (i : Nat) :
    (l.set i none).getD i none = none := by
  induction l generalizing i with
  | nil => simp [List.getD]
  | cons a l ih =>
    cases i with
    | zero => simp
    | succ k => simpa using ih k

theorem countP_isNone_add_isSome (l : List (Option Digest)) :
    l.countP (fun x => x.isNone) + l.countP (fun x => x.isSome) = l.length := by
  induction l with
  | nil => rfl
  | cons a l ih =>
    cases a <;> simp [List.countP_cons] <;> omega

/-- C2: after the recursive removal empties the selected child slot of a
branch, the result is determined by the number of occupied slots left:
0 occupied — the position becomes empty; 1 occupied at index `i` with
digest `h` — the branch is replaced by a node of the same variant as the
node decoded from `h`, prefixed by the branch head, the nibble `i`, and
the child's head, with its payload unchanged; 2 or more occupied — the
branch is re-emitted unchanged in shape. -/
theorem c2_remove_branch_fixup
    (fuel : Nat) (s s1 : TrieState) (path part : List Nat)
    (children : List (Option Digest)) (hash : Digest)
    (hmem : hash ∈ s.db)
    (hdec : RlpNode.decoded hash = some (.Branch part children))
    (hlen : children.length = 16)
    (hpre : part.isPrefixOf path = true)
    (hrec : remove_aux fuel s ((path.drop part.length).drop 1)
        (children.getD (nsAt (path.drop part.length) 0) none) = (s1, .ok none)) :
    ((children.set (nsAt (path.drop part.length) 0) none).countP (fun c => c.isSome) = 0 →
      remove_aux (fuel + 1) s path (some hash) = (s1, .ok none)) ∧
    (∀ i hchild cp cv,
      (children.set (nsAt (path.drop part.length) 0) none).countP (fun c => c.isSome) = 1 →
      (children.set (nsAt (path.drop part.length) 0) none).findIdx?
          (fun c => c.isSome) = some i →
      (children.set (nsAt (path.drop part.length) 0) none).getD i none = some hchild →
      hchild ∈ s1.db →
      RlpNode.decoded hchild = some (.Leaf cp cv) →
      remove_aux (fuel + 1) s path (some hash) =
        ({ s1 with db := RlpNode.encoded (.Leaf (part ++ [i] ++ cp) cv) :: s1.db },
          .ok (some (RlpNode.encoded (.Leaf (part ++ [i] ++ cp) cv))))) ∧
    (∀ i hchild cp ccs,
      (children.set (nsAt (path.drop part.length) 0) none).countP (fun c => c.isSome) = 1 →
      (children.set (nsAt (path.drop part.length) 0) none).findIdx?
          (fun c => c.isSome) = some i →
      (children.set (nsAt (path.drop part.length) 0) none).getD i none = some hchild →
      hchild ∈ s1.db →
      RlpNode.decoded hchild = some (.Branch cp ccs) →
      remove_aux (fuel + 1) s path (some hash) =
        ({ s1 with db := RlpNode.encoded (.Branch (part ++ [i] ++ cp) ccs) :: s1.db },
          .ok (some (RlpNode.encoded (.Branch (part ++ [i] ++ cp) ccs))))) ∧
    (2 ≤ (children.set (nsAt (path.drop part.length) 0) none).countP (fun c => c.isSome) →
      remove_aux (fuel + 1) s path (some hash) =
        ({ s1 with db := (RlpNode.encoded (.Branch part (children.set (nsAt (path.drop part.length) 0) none))) :: s1.db },
          .ok (some (RlpNode.encoded
            (.Branch part (children.set (nsAt (path.drop part.length) 0) none)))))) := by
  have hget : dbGet s.db hash = some hash := by
    unfold dbGet
    rw [if_pos hmem]
  have hslot := getD_set_none_self children (nsAt (path.drop part.length) 0)
  have hcnt := countP_isNone_add_isSome (children.set (nsAt (path.drop part.length) 0) none)
  rw [List.length_set, hlen] at hcnt
  have hrec2 := hrec
  simp only [List.drop_drop, List.getD_eq_getElem?_getD] at hrec2
  have hslot2 := hslot
  simp only [List.getD_eq_getElem?_getD] at hslot2
  refine ⟨?_, ?_, ?_, ?_⟩
  · intro hocc
    have h16 : (children.set (nsAt (path.drop part.length) 0) none).countP
        (fun x => x.isNone) = 16 := by omega
    unfold remove_aux
    simp [hget, hdec, hpre, hrec2, hslot2, h16]
  · intro i hchild cp cv hocc hfind hslotget hcmem hcdec
    have h15 : (children.set (nsAt (path.drop part.length) 0) none).countP
        (fun x => x.isNone) = 15 := by omega
    have hcget : dbGet s1.db hchild = some hchild := by
      unfold dbGet
      rw [if_pos hcmem]
    have hslotget2 := hslotget
    simp only [List.getD_eq_getElem?_getD] at hslotget2
    unfold remove_aux
    simp [hget, hdec, hpre, hrec2, hslot2, h15, hfind, hslotget2, hcget, hcdec, dbInsert]
  · intro i hchild cp ccs hocc hfind hslotget hcmem hcdec
    have h15 : (children.set (nsAt (path.drop part.length) 0) none).countP
        (fun x => x.isNone) = 15 := by omega
    have hcget : dbGet s1.db hchild = some hchild := by
      unfold dbGet
      rw [if_pos hcmem]
    have hslotget2 := hslotget
    simp only [List.getD_eq_getElem?_getD] at hslotget2
    unfold remove_aux
    simp [hget, hdec, hpre, hrec2, hslot2, h15, hfind, hslotget2, hcget, hcdec, dbInsert]
  · intro hocc
    have hne16 : (children.set (nsAt (path.drop part.length) 0) none).countP
        (fun x => x.isNone) ≠ 16 := by omega
    have hne15 : (children.set (nsAt (path.drop part.length) 0) none).countP
        (fun x => x.isNone) ≠ 15 := by omega
    unfold remove_aux
    simp [hget, hdec, hpre, hrec2, hslot2, hne16, hne15, dbInsert]

/-- C2, witness: a two-child branch (leaves at nibbles 0 and 1); removing
the path through nibble 0 empties that slot, one occupied slot remains,
and the branch collapses into a leaf whose head is the branch head, the
surviving nibble, and the child's head concatenated. -/
theorem c2_witness :
    remove_aux 1 ({ db := [RlpNode.encoded (.Branch [] ((empty_children.set 0 (some (RlpNode.encoded (.Leaf [] [5])))).set 1 (some (RlpNode.encoded (.Leaf [] [6]))))), RlpNode.encoded (.Leaf [] [5]), RlpNode.encoded (.Leaf [] [6]), EMPTY_ROOT], cache := [], root := RlpNode.encoded (.Branch [] ((empty_children.set 0 (some (RlpNode.encoded (.Leaf [] [5])))).set 1 (some (RlpNode.encoded (.Leaf [] [6]))))), oldVal := none } : TrieState) (([0].drop (List.length ([] : List Nat))).drop 1)
        (((empty_children.set 0 (some (RlpNode.encoded (.Leaf [] [5])))).set 1 (some (RlpNode.encoded (.Leaf [] [6])))).getD (nsAt ([0].drop (List.length ([] : List Nat))) 0) none) =
      (({ db := [RlpNode.encoded (.Branch [] ((empty_children.set 0 (some (RlpNode.encoded (.Leaf [] [5])))).set 1 (some (RlpNode.encoded (.Leaf [] [6]))))), RlpNode.encoded (.Leaf [] [5]), RlpNode.encoded (.Leaf [] [6]), EMPTY_ROOT], cache := [], root := RlpNode.encoded (.Branch [] ((empty_children.set 0 (some (RlpNode.encoded (.Leaf [] [5])))).set 1 (some (RlpNode.encoded (.Leaf [] [6]))))), oldVal := some [5] } : TrieState), .ok none) ∧
    (((empty_children.set 0 (some (RlpNode.encoded (.Leaf [] [5])))).set 1 (some (RlpNode.encoded (.Leaf [] [6])))).set (nsAt ([0].drop (List.length ([] : List Nat))) 0) none).countP
        (fun c => c.isSome) = 1 ∧
    remove_aux 2 ({ db := [RlpNode.encoded (.Branch [] ((empty_children.set 0 (some (RlpNode.encoded (.Leaf [] [5])))).set 1 (some (RlpNode.encoded (.Leaf [] [6]))))), RlpNode.encoded (.Leaf [] [5]), RlpNode.encoded (.Leaf [] [6]), EMPTY_ROOT], cache := [], root := RlpNode.encoded (.Branch [] ((empty_children.set 0 (some (RlpNode.encoded (.Leaf [] [5])))).set 1 (some (RlpNode.encoded (.Leaf [] [6]))))), oldVal := none } : TrieState) [0] (some (RlpNode.encoded (.Branch [] ((empty_children.set 0 (some (RlpNode.encoded (.Leaf [] [5])))).set 1 (some (RlpNode.encoded (.Leaf [] [6]))))))) =
      ({ ({ db := [RlpNode.encoded (.Branch [] ((empty_children.set 0 (some (RlpNode.encoded (.Leaf [] [5])))).set 1 (some (RlpNode.encoded (.Leaf [] [6]))))), RlpNode.encoded (.Leaf [] [5]), RlpNode.encoded (.Leaf [] [6]), EMPTY_ROOT], cache := [], root := RlpNode.encoded (.Branch [] ((empty_children.set 0 (some (RlpNode.encoded (.Leaf [] [5])))).set 1 (some (RlpNode.encoded (.Leaf [] [6]))))), oldVal := some [5] } : TrieState) with db := RlpNode.encoded (.Leaf ([] ++ [1] ++ []) [6]) :: (({ db := [RlpNode.encoded (.Branch [] ((empty_children.set 0 (some (RlpNode.encoded (.Leaf [] [5])))).set 1 (some (RlpNode.encoded (.Leaf [] [6]))))), RlpNode.encoded (.Leaf [] [5]), RlpNode.encoded (.Leaf [] [6]), EMPTY_ROOT], cache := [], root := RlpNode.encoded (.Branch [] ((empty_children.set 0 (some (RlpNode.encoded (.Leaf [] [5])))).set 1 (some (RlpNode.encoded (.Leaf [] [6]))))), oldVal := some [5] } : TrieState)).db },
        .ok (some (RlpNode.encoded (.Leaf ([] ++ [1] ++ []) [6])))) :=
  ⟨rfl, by decide,
    (c2_remove_branch_fixup 1 ({ db := [RlpNode.encoded (.Branch [] ((empty_children.set 0 (some (RlpNode.encoded (.Leaf [] [5])))).set 1 (some (RlpNode.encoded (.Leaf [] [6]))))), RlpNode.encoded (.Leaf [] [5]), RlpNode.encoded (.Leaf [] [6]), EMPTY_ROOT], cache := [], root := RlpNode.encoded (.Branch [] ((empty_children.set 0 (some (RlpNode.encoded (.Leaf [] [5])))).set 1 (some (RlpNode.encoded (.Leaf [] [6]))))), oldVal := none } : TrieState) ({ db := [RlpNode.encoded (.Branch [] ((empty_children.set 0 (some (RlpNode.encoded (.Leaf [] [5])))).set 1 (some (RlpNode.encoded (.Leaf [] [6]))))), RlpNode.encoded (.Leaf [] [5]), RlpNode.encoded (.Leaf [] [6]), EMPTY_ROOT], cache := [], root := RlpNode.encoded (.Branch [] ((empty_children.set 0 (some (RlpNode.encoded (.Leaf [] [5])))).set 1 (some (RlpNode.encoded (.Leaf [] [6]))))), oldVal := some [5] } : TrieState) [0] [] ((empty_children.set 0 (some (RlpNode.encoded (.Leaf [] [5])))).set 1 (some (RlpNode.encoded (.Leaf [] [6])))) (RlpNode.encoded (.Branch [] ((empty_children.set 0 (some (RlpNode.encoded (.Leaf [] [5])))).set 1 (some (RlpNode.encoded (.Leaf [] [6]))))))
        (by decide) rfl (by decide) rfl rfl).2.1 1 (RlpNode.encoded (.Leaf [] [6])) [] [6]
      (by decide) rfl rfl (by decide) rfl⟩

/-! ## Nibble arithmetic -/

theorem nsCommon_le_left (a b : List Nat) : nsCommon a b ≤ a.length := by
  induction a generalizing b with
  | nil => simp [nsCommon]
  | cons x a ih =>
    cases b with
    | nil => simp [nsCommon]
    | cons y b =>
      by_cases hxy : x = y
      · simp only [nsCommon, if_pos hxy, List.length_cons]
        exact Nat.succ_le_succ (ih b)
      · simp [nsCommon, hxy]

theorem nsCommon_le_right (a b : List Nat) : nsCommon a b ≤ b.length := by
  induction a generalizing b with
  | nil => simp [nsCommon]
  | cons x a ih =>
    cases b with
    | nil => simp [nsCommon]
    | cons y b =>
      by_cases hxy : x = y
      · simp only [nsCommon, if_pos hxy, List.length_cons]
        exact Nat.succ_le_succ (ih b)
      · simp [nsCommon, hxy]

theorem take_nsCommon (a b : List Nat) :
    a.take (nsCommon a b) = b.take (nsCommon a b) := by
  induction a generalizing b with
  | nil => simp [nsCommon]
  | cons x a ih =>
    cases b with
    | nil => simp [nsCommon]
    | cons y b =>
      by_cases hxy : x = y
      · subst hxy
        simp only [nsCommon, eq_self_iff_true, if_true, List.take_succ_cons, List.cons.injEq]
        exact ⟨trivial, ih b⟩
      · simp [nsCommon, hxy]

theorem nsAt_nsCommon_ne (a b : List Nat) (ha : nsCommon a b < a.length)
    (hb : nsCommon a b < b.length) : nsAt a (nsCommon a b) ≠ nsAt b (nsCommon a b) := by
  induction a generalizing b with
  | nil => simp at ha
  | cons x a ih =>
    cases b with
    | nil => simp at hb
    | cons y b =>
      by_cases hxy : x = y
      · simp only [nsCommon, if_pos hxy] at ha hb ⊢
        simpa [nsAt] using ih b (Nat.lt_of_succ_lt_succ ha) (Nat.lt_of_succ_lt_succ hb)
      · simpa [nsCommon, hxy, nsAt] using hxy

theorem nsCommon_lt_of_ne (a b : List Nat) (hlen : a.length = b.length) (h : a ≠ b) :
    nsCommon a b < a.length := by
  rcases Nat.lt_or_ge (nsCommon a b) a.length with hlt | hge
  · exact hlt
  · exfalso
    apply h
    have hc : nsCommon a b = a.length := Nat.le_antisymm (nsCommon_le_left a b) hge
    have := take_nsCommon a b
    rw [hc] at this
    rw [List.take_length] at this
    have hcb : a.length ≤ b.length := by omega
    rw [List.take_of_length_le (by omega)] at this
    exact this

theorem take_eq_of_le_nsCommon (a b : List Nat) (k : Nat) (h : k ≤ nsCommon a b) :
    a.take k = b.take k := by
  have h1 : (a.take (nsCommon a b)).take k = (b.take (nsCommon a b)).take k := by
    rw [take_nsCommon]
  rwa [List.take_take, Nat.min_eq_left h, List.take_take, Nat.min_eq_left h] at h1

theorem le_nsCommon_of_take_eq (a b : List Nat) (k : Nat) (hk : k ≤ a.length)
    (h : a.take k = b.take k) : k ≤ nsCommon a b := by
  induction a generalizing b k with
  | nil => simp at hk; omega
  | cons x a ih =>
    cases k with
    | zero => exact Nat.zero_le _
    | succ m =>
      cases b with
      | nil => simp at h
      | cons y b =>
        simp only [List.take_succ_cons, List.cons.injEq] at h
        simp only [nsCommon, if_pos h.1]
        exact Nat.succ_le_succ (ih b m (by simpa using hk) h.2)

theorem nsAt_drop (a : List Nat) (n m : Nat) : nsAt (a.drop n) m = nsAt a (n + m) := by
  unfold nsAt
  induction a generalizing n with
  | nil => simp [List.getD]
  | cons x a ih =>
    cases n with
    | zero => simp
    | succ k =>
      simpa [List.drop_succ_cons, Nat.succ_add] using ih k

/-! ## `sharedLen` facts -/

theorem greatestB_le (p : Nat → Bool) (n : Nat) : greatestB p n ≤ n := by
  induction n with
  | zero => simp [greatestB]
  | succ m ih =>
    cases hp : p (m + 1) with
    | true => simp [greatestB, hp]
    | false =>
      simp only [greatestB, hp, Bool.false_eq_true, if_false]
      omega

theorem greatestB_holds (p : Nat → Bool) (n : Nat) (h0 : p 0 = true) :
    p (greatestB p n) = true := by
  induction n with
  | zero => simpa [greatestB] using h0
  | succ m ih =>
    cases hp : p (m + 1) with
    | true => simpa [greatestB, hp] using hp
    | false => simpa [greatestB, hp, Bool.false_eq_true] using ih

theorem le_greatestB (p : Nat → Bool) (n k : Nat) (hk : k ≤ n) (h : p k = true) :
    k ≤ greatestB p n := by
  induction n with
  | zero => omega
  | succ m ih =>
    cases hp : p (m + 1) with
    | true => simp [greatestB, hp]; omega
    | false =>
      simp only [greatestB, hp, Bool.false_eq_true, if_false]
      have hne : k ≠ m + 1 := by
        intro he; rw [he] at h; rw [h] at hp; exact Bool.noConfusion hp
      exact ih (by omega)

theorem allShareB_zero (es : Entries) : allShareB es 0 = true := by
  simp [allShareB]

theorem allShareB_eq_true_iff (es : Entries) (k : Nat) :
    allShareB es k = true ↔ ∀ a ∈ es, ∀ b ∈ es, a.1.take k = b.1.take k := by
  unfold allShareB
  simp [List.all_eq_true]

theorem take_sharedLen_eq (es : Entries) (a b : List Nat × Bytes)
    (ha : a ∈ es) (hb : b ∈ es) :
    a.1.take (sharedLen es) = b.1.take (sharedLen es) := by
  have h := greatestB_holds (allShareB es) (es.headD ([], [])).1.length (allShareB_zero es)
  rw [allShareB_eq_true_iff] at h
  exact h a ha b hb

theorem sharedLen_le (es : Entries) : sharedLen es ≤ (es.headD ([], [])).1.length :=
  greatestB_le _ _

theorem le_sharedLen (es : Entries) (k : Nat)
    (hk : k ≤ (es.headD ([], [])).1.length)
    (h : ∀ a ∈ es, ∀ b ∈ es, a.1.take k = b.1.take k) : k ≤ sharedLen es := by
  apply le_greatestB _ _ _ hk
  rw [allShareB_eq_true_iff]
  exact h

/-! ## Canonical-trie structure facts -/

theorem canonNode_singleton (f : Nat) (pv : List Nat × Bytes) :
    canonNode f [pv] = .Leaf pv.1 pv.2 := by
  cases f <;> rfl

theorem canonNode_multi (f : Nat) (a b : List Nat × Bytes) (t : Entries) :
    canonNode (f + 1) (a :: b :: t) =
      .Branch (a.1.take (sharedLen (a :: b :: t)))
        ((List.range 16).map (fun i =>
          if (groupAt (sharedLen (a :: b :: t)) i (a :: b :: t)).isEmpty then none
          else some (RlpNode.encoded
            (canonNode f (groupAt (sharedLen (a :: b :: t)) i (a :: b :: t)))))) := rfl

theorem canonAll_singleton (f : Nat) (pv : List Nat × Bytes) :
    canonAll f [pv] = [RlpNode.encoded (.Leaf pv.1 pv.2)] := by
  cases f <;> rfl

theorem canonAll_multi (f : Nat) (a b : List Nat × Bytes) (t : Entries) :
    canonAll (f + 1) (a :: b :: t) =
      canonDigest (f + 1) (a :: b :: t) ::
        (List.range 16).foldr (fun i acc =>
          canonAll f (groupAt (sharedLen (a :: b :: t)) i (a :: b :: t)) ++ acc) [] := rfl

theorem mem_groupAt {c i : Nat} {es : Entries} {x : List Nat × Bytes} :
    x ∈ groupAt c i es ↔
      ∃ pv, pv ∈ es ∧ nsAt pv.1 c = i ∧ x = (pv.1.drop (c + 1), pv.2) := by
  unfold groupAt
  rw [List.mem_filterMap]
  constructor
  · rintro ⟨pv, hpv, hx⟩
    by_cases hni : nsAt pv.1 c = i
    · rw [if_pos hni] at hx
      exact ⟨pv, hpv, hni, (Option.some.injEq _ _ ▸ hx).symm⟩
    · rw [if_neg hni] at hx
      exact absurd hx (by simp)
  · rintro ⟨pv, hpv, hni, hx⟩
    exact ⟨pv, hpv, by rw [if_pos hni, hx]⟩

theorem mem_groupAt_of {c i : Nat} {es : Entries} {pv : List Nat × Bytes}
    (h : pv ∈ es) (hni : nsAt pv.1 c = i) :
    (pv.1.drop (c + 1), pv.2) ∈ groupAt c i es :=
  mem_groupAt.2 ⟨pv, h, hni, rfl⟩

theorem nsAt_lt_16 {l : Nat} {p : List Nat} (hw : WFPath l p) {k : Nat} (hk : k < l) :
    nsAt p k < 16 := by
  have hk2 : k < p.length := by rw [hw.1]; exact hk
  have : nsAt p k ∈ p := by
    unfold nsAt
    rw [List.getD_eq_getElem p 0 hk2]
    exact List.getElem_mem hk2
  exact hw.2 _ this

theorem take_nib_drop (p : List Nat) (c : Nat) (hc : c < p.length) :
    p = p.take c ++ [nsAt p c] ++ p.drop (c + 1) := by
  have h1 : p.take (c + 1) = p.take c ++ [nsAt p c] := by
    rw [List.take_succ]
    unfold nsAt
    rw [List.getD_eq_getElem p 0 hc]
    simp [List.getElem?_eq_getElem hc]
  have h2 : p = p.take (c + 1) ++ p.drop (c + 1) := (List.take_append_drop _ _).symm
  rw [h1] at h2
  simpa using h2

theorem take_succ_eq_of {a b : List Nat} {k : Nat} (hka : k < a.length)
    (hkb : k < b.length) (ht : a.take k = b.take k) (hn : nsAt a k = nsAt b k) :
    a.take (k + 1) = b.take (k + 1) := by
  have ha : a.take (k + 1) = a.take k ++ [nsAt a k] := by
    rw [List.take_succ]
    unfold nsAt
    rw [List.getD_eq_getElem a 0 hka]
    simp [List.getElem?_eq_getElem hka]
  have hb : b.take (k + 1) = b.take k ++ [nsAt b k] := by
    rw [List.take_succ]
    unfold nsAt
    rw [List.getD_eq_getElem b 0 hkb]
    simp [List.getElem?_eq_getElem hkb]
  rw [ha, hb, ht, hn]

theorem sharedLen_lt {l : Nat} {a b : List Nat × Bytes} {t : Entries}
    (hc : Canon l (a :: b :: t)) : sharedLen (a :: b :: t) < l := by
  have ha : a.1.length = l := (hc.2.2 a (by simp)).1
  have hb : b.1.length = l := (hc.2.2 b (by simp)).1
  have hne : a.1 ≠ b.1 := by
    have := hc.2.1
    simp only [List.map_cons, List.nodup_cons, List.mem_cons] at this
    intro he
    exact this.1 (Or.inl he)
  have hle : sharedLen (a :: b :: t) ≤ l := by
    have := sharedLen_le (a :: b :: t)
    simpa [ha] using this
  rcases Nat.lt_or_ge (sharedLen (a :: b :: t)) l with h | h
  · exact h
  · exfalso
    have hc2 : sharedLen (a :: b :: t) = l := by omega
    have := take_sharedLen_eq (a :: b :: t) a b (by simp) (by simp)
    rw [hc2] at this
    rw [← ha] at this
    rw [List.take_length] at this
    rw [ha, ← hb, List.take_length] at this
    exact hne this

theorem exists_two_groups {l : Nat} {a b : List Nat × Bytes} {t : Entries}
    (hc : Canon l (a :: b :: t)) :
    ∃ i j, i < 16 ∧ j < 16 ∧ i ≠ j ∧
      groupAt (sharedLen (a :: b :: t)) i (a :: b :: t) ≠ [] ∧
      groupAt (sharedLen (a :: b :: t)) j (a :: b :: t) ≠ [] := by
  set es := a :: b :: t with hes
  set c := sharedLen es with hcdef
  have hclt : c < l := sharedLen_lt hc
  have hdiff : ∃ x ∈ es, ∃ y ∈ es, nsAt x.1 c ≠ nsAt y.1 c := by
    by_contra hall
    push_neg at hall
    have hshare : ∀ x ∈ es, ∀ y ∈ es, x.1.take (c + 1) = y.1.take (c + 1) := by
      intro x hx y hy
      have hlx : x.1.length = l := (hc.2.2 x hx).1
      have hly : y.1.length = l := (hc.2.2 y hy).1
      exact take_succ_eq_of (by omega) (by omega)
        (take_sharedLen_eq es x y hx hy) (hall x hx y hy)
    have : c + 1 ≤ c := by
      have hb2 : c + 1 ≤ (es.headD ([], [])).1.length := by
        have : (es.headD ([], [])).1.length = l := (hc.2.2 a (by simp [hes])).1
        omega
      exact le_sharedLen es (c + 1) hb2 hshare
    omega
  rcases hdiff with ⟨x, hx, y, hy, hxy⟩
  refine ⟨nsAt x.1 c, nsAt y.1 c, ?_, ?_, hxy, ?_, ?_⟩
  · exact nsAt_lt_16 (hc.2.2 x hx) hclt
  · exact nsAt_lt_16 (hc.2.2 y hy) hclt
  · intro hempty
    have := mem_groupAt_of hx (rfl : nsAt x.1 c = nsAt x.1 c)
    rw [hempty] at this
    exact absurd this (List.not_mem_nil _)
  · intro hempty
    have := mem_groupAt_of hy (rfl : nsAt y.1 c = nsAt y.1 c)
    rw [hempty] at this
    exact absurd this (List.not_mem_nil _)

theorem groupAt_fst_nodup (c i : Nat) (es : Entries)
    (hnd : (es.map Prod.fst).Nodup)
    (hinj : ∀ a ∈ es, ∀ b ∈ es, nsAt a.1 c = i → nsAt b.1 c = i →
      a.1.drop (c + 1) = b.1.drop (c + 1) → a.1 = b.1) :
    ((groupAt c i es).map Prod.fst).Nodup := by
  induction es with
  | nil => simp [groupAt]
  | cons pv es ih =>
    simp only [List.map_cons, List.nodup_cons] at hnd
    by_cases hni : nsAt pv.1 c = i
    · have hgrp : groupAt c i (pv :: es) =
          (pv.1.drop (c + 1), pv.2) :: groupAt c i es := by
        unfold groupAt
        rw [List.filterMap_cons]
        rw [if_pos hni]
      rw [hgrp]
      simp only [List.map_cons, List.nodup_cons]
      constructor
      · intro hmem
        rw [List.mem_map] at hmem
        rcases hmem with ⟨x, hx, hxeq⟩
        rcases mem_groupAt.1 hx with ⟨qv, hqv, hqni, hqx⟩
        have hdropeq : pv.1.drop (c + 1) = qv.1.drop (c + 1) := by
          rw [← hxeq, hqx]
        have := hinj pv (by simp) qv (by simp [hqv]) hni hqni hdropeq
        exact hnd.1 (this ▸ List.mem_map_of_mem Prod.fst hqv)
      · exact ih hnd.2 (fun x hx y hy => hinj x (by simp [hx]) y (by simp [hy]))
    · have hgrp : groupAt c i (pv :: es) = groupAt c i es := by
        unfold groupAt
        rw [List.filterMap_cons]
        rw [if_neg hni]
      rw [hgrp]
      exact ih hnd.2 (fun x hx y hy => hinj x (by simp [hx]) y (by simp [hy]))

theorem canon_groupAt {l : Nat} {a b : List Nat × Bytes} {t : Entries}
    (hc : Canon l (a :: b :: t)) (i : Nat)
    (hne : groupAt (sharedLen (a :: b :: t)) i (a :: b :: t) ≠ []) :
    Canon (l - sharedLen (a :: b :: t) - 1)
      (groupAt (sharedLen (a :: b :: t)) i (a :: b :: t)) := by
  set es := a :: b :: t with hes
  set c := sharedLen es with hcdef
  have hclt : c < l := sharedLen_lt hc
  refine ⟨hne, ?_, ?_⟩
  · apply groupAt_fst_nodup c i es hc.2.1
    intro x hx y hy hxi hyi hdrop
    have hlx : x.1.length = l := (hc.2.2 x hx).1
    have hly : y.1.length = l := (hc.2.2 y hy).1
    have h1 : x.1 = x.1.take c ++ [nsAt x.1 c] ++ x.1.drop (c + 1) :=
      take_nib_drop x.1 c (by omega)
    have h2 : y.1 = y.1.take c ++ [nsAt y.1 c] ++ y.1.drop (c + 1) :=
      take_nib_drop y.1 c (by omega)
    rw [h1, h2, take_sharedLen_eq es x y hx hy, hxi, hyi, hdrop]
  · intro pv hpv
    rcases mem_groupAt.1 hpv with ⟨qv, hqv, hqni, hqeq⟩
    have hlq : qv.1.length = l := (hc.2.2 qv hqv).1
    constructor
    · rw [hqeq]
      simp only [List.length_drop, hlq]
      omega
    · intro n hn
      rw [hqeq] at hn
      exact (hc.2.2 qv hqv).2 n (List.mem_of_mem_drop hn)

theorem canonNode_fuel_congr (f1 : Nat) :
    ∀ (f2 l : Nat) (es : Entries),
      Canon l es → l ≤ f1 → l ≤ f2 → canonNode f1 es = canonNode f2 es := by
  induction f1 using Nat.strong_induction_on with
  | _ f1 ih =>
    intro f2 l es hc h1 h2
    match es with
    | [] => exact absurd rfl hc.1
    | [pv] => rw [canonNode_singleton, canonNode_singleton]
    | a :: b :: t =>
      have hclt : sharedLen (a :: b :: t) < l := sharedLen_lt hc
      have hl1 : 1 ≤ l := by omega
      rcases Nat.exists_eq_add_of_le (Nat.le_trans hl1 h1) with ⟨g1, hg1⟩
      rcases Nat.exists_eq_add_of_le (Nat.le_trans hl1 h2) with ⟨g2, hg2⟩
      rw [Nat.add_comm] at hg1 hg2
      subst hg1; subst hg2
      rw [canonNode_multi, canonNode_multi]
      congr 1
      apply List.map_congr_left
      intro i hi
      by_cases hemp : (groupAt (sharedLen (a :: b :: t)) i (a :: b :: t)).isEmpty
      · rw [if_pos hemp, if_pos hemp]
      · rw [if_neg hemp, if_neg hemp]
        have hne : groupAt (sharedLen (a :: b :: t)) i (a :: b :: t) ≠ [] := by
          intro h0
          rw [h0] at hemp
          exact hemp rfl
        have hcg := canon_groupAt hc i hne
        rw [ih g1 (by omega) g2 (l - sharedLen (a :: b :: t) - 1) _ hcg
          (by omega) (by omega)]

theorem decoded_canonDigest (f l : Nat) (es : Entries) (hc : Canon l es) (hl : l ≤ f) :
    RlpNode.decoded (canonDigest f es) = some (canonNode f es) := by
  match es with
  | [] => exact absurd rfl hc.1
  | [pv] =>
    rw [canonDigest, canonNode_singleton]
    exact decoded_encoded_leaf pv.1 pv.2
  | a :: b :: t =>
    have hclt : sharedLen (a :: b :: t) < l := sharedLen_lt hc
    rcases Nat.exists_eq_add_of_le (Nat.le_trans (by omega : 1 ≤ l) hl) with ⟨g, hg⟩
    rw [Nat.add_comm] at hg
    subst hg
    rw [canonDigest, canonNode_multi]
    apply decoded_encoded_branch
    simp

theorem canonDigest_mem_canonAll (f l : Nat) (es : Entries) (hc : Canon l es) (hl : l ≤ f) :
    canonDigest f es ∈ canonAll f es := by
  match es with
  | [] => exact absurd rfl hc.1
  | [pv] =>
    rw [canonAll_singleton, canonDigest, canonNode_singleton]
    simp
  | a :: b :: t =>
    have hclt : sharedLen (a :: b :: t) < l := sharedLen_lt hc
    rcases Nat.exists_eq_add_of_le (Nat.le_trans (by omega : 1 ≤ l) hl) with ⟨g, hg⟩
    rw [Nat.add_comm] at hg
    subst hg
    rw [canonAll_multi]
    simp

theorem mem_foldr_append (f : Nat → List Digest) (ns : List Nat) (d : Digest) :
    d ∈ ns.foldr (fun i acc => f i ++ acc) [] ↔ ∃ i ∈ ns, d ∈ f i := by
  induction ns with
  | nil => simp
  | cons n ns ih => simp [ih]

theorem canonAll_group_subset (g : Nat) (a b : List Nat × Bytes) (t : Entries)
    (i : Nat) (hi : i < 16) (d : Digest)
    (hd : d ∈ canonAll g (groupAt (sharedLen (a :: b :: t)) i (a :: b :: t))) :
    d ∈ canonAll (g + 1) (a :: b :: t) := by
  rw [canonAll_multi]
  right
  exact (mem_foldr_append _ _ _).2 ⟨i, by simp [List.mem_range, hi], hd⟩

theorem list16_ext (xs ys : List (Option Digest)) (hx : xs.length = 16)
    (hy : ys.length = 16) (h : ∀ i, i < 16 → xs.getD i none = ys.getD i none) :
    xs = ys := by
  apply List.ext_getElem (by omega)
  intro i h1 h2
  have hi := h i (by omega)
  rwa [List.getD_eq_getElem xs none h1, List.getD_eq_getElem ys none h2] at hi

theorem getD_range16_map (f : Nat → Option Digest) (i : Nat) (hi : i < 16) :
    ((List.range 16).map f).getD i none = f i := by
  rw [List.getD_eq_getElem _ _ (by simpa using hi)]
  simp

theorem getD_set_lt (l : List (Option Digest)) (i : Nat) (v : Option Digest)
    (h : i < l.length) : (l.set i v).getD i none = v := by
  induction l generalizing i with
  | nil => simp at h
  | cons a l ih =>
    cases i with
    | zero => simp
    | succ k => simpa using ih k (by simpa using h)

theorem getD_set_ne (l : List (Option Digest)) (i j : Nat) (v : Option Digest)
    (h : i ≠ j) : (l.set i v).getD j none = l.getD j none := by
  induction l generalizing i j with
  | nil => simp
  | cons a l ih =>
    cases i with
    | zero =>
      cases j with
      | zero => exact absurd rfl h
      | succ m => simp
    | succ k =>
      cases j with
      | zero => simp
      | succ m => simpa using ih k m (by omega)

theorem getD_replicate_none (i : Nat) :
    (List.replicate 16 (none : Option Digest)).getD i none = none := by
  rcases Nat.lt_or_ge i 16 with h | h
  · rw [List.getD_eq_getElem _ _ (by simpa using h)]
    exact List.getElem_replicate _ _
  · rw [List.getD_eq_default _ _ (by simpa using h)]

theorem cacheOK_insert {cache : List (Digest × Bytes)} (hok : CacheOK cache) (b : Bytes) :
    CacheOK (cacheInsert cache b b) := by
  intro e he
  rcases List.mem_cons.1 he with h | h
  · rw [h]
  · exact hok e h

theorem lookupCache_cacheOK {cache : List (Digest × Bytes)} (hok : CacheOK cache)
    {h : Digest} {b : Bytes} (hl : lookupCache cache h = some b) : b = h := by
  induction cache with
  | nil => exact absurd hl (by simp [lookupCache])
  | cons e es ih =>
    unfold lookupCache at hl
    by_cases he : e.1 = h
    · rw [if_pos he] at hl
      have hb : b = e.2 := by
        exact (Option.some.injEq _ _ ▸ hl).symm
      rw [hb, hok e (by simp), he]
    · rw [if_neg he] at hl
      exact ih (fun x hx => hok x (by simp [hx])) hl

theorem readNodeCached_ok (s : TrieState) (h : Digest) (hok : CacheOK s.cache)
    (hmem : h ∈ s.db) :
    ∃ cache2, readNodeCached s h = ({ s with cache := cache2 }, .ok h) ∧
      CacheOK cache2 := by
  unfold readNodeCached
  cases hl : lookupCache s.cache h with
  | some b =>
    refine ⟨s.cache, ?_, hok⟩
    rw [lookupCache_cacheOK hok hl]
  | none =>
    have hget : dbGet s.db h = some h := by
      unfold dbGet
      rw [if_pos hmem]
    rw [hget]
    exact ⟨cacheInsert s.cache h h, rfl, cacheOK_insert hok h⟩

theorem insert_aux_none (g : Nat) (s : TrieState) (path : List Nat) (v : Bytes) :
    insert_aux (g + 1) s path v none =
      ({ s with
          db := RlpNode.encoded (.Leaf path v) :: s.db
          cache := cacheInsert s.cache (RlpNode.encoded (.Leaf path v))
            (RlpNode.encoded (.Leaf path v)) },
       .ok (RlpNode.encoded (.Leaf path v))) := rfl

/-! ## Abstract-map algebra -/

theorem groupAt_nil (c i : Nat) : groupAt c i [] = [] := rfl

theorem groupAt_cons_pos {c i : Nat} {pv : List Nat × Bytes} {es : Entries}
    (h : nsAt pv.1 c = i) :
    groupAt c i (pv :: es) = (pv.1.drop (c + 1), pv.2) :: groupAt c i es := by
  unfold groupAt
  rw [List.filterMap_cons, if_pos h]

theorem groupAt_cons_neg {c i : Nat} {pv : List Nat × Bytes} {es : Entries}
    (h : nsAt pv.1 c ≠ i) :
    groupAt c i (pv :: es) = groupAt c i es := by
  unfold groupAt
  rw [List.filterMap_cons, if_neg h]

theorem groupAt_append (c i : Nat) (es1 es2 : Entries) :
    groupAt c i (es1 ++ es2) = groupAt c i es1 ++ groupAt c i es2 := by
  unfold groupAt
  rw [List.filterMap_append]

theorem groupAt_empty_of (c i : Nat) (es : Entries)
    (h : ∀ pv ∈ es, nsAt pv.1 c ≠ i) : groupAt c i es = [] := by
  induction es with
  | nil => rfl
  | cons pv es ih =>
    rw [groupAt_cons_neg (h pv (by simp))]
    exact ih (fun x hx => h x (by simp [hx]))

theorem groupAt_full (c i : Nat) (es : Entries)
    (h : ∀ pv ∈ es, nsAt pv.1 c = i) :
    groupAt c i es = es.map (fun pv => (pv.1.drop (c + 1), pv.2)) := by
  induction es with
  | nil => rfl
  | cons pv es ih =>
    rw [groupAt_cons_pos (h pv (by simp)), List.map_cons]
    rw [ih (fun x hx => h x (by simp [hx]))]

theorem mem_insertEntry {es : Entries} {p : List Nat} {v : Bytes}
    {x : List Nat × Bytes} (h : x ∈ insertEntry es p v) : x ∈ es ∨ x = (p, v) := by
  induction es with
  | nil => simpa [insertEntry] using h
  | cons pv es ih =>
    unfold insertEntry at h
    by_cases hp : pv.1 = p
    · rw [if_pos hp] at h
      rcases List.mem_cons.1 h with h1 | h1
      · exact Or.inr h1
      · exact Or.inl (by simp [h1])
    · rw [if_neg hp] at h
      rcases List.mem_cons.1 h with h1 | h1
      · exact Or.inl (by simp [h1])
      · rcases ih h1 with h2 | h2
        · exact Or.inl (by simp [h2])
        · exact Or.inr h2

theorem mem_eraseEntry {es : Entries} {p : List Nat} {x : List Nat × Bytes}
    (h : x ∈ eraseEntry es p) : x ∈ es ∧ x.1 ≠ p := by
  induction es with
  | nil => simpa [eraseEntry] using h
  | cons pv es ih =>
    unfold eraseEntry at h
    by_cases hp : pv.1 = p
    · rw [if_pos hp] at h
      rcases ih h with ⟨h1, h2⟩
      exact ⟨by simp [h1], h2⟩
    · rw [if_neg hp] at h
      rcases List.mem_cons.1 h with h1 | h1
      · refine ⟨by simp [h1], ?_⟩
        rw [h1]
        exact hp
      · rcases ih h1 with ⟨h2, h3⟩
        exact ⟨by simp [h2], h3⟩

theorem insertEntry_ne_nil (es : Entries) (p : List Nat) (v : Bytes) :
    insertEntry es p v ≠ [] := by
  cases es with
  | nil => simp [insertEntry]
  | cons pv es =>
    unfold insertEntry
    by_cases hp : pv.1 = p
    · simp [hp]
    · simp [hp]

theorem map_fst_insertEntry (es : Entries) (p : List Nat) (v : Bytes) :
    (insertEntry es p v).map Prod.fst =
      if p ∈ es.map Prod.fst then es.map Prod.fst else es.map Prod.fst ++ [p] := by
  induction es with
  | nil => simp [insertEntry]
  | cons pv es ih =>
    unfold insertEntry
    by_cases hp : pv.1 = p
    · rw [if_pos hp]
      have hmem : p ∈ (pv :: es).map Prod.fst := by simp [hp.symm]
      rw [if_pos hmem]
      simp [hp]
    · rw [if_neg hp]
      by_cases hmem : p ∈ es.map Prod.fst
      · have hmem2 : p ∈ (pv :: es).map Prod.fst := by simp [hmem]
        rw [if_pos hmem2]
        simp only [List.map_cons, List.cons.injEq]
        refine ⟨trivial, ?_⟩
        rw [ih, if_pos hmem]
      · have hmem2 : p ∉ (pv :: es).map Prod.fst := by
          simp only [List.map_cons, List.mem_cons]
          rintro (h | h)
          · exact hp h.symm
          · exact hmem h
        rw [if_neg hmem2]
        simp only [List.map_cons, List.cons_append, List.cons.injEq]
        refine ⟨trivial, ?_⟩
        rw [ih, if_neg hmem]

theorem canon_insertEntry {l : Nat} {es : Entries} {p : List Nat} {v : Bytes}
    (hc : Canon l es) (hw : WFPath l p) : Canon l (insertEntry es p v) := by
  refine ⟨insertEntry_ne_nil es p v, ?_, ?_⟩
  · rw [map_fst_insertEntry]
    by_cases hmem : p ∈ es.map Prod.fst
    · rw [if_pos hmem]
      exact hc.2.1
    · rw [if_neg hmem]
      simp only [List.nodup_append, List.nodup_cons, List.not_mem_nil, not_false_iff,
        List.nodup_nil, and_true, true_and]
      refine ⟨hc.2.1, ?_⟩
      intro a ha hmem2
      rcases List.mem_singleton.1 hmem2 with h
      rw [h] at ha
      exact hmem ha
  · intro pv hpv
    rcases mem_insertEntry hpv with h | h
    · exact hc.2.2 pv h
    · rw [h]
      exact hw

theorem eraseEntry_eq_filter (es : Entries) (p : List Nat) :
    eraseEntry es p = es.filter (fun pv => decide (pv.1 ≠ p)) := by
  induction es with
  | nil => rfl
  | cons pv es ih =>
    unfold eraseEntry
    by_cases hp : pv.1 = p
    · rw [if_pos hp, List.filter_cons]
      simp [hp, ih]
    · rw [if_neg hp, List.filter_cons]
      simp [hp, ih]

theorem canon_eraseEntry {l : Nat} {es : Entries} {p : List Nat}
    (hc : Canon l es) (hne : eraseEntry es p ≠ []) : Canon l (eraseEntry es p) := by
  refine ⟨hne, ?_, ?_⟩
  · rw [eraseEntry_eq_filter]
    exact ((List.filter_sublist es).map Prod.fst).nodup hc.2.1
  · intro pv hpv
    exact hc.2.2 pv (mem_eraseEntry hpv).1

theorem lookupVal_eq_none_iff (es : Entries) (p : List Nat) :
    lookupVal es p = none ↔ p ∉ es.map Prod.fst := by
  induction es with
  | nil => simp [lookupVal]
  | cons pv es ih =>
    unfold lookupVal
    by_cases hp : pv.1 = p
    · simp [hp]
    · simp only [if_neg hp, List.map_cons, List.mem_cons, ih]
      constructor
      · rintro h (h1 | h1)
        · exact hp h1.symm
        · exact h h1
      · intro h h1
        exact h (Or.inr h1)

theorem eraseEntry_of_not_mem {es : Entries} {p : List Nat}
    (h : p ∉ es.map Prod.fst) : eraseEntry es p = es := by
  induction es with
  | nil => rfl
  | cons pv es ih =>
    simp only [List.map_cons, List.mem_cons] at h
    push_neg at h
    unfold eraseEntry
    rw [if_neg (fun he => h.1 he.symm)]
    rw [ih h.2]

theorem insertEntry_nil (p : List Nat) (v : Bytes) : insertEntry [] p v = [(p, v)] := rfl

theorem insertEntry_cons_pos {pv : List Nat × Bytes} {es : Entries} {p : List Nat}
    {v : Bytes} (h : pv.1 = p) : insertEntry (pv :: es) p v = (p, v) :: es := by
  rw [show insertEntry (pv :: es) p v =
      if pv.1 = p then (p, v) :: es else pv :: insertEntry es p v from rfl]
  rw [if_pos h]

theorem insertEntry_cons_neg {pv : List Nat × Bytes} {es : Entries} {p : List Nat}
    {v : Bytes} (h : pv.1 ≠ p) : insertEntry (pv :: es) p v = pv :: insertEntry es p v := by
  rw [show insertEntry (pv :: es) p v =
      if pv.1 = p then (p, v) :: es else pv :: insertEntry es p v from rfl]
  rw [if_neg h]

theorem eraseEntry_cons_pos {pv : List Nat × Bytes} {es : Entries} {p : List Nat}
    (h : pv.1 = p) : eraseEntry (pv :: es) p = eraseEntry es p := by
  rw [show eraseEntry (pv :: es) p =
      if pv.1 = p then eraseEntry es p else pv :: eraseEntry es p from rfl]
  rw [if_pos h]

theorem eraseEntry_cons_neg {pv : List Nat × Bytes} {es : Entries} {p : List Nat}
    (h : pv.1 ≠ p) : eraseEntry (pv :: es) p = pv :: eraseEntry es p := by
  rw [show eraseEntry (pv :: es) p =
      if pv.1 = p then eraseEntry es p else pv :: eraseEntry es p from rfl]
  rw [if_neg h]

theorem lookupVal_cons_pos {pv : List Nat × Bytes} {es : Entries} {p : List Nat}
    (h : pv.1 = p) : lookupVal (pv :: es) p = some pv.2 := by
  rw [show lookupVal (pv :: es) p =
      if pv.1 = p then some pv.2 else lookupVal es p from rfl]
  rw [if_pos h]

theorem lookupVal_cons_neg {pv : List Nat × Bytes} {es : Entries} {p : List Nat}
    (h : pv.1 ≠ p) : lookupVal (pv :: es) p = lookupVal es p := by
  rw [show lookupVal (pv :: es) p =
      if pv.1 = p then some pv.2 else lookupVal es p from rfl]
  rw [if_neg h]

theorem nsAt_take (p : List Nat) (k c : Nat) (h : c < k) :
    nsAt (p.take k) c = nsAt p c := by
  unfold nsAt
  rw [List.getD_eq_getElem?_getD, List.getD_eq_getElem?_getD, List.getElem?_take, if_pos h]

theorem take_eq_imp_nsAt_eq {a b : List Nat} {k c : Nat} (h : a.take k = b.take k)
    (hck : c < k) : nsAt a c = nsAt b c := by
  rw [← nsAt_take a k c hck, ← nsAt_take b k c hck, h]

theorem sharedLen_spec (es : Entries) (c : Nat)
    (hhead : c ≤ (es.headD ([], [])).1.length)
    (hsh : ∀ a ∈ es, ∀ b ∈ es, a.1.take c = b.1.take c)
    (hdiff : ∃ a ∈ es, ∃ b ∈ es, nsAt a.1 c ≠ nsAt b.1 c) : sharedLen es = c := by
  have hge : c ≤ sharedLen es := le_sharedLen es c hhead hsh
  rcases Nat.lt_or_ge c (sharedLen es) with hlt | hle
  · exfalso
    rcases hdiff with ⟨a, ha, b, hb, hab⟩
    exact hab (take_eq_imp_nsAt_eq (take_sharedLen_eq es a b ha hb) hlt)
  · omega

theorem sharedLen_pair (p q : List Nat) (vp vq : Bytes) (hlen : p.length = q.length)
    (hne : p ≠ q) : sharedLen [(p, vp), (q, vq)] = nsCommon p q := by
  have hlt : nsCommon p q < p.length := nsCommon_lt_of_ne p q hlen hne
  apply sharedLen_spec
  · exact Nat.le_of_lt (by simpa using hlt)
  · intro a ha b hb
    rcases List.mem_cons.1 ha with h1 | h1 <;> rcases List.mem_cons.1 hb with h2 | h2 <;>
      simp only [List.mem_singleton] at * <;> subst_vars <;>
      first
        | rfl
        | exact take_nsCommon p q
        | exact (take_nsCommon p q).symm
  · refine ⟨(p, vp), by simp, (q, vq), by simp, ?_⟩
    exact nsAt_nsCommon_ne p q hlt (by omega)

theorem groupAt_insertEntry_ne (c : Nat) (es : Entries) (path : List Nat) (v : Bytes)
    (i : Nat) (hi : i ≠ nsAt path c) :
    groupAt c i (insertEntry es path v) = groupAt c i es := by
  induction es with
  | nil =>
    rw [insertEntry_nil, groupAt_cons_neg (fun h => hi h.symm), groupAt_nil]
  | cons pv es ih =>
    by_cases hp : pv.1 = path
    · rw [insertEntry_cons_pos hp]
      rw [groupAt_cons_neg (fun h => hi h.symm)]
      rw [groupAt_cons_neg (fun h => hi (by rw [← h, hp]))]
    · rw [insertEntry_cons_neg hp]
      by_cases hni : nsAt pv.1 c = i
      · rw [groupAt_cons_pos hni, groupAt_cons_pos hni, ih]
      · rw [groupAt_cons_neg hni, groupAt_cons_neg hni, ih]

theorem groupAt_insertEntry_eq (c : Nat) (es : Entries) (path : List Nat) (v : Bytes)
    (hsh : ∀ pv ∈ es, pv.1.take c = path.take c)
    (hlen : ∀ pv ∈ es, c < pv.1.length) (hp : c < path.length) :
    groupAt c (nsAt path c) (insertEntry es path v) =
      insertEntry (groupAt c (nsAt path c) es) (path.drop (c + 1)) v := by
  induction es with
  | nil =>
    rw [insertEntry_nil, groupAt_nil, insertEntry_nil,
      groupAt_cons_pos (show nsAt (path, v).1 c = nsAt path c from rfl), groupAt_nil]
  | cons pv es ih =>
    by_cases hpv : pv.1 = path
    · rw [insertEntry_cons_pos hpv]
      have hnib : nsAt pv.1 c = nsAt path c := by rw [hpv]
      rw [groupAt_cons_pos (show nsAt (path, v).1 c = nsAt path c from rfl),
        groupAt_cons_pos hnib]
      rw [insertEntry_cons_pos (show (pv.1.drop (c + 1), pv.2).1 = path.drop (c + 1) by
        rw [hpv])]
    · rw [insertEntry_cons_neg hpv]
      by_cases hni : nsAt pv.1 c = nsAt path c
      · have hne : pv.1.drop (c + 1) ≠ path.drop (c + 1) := by
          intro he
          apply hpv
          have h1 := take_nib_drop pv.1 c (hlen pv (by simp))
          have h2 := take_nib_drop path c hp
          rw [h1, h2, hsh pv (by simp), hni, he]
        rw [groupAt_cons_pos hni, groupAt_cons_pos hni]
        rw [insertEntry_cons_neg hne]
        rw [ih (fun x hx => hsh x (by simp [hx])) (fun x hx => hlen x (by simp [hx]))]
      · rw [groupAt_cons_neg hni, groupAt_cons_neg hni]
        exact ih (fun x hx => hsh x (by simp [hx])) (fun x hx => hlen x (by simp [hx]))

theorem groupAt_eraseEntry_ne (c : Nat) (es : Entries) (path : List Nat)
    (i : Nat) (hi : i ≠ nsAt path c) :
    groupAt c i (eraseEntry es path) = groupAt c i es := by
  induction es with
  | nil => rfl
  | cons pv es ih =>
    by_cases hp : pv.1 = path
    · rw [eraseEntry_cons_pos hp]
      rw [groupAt_cons_neg (fun h => hi (by rw [← h, hp]))]
      exact ih
    · rw [eraseEntry_cons_neg hp]
      by_cases hni : nsAt pv.1 c = i
      · rw [groupAt_cons_pos hni, groupAt_cons_pos hni, ih]
      · rw [groupAt_cons_neg hni, groupAt_cons_neg hni, ih]

theorem groupAt_eraseEntry_eq (c : Nat) (es : Entries) (path : List Nat)
    (hsh : ∀ pv ∈ es, pv.1.take c = path.take c)
    (hlen : ∀ pv ∈ es, c < pv.1.length) (hp : c < path.length) :
    groupAt c (nsAt path c) (eraseEntry es path) =
      eraseEntry (groupAt c (nsAt path c) es) (path.drop (c + 1)) := by
  induction es with
  | nil => rfl
  | cons pv es ih =>
    by_cases hpv : pv.1 = path
    · rw [eraseEntry_cons_pos hpv]
      have hnib : nsAt pv.1 c = nsAt path c := by rw [hpv]
      rw [groupAt_cons_pos hnib]
      rw [eraseEntry_cons_pos (by rw [hpv])]
      exact ih (fun x hx => hsh x (by simp [hx])) (fun x hx => hlen x (by simp [hx]))
    · rw [eraseEntry_cons_neg hpv]
      by_cases hni : nsAt pv.1 c = nsAt path c
      · have hne : pv.1.drop (c + 1) ≠ path.drop (c + 1) := by
          intro he
          apply hpv
          have h1 := take_nib_drop pv.1 c (hlen pv (by simp))
          have h2 := take_nib_drop path c hp
          rw [h1, h2, hsh pv (by simp), hni, he]
        rw [groupAt_cons_pos hni, groupAt_cons_pos hni]
        rw [eraseEntry_cons_neg hne]
        rw [ih (fun x hx => hsh x (by simp [hx])) (fun x hx => hlen x (by simp [hx]))]
      · rw [groupAt_cons_neg hni, groupAt_cons_neg hni]
        exact ih (fun x hx => hsh x (by simp [hx])) (fun x hx => hlen x (by simp [hx]))

theorem lookupVal_groupAt (c : Nat) (es : Entries) (path : List Nat)
    (hsh : ∀ pv ∈ es, pv.1.take c = path.take c)
    (hlen : ∀ pv ∈ es, c < pv.1.length) (hp : c < path.length) :
    lookupVal es path = lookupVal (groupAt c (nsAt path c) es) (path.drop (c + 1)) := by
  induction es with
  | nil => rfl
  | cons pv es ih =>
    by_cases hpv : pv.1 = path
    · rw [lookupVal_cons_pos hpv]
      have hnib : nsAt pv.1 c = nsAt path c := by rw [hpv]
      rw [groupAt_cons_pos hnib]
      rw [lookupVal_cons_pos (by rw [hpv])]
    · rw [lookupVal_cons_neg hpv]
      by_cases hni : nsAt pv.1 c = nsAt path c
      · have hne : pv.1.drop (c + 1) ≠ path.drop (c + 1) := by
          intro he
          apply hpv
          have h1 := take_nib_drop pv.1 c (hlen pv (by simp))
          have h2 := take_nib_drop path c hp
          rw [h1, h2, hsh pv (by simp), hni, he]
        rw [groupAt_cons_pos hni]
        rw [lookupVal_cons_neg hne]
        exact ih (fun x hx => hsh x (by simp [hx])) (fun x hx => hlen x (by simp [hx]))
      · rw [groupAt_cons_neg hni]
        exact ih (fun x hx => hsh x (by simp [hx])) (fun x hx => hlen x (by simp [hx]))

theorem exists_nsAt_ne {l : Nat} {a b : List Nat × Bytes} {t : Entries}
    (hc : Canon l (a :: b :: t)) :
    ∃ x ∈ a :: b :: t, ∃ y ∈ a :: b :: t,
      nsAt x.1 (sharedLen (a :: b :: t)) ≠ nsAt y.1 (sharedLen (a :: b :: t)) := by
  set es := a :: b :: t with hes
  set c := sharedLen es with hcdef
  have hclt : c < l := sharedLen_lt hc
  by_contra hall
  push_neg at hall
  have hshare : ∀ x ∈ es, ∀ y ∈ es, x.1.take (c + 1) = y.1.take (c + 1) := by
    intro x hx y hy
    have hlx : x.1.length = l := (hc.2.2 x hx).1
    have hly : y.1.length = l := (hc.2.2 y hy).1
    exact take_succ_eq_of (by omega) (by omega)
      (take_sharedLen_eq es x y hx hy) (hall x hx y hy)
  have : c + 1 ≤ c := by
    have hb2 : c + 1 ≤ (es.headD ([], [])).1.length := by
      have : (es.headD ([], [])).1.length = l := (hc.2.2 a (by simp [hes])).1
      omega
    exact le_sharedLen es (c + 1) hb2 hshare
  omega

theorem drop_take_comm (p : List Nat) (k j : Nat) :
    (p.drop k).take j = (p.take (k + j)).drop k := by
  rw [List.drop_take]
  congr 1
  omega

theorem groupAt_map_drop (c k i : Nat) (es : Entries) (hk : k ≤ c) :
    groupAt (c - k) i (es.map (fun pv => (pv.1.drop k, pv.2))) = groupAt c i es := by
  unfold groupAt
  rw [List.filterMap_map]
  apply List.filterMap_congr
  intro pv hpv
  simp only [Function.comp_apply]
  have h1 : nsAt (pv.1.drop k) (c - k) = nsAt pv.1 c := by
    rw [nsAt_drop]
    congr 1
    omega
  have h2 : (pv.1.drop k).drop (c - k + 1) = pv.1.drop (c + 1) := by
    rw [List.drop_drop]
    congr 1
    omega
  rw [h1, h2]

theorem canon_map_drop {l k : Nat} {es : Entries} (hc : Canon l es)
    (hk : k ≤ sharedLen es) :
    Canon (l - k) (es.map (fun pv => (pv.1.drop k, pv.2))) := by
  refine ⟨?_, ?_, ?_⟩
  · intro h
    rcases hc.1 (List.map_eq_nil_iff.1 h)
  · have hshift : (es.map (fun pv => (pv.1.drop k, pv.2))).map Prod.fst =
        (es.map Prod.fst).map (fun p => p.drop k) := by
      simp [List.map_map]
    rw [hshift]
    apply List.Nodup.map_on ?_ hc.2.1
    intro x hx y hy hxy
    rcases List.mem_map.1 hx with ⟨pv, hpv, hpveq⟩
    rcases List.mem_map.1 hy with ⟨qv, hqv, hqveq⟩
    have hx1 : x.take k = y.take k := by
      rw [← hpveq, ← hqveq]
      have := take_sharedLen_eq es pv qv hpv hqv
      have h1 : pv.1.take k = qv.1.take k := by
        have h2 := congrArg (fun t => List.take k t) this
        simpa [List.take_take, Nat.min_eq_left hk] using h2
      exact h1
    calc x = x.take k ++ x.drop k := (List.take_append_drop _ _).symm
      _ = y.take k ++ y.drop k := by rw [hx1, hxy]
      _ = y := List.take_append_drop _ _
  · intro pv hpv
    rcases List.mem_map.1 hpv with ⟨qv, hqv, hqeq⟩
    have hwf := hc.2.2 qv hqv
    have hcl : sharedLen es ≤ l := by
      have := sharedLen_le es
      cases es with
      | nil => exact absurd rfl hc.1
      | cons a t =>
        have hla : a.1.length = l := (hc.2.2 a (by simp)).1
        simpa [hla] using this
    constructor
    · rw [← hqeq]
      simp only [List.length_drop, hwf.1]
    · intro n hn
      rw [← hqeq] at hn
      exact hwf.2 n (List.mem_of_mem_drop hn)

theorem canonNode_shift (f m k : Nat) (a b : List Nat × Bytes) (t : Entries)
    (hc : Canon (m + 1) (a :: b :: t)) (hk : k ≤ sharedLen (a :: b :: t))
    (hf : m - k + 1 ≤ f) :
    canonNode f ((a :: b :: t).map (fun pv => (pv.1.drop k, pv.2))) =
      .Branch ((a.1.take (sharedLen (a :: b :: t))).drop k)
        ((List.range 16).map (fun i =>
          if (groupAt (sharedLen (a :: b :: t)) i (a :: b :: t)).isEmpty then none
          else some (RlpNode.encoded
            (canonNode m (groupAt (sharedLen (a :: b :: t)) i (a :: b :: t)))))) := by
  have hclt : sharedLen (a :: b :: t) < m + 1 := sharedLen_lt hc
  rcases Nat.exists_eq_add_of_le hf with ⟨g, hg⟩
  rw [Nat.add_comm] at hg
  have hg2 : f = g + (m - k + 1) := hg
  have hmap : (a :: b :: t).map (fun pv => (pv.1.drop k, pv.2)) =
      (a.1.drop k, a.2) :: (b.1.drop k, b.2) ::
        t.map (fun pv => (pv.1.drop k, pv.2)) := by
    simp
  have hc2 : sharedLen ((a.1.drop k, a.2) :: (b.1.drop k, b.2) ::
      t.map (fun pv => (pv.1.drop k, pv.2))) = sharedLen (a :: b :: t) - k := by
    rw [← hmap]
    apply sharedLen_spec
    · rw [hmap]
      simp only [List.headD_cons]
      have hla : a.1.length = m + 1 := (hc.2.2 a (by simp)).1
      simp only [List.length_drop, hla]
      omega
    · intro x hx y hy
      rcases List.mem_map.1 hx with ⟨pv, hpv, hpveq⟩
      rcases List.mem_map.1 hy with ⟨qv, hqv, hqveq⟩
      rw [← hpveq, ← hqveq]
      simp only
      rw [drop_take_comm, drop_take_comm]
      have hkc : k + (sharedLen (a :: b :: t) - k) = sharedLen (a :: b :: t) := by omega
      rw [hkc]
      rw [take_sharedLen_eq (a :: b :: t) pv qv hpv hqv]
    · rcases exists_nsAt_ne hc with ⟨x, hx, y, hy, hxy⟩
      refine ⟨(x.1.drop k, x.2), List.mem_map_of_mem _ hx,
        (y.1.drop k, y.2), List.mem_map_of_mem _ hy, ?_⟩
      simp only [nsAt_drop]
      have hkc : k + (sharedLen (a :: b :: t) - k) = sharedLen (a :: b :: t) := by omega
      rw [hkc]
      exact hxy
  have hgrp : ∀ i, groupAt (sharedLen ((a.1.drop k, a.2) :: (b.1.drop k, b.2) ::
      t.map (fun pv => (pv.1.drop k, pv.2)))) i
        ((a.1.drop k, a.2) :: (b.1.drop k, b.2) ::
          t.map (fun pv => (pv.1.drop k, pv.2))) =
      groupAt (sharedLen (a :: b :: t)) i (a :: b :: t) := by
    intro i
    rw [hc2, ← hmap]
    exact groupAt_map_drop (sharedLen (a :: b :: t)) k i (a :: b :: t) hk
  subst hg2
  rw [hmap]
  rw [show g + (m - k + 1) = (g + (m - k)) + 1 from by omega]
  rw [canonNode_multi]
  have h1 : ((a.1.drop k, a.2) : List Nat × Bytes).1.take
      (sharedLen ((a.1.drop k, a.2) :: (b.1.drop k, b.2) ::
        t.map (fun pv => (pv.1.drop k, pv.2)))) =
      (a.1.take (sharedLen (a :: b :: t))).drop k := by
    rw [hc2]
    rw [show ((a.1.drop k, a.2) : List Nat × Bytes).1 = a.1.drop k from rfl]
    rw [drop_take_comm]
    rw [show k + (sharedLen (a :: b :: t) - k) = sharedLen (a :: b :: t) from by omega]
  rw [h1]
  have h2 : ∀ i ∈ List.range 16,
      (if (groupAt (sharedLen ((a.1.drop k, a.2) :: (b.1.drop k, b.2) ::
            t.map (fun pv => (pv.1.drop k, pv.2)))) i
          ((a.1.drop k, a.2) :: (b.1.drop k, b.2) ::
            t.map (fun pv => (pv.1.drop k, pv.2)))).isEmpty then none
        else some (RlpNode.encoded (canonNode (g + (m - k))
          (groupAt (sharedLen ((a.1.drop k, a.2) :: (b.1.drop k, b.2) ::
            t.map (fun pv => (pv.1.drop k, pv.2)))) i
          ((a.1.drop k, a.2) :: (b.1.drop k, b.2) ::
            t.map (fun pv => (pv.1.drop k, pv.2))))))) =
      (if (groupAt (sharedLen (a :: b :: t)) i (a :: b :: t)).isEmpty then none
        else some (RlpNode.encoded
          (canonNode m (groupAt (sharedLen (a :: b :: t)) i (a :: b :: t))))) := by
    intro i hi
    rw [hgrp i]
    by_cases hemp : (groupAt (sharedLen (a :: b :: t)) i (a :: b :: t)).isEmpty
    · rw [if_pos hemp, if_pos hemp]
    · rw [if_neg hemp, if_neg hemp]
      have hne : groupAt (sharedLen (a :: b :: t)) i (a :: b :: t) ≠ [] := fun h0 => by
        rw [h0] at hemp
        exact hemp rfl
      have hcg := canon_groupAt hc i hne
      have := canonNode_fuel_congr (g + (m - k)) m
        (m + 1 - sharedLen (a :: b :: t) - 1) _ hcg (by omega) (by omega)
      rw [this]
  rw [List.map_congr_left h2]

theorem children_update_gen (i0 : Nat) (hi0 : i0 < 16) (F G : Nat → Option Digest)
    (w : Option Digest) (hFi : G i0 = w) (hFother : ∀ i, i < 16 → i ≠ i0 → G i = F i) :
    (List.range 16).map G = ((List.range 16).map F).set i0 w := by
  apply list16_ext
  · simp
  · simp
  · intro i hi
    rw [getD_range16_map G i hi]
    by_cases hii : i = i0
    · subst hii
      rw [getD_set_lt _ _ _ (by simp [hi]), hFi]
    · rw [getD_set_ne _ _ _ _ (fun h => hii h.symm), getD_range16_map F i hi,
        hFother i hi hii]

theorem children_two (i1 i2 : Nat) (h1 : i1 < 16) (h2 : i2 < 16) (hne : i1 ≠ i2)
    (F : Nat → Option Digest) (d1 d2 : Digest)
    (hF1 : F i1 = some d1) (hF2 : F i2 = some d2)
    (hF : ∀ i, i < 16 → i ≠ i1 → i ≠ i2 → F i = none) :
    (List.range 16).map F = (empty_children.set i1 (some d1)).set i2 (some d2) := by
  apply list16_ext
  · simp
  · simp [empty_children]
  · intro i hi
    rw [getD_range16_map F i hi]
    by_cases hia : i = i2
    · subst hia
      rw [getD_set_lt _ _ _ (by simp [empty_children, hi]), hF2]
    · rw [getD_set_ne _ _ _ _ (fun h => hia h.symm)]
      by_cases hib : i = i1
      · subst hib
        rw [getD_set_lt _ _ _ (by simp [empty_children, hi]), hF1]
      · rw [getD_set_ne _ _ _ _ (fun h => hib h.symm), hF i hi hib hia]
        exact (getD_replicate_none i).symm

theorem canonNode_multi' (f : Nat) (es : Entries) (h : 2 ≤ es.length) :
    canonNode (f + 1) es =
      .Branch ((es.headD ([], [])).1.take (sharedLen es))
        ((List.range 16).map (fun i =>
          if (groupAt (sharedLen es) i es).isEmpty then none
          else some (RlpNode.encoded (canonNode f (groupAt (sharedLen es) i es))))) := by
  match es, h with
  | a :: b :: t, _ => exact canonNode_multi f a b t

theorem canonAll_multi' (f : Nat) (es : Entries) (h : 2 ≤ es.length) :
    canonAll (f + 1) es =
      canonDigest (f + 1) es ::
        (List.range 16).foldr (fun i acc =>
          canonAll f (groupAt (sharedLen es) i es) ++ acc) [] := by
  match es, h with
  | a :: b :: t, _ => exact canonAll_multi f a b t

theorem foldr_append_congr {f g : Nat → List Digest} {ns : List Nat}
    (h : ∀ i ∈ ns, f i = g i) :
    ns.foldr (fun i acc => f i ++ acc) [] = ns.foldr (fun i acc => g i ++ acc) [] := by
  induction ns with
  | nil => rfl
  | cons n ns ih =>
    simp only [List.foldr_cons]
    rw [h n (by simp), ih (fun i hi => h i (by simp [hi]))]

theorem canonAll_fuel_congr (f1 : Nat) :
    ∀ (f2 l : Nat) (es : Entries),
      Canon l es → l ≤ f1 → l ≤ f2 → canonAll f1 es = canonAll f2 es := by
  induction f1 using Nat.strong_induction_on with
  | _ f1 ih =>
    intro f2 l es hc h1 h2
    match es with
    | [] => exact absurd rfl hc.1
    | [pv] => rw [canonAll_singleton, canonAll_singleton]
    | a :: b :: t =>
      have hclt : sharedLen (a :: b :: t) < l := sharedLen_lt hc
      have hl1 : 1 ≤ l := by omega
      rcases Nat.exists_eq_add_of_le (Nat.le_trans hl1 h1) with ⟨g1, hg1⟩
      rcases Nat.exists_eq_add_of_le (Nat.le_trans hl1 h2) with ⟨g2, hg2⟩
      rw [Nat.add_comm] at hg1 hg2
      subst hg1; subst hg2
      rw [canonAll_multi, canonAll_multi]
      have hd : canonDigest (g1 + 1) (a :: b :: t) = canonDigest (g2 + 1) (a :: b :: t) := by
        unfold canonDigest
        rw [canonNode_fuel_congr (g1 + 1) (g2 + 1) l _ hc (by omega) (by omega)]
      rw [hd]
      congr 1
      apply foldr_append_congr
      intro i hi
      by_cases hemp : groupAt (sharedLen (a :: b :: t)) i (a :: b :: t) = []
      · rw [hemp]
        cases g1 <;> cases g2 <;> rfl
      · have hcg := canon_groupAt hc i hemp
        rw [ih g1 (by omega) g2 (l - sharedLen (a :: b :: t) - 1) _ hcg
          (by omega) (by omega)]

theorem insertEntry_append_of_not_mem {es : Entries} {p : List Nat} {v : Bytes}
    (h : p ∉ es.map Prod.fst) : insertEntry es p v = es ++ [(p, v)] := by
  induction es with
  | nil => rfl
  | cons pv es ih =>
    simp only [List.map_cons, List.mem_cons] at h
    push_neg at h
    rw [insertEntry_cons_neg (fun he => h.1 he.symm)]
    rw [ih h.2]
    rfl

theorem mem_fst_insertEntry {es : Entries} {p : List Nat} {v : Bytes}
    {x : List Nat × Bytes} (hx : x ∈ es) :
    ∃ y, y ∈ insertEntry es p v ∧ y.1 = x.1 := by
  induction es with
  | nil => exact absurd hx (List.not_mem_nil x)
  | cons pv es ih =>
    by_cases hp : pv.1 = p
    · rw [insertEntry_cons_pos hp]
      rcases List.mem_cons.1 hx with h1 | h1
      · exact ⟨(p, v), by simp, by rw [h1, hp]⟩
      · exact ⟨x, by simp [h1], rfl⟩
    · rw [insertEntry_cons_neg hp]
      rcases List.mem_cons.1 hx with h1 | h1
      · exact ⟨pv, by simp, by rw [h1]⟩
      · rcases ih h1 with ⟨y, hy1, hy2⟩
        exact ⟨y, by simp [hy1], hy2⟩

theorem insertEntry_length_ge {es : Entries} {p : List Nat} {v : Bytes} :
    es.length ≤ (insertEntry es p v).length := by
  induction es with
  | nil => simp [insertEntry]
  | cons pv es ih =>
    by_cases hp : pv.1 = p
    · rw [insertEntry_cons_pos hp]
      simp
    · rw [insertEntry_cons_neg hp]
      simpa using ih

theorem headD_mem {es : Entries} (h : es ≠ []) : es.headD ([], []) ∈ es := by
  cases es with
  | nil => exact absurd rfl h
  | cons pv es => simp

theorem encoded_until_branch (part : List Nat) (cs : List (Option Digest)) (k : Nat) :
    RlpNode.encoded_until (.Branch part cs) k = RlpNode.encoded (.Branch (part.take k) cs) := rfl

theorem canonAll_nil (m : Nat) : canonAll m ([] : Entries) = [] := by
  cases m <;> rfl

theorem sharedLen_map_drop (m k : Nat) (a b : List Nat × Bytes) (t : Entries)
    (hc : Canon (m + 1) (a :: b :: t)) (hk : k ≤ sharedLen (a :: b :: t)) :
    sharedLen ((a :: b :: t).map (fun pv => (pv.1.drop k, pv.2))) =
      sharedLen (a :: b :: t) - k := by
  apply sharedLen_spec
  · simp only [List.map_cons, List.headD_cons]
    have hla : a.1.length = m + 1 := (hc.2.2 a (by simp)).1
    simp only [List.length_drop, hla]
    have hclt : sharedLen (a :: b :: t) < m + 1 := sharedLen_lt hc
    omega
  · intro x hx y hy
    rcases List.mem_map.1 hx with ⟨pv, hpv, hpveq⟩
    rcases List.mem_map.1 hy with ⟨qv, hqv, hqveq⟩
    rw [← hpveq, ← hqveq]
    simp only
    rw [drop_take_comm, drop_take_comm]
    rw [show k + (sharedLen (a :: b :: t) - k) = sharedLen (a :: b :: t) from by omega]
    rw [take_sharedLen_eq (a :: b :: t) pv qv hpv hqv]
  · rcases exists_nsAt_ne hc with ⟨x, hx, y, hy, hxy⟩
    refine ⟨(x.1.drop k, x.2), List.mem_map_of_mem _ hx,
      (y.1.drop k, y.2), List.mem_map_of_mem _ hy, ?_⟩
    simp only [nsAt_drop]
    rw [show k + (sharedLen (a :: b :: t) - k) = sharedLen (a :: b :: t) from by omega]
    exact hxy

theorem canonAll_shift_mem (m k : Nat) (a b : List Nat × Bytes) (t : Entries)
    (hc : Canon (m + 1) (a :: b :: t)) (hk1 : 1 ≤ k)
    (hk : k ≤ sharedLen (a :: b :: t)) (d : Digest)
    (hd : d ∈ canonAll m ((a :: b :: t).map (fun pv => (pv.1.drop k, pv.2)))) :
    d = canonDigest m ((a :: b :: t).map (fun pv => (pv.1.drop k, pv.2))) ∨
      d ∈ canonAll (m + 1) (a :: b :: t) := by
  have hclt : sharedLen (a :: b :: t) < m + 1 := sharedLen_lt hc
  obtain ⟨n, rfl⟩ : ∃ n, m = n + 1 := ⟨m - 1, by omega⟩
  have hmap : (a :: b :: t).map (fun pv => (pv.1.drop k, pv.2)) =
      (a.1.drop k, a.2) :: (b.1.drop k, b.2) ::
        t.map (fun pv => (pv.1.drop k, pv.2)) := by
    simp
  rw [hmap, canonAll_multi] at hd
  rcases List.mem_cons.1 hd with rfl | hd2
  · left
    rw [hmap]
  · right
    have hsh : sharedLen ((a.1.drop k, a.2) :: (b.1.drop k, b.2) ::
        t.map (fun pv => (pv.1.drop k, pv.2))) = sharedLen (a :: b :: t) - k := by
      rw [← hmap]
      exact sharedLen_map_drop (n + 1) k a b t hc hk
    rcases (mem_foldr_append _ _ _).1 hd2 with ⟨i, hi, hdi⟩
    rw [hsh, ← hmap, groupAt_map_drop (sharedLen (a :: b :: t)) k i (a :: b :: t) hk]
      at hdi
    by_cases hemp : groupAt (sharedLen (a :: b :: t)) i (a :: b :: t) = []
    · rw [hemp, canonAll_nil] at hdi
      exact absurd hdi (List.not_mem_nil d)
    · have hcg := canon_groupAt hc i hemp
      rw [canonAll_fuel_congr n (n + 1)
        (n + 1 + 1 - sharedLen (a :: b :: t) - 1) _ hcg (by omega) (by omega)] at hdi
      exact canonAll_group_subset (n + 1) a b t i (List.mem_range.1 hi) d hdi

/-- The child-slot content the canonical trie stores for a sub-map: empty
slot for the empty map, the canonical digest otherwise. -/
def canonSlot (l : Nat) (es : Entries) : Option Digest :=
  if es.isEmpty then none else some (canonDigest l es)

theorem canonSlot_nil (l : Nat) : canonSlot l [] = none := rfl

theorem canonSlot_cons (l : Nat) (a : List Nat × Bytes) (es : Entries) :
    canonSlot l (a :: es) = some (canonDigest l (a :: es)) := rfl

theorem dbGet_of_mem {db : List Bytes} {h : Digest} (hm : h ∈ db) :
    dbGet db h = some h := by
  unfold dbGet
  rw [if_pos hm]

theorem remove_aux_none (g : Nat) (s : TrieState) (path : List Nat) :
    remove_aux (g + 1) s path none = (s, .ok none) := rfl

theorem isPrefixOf_take (a b : List Nat) :
    a.isPrefixOf b = true ↔ b.take a.length = a := by
  rw [List.isPrefixOf_iff_prefix, List.prefix_iff_eq_take]
  exact eq_comm

theorem countP_map_range16 (G : Nat → Option Digest) (p : Option Digest → Bool) :
    ((List.range 16).map G).countP p = (List.range 16).countP (fun i => p (G i)) := by
  rw [List.countP_map]
  rfl

theorem countP_range_eq_sub_one (n j : Nat) (P : Nat → Bool) (hj : j < n)
    (hPj : P j = false) (ho : ∀ i, i < n → i ≠ j → P i = true) :
    (List.range n).countP P = n - 1 := by
  induction n with
  | zero => omega
  | succ n ih =>
    rw [List.range_succ, List.countP_append]
    by_cases hjn : j = n
    · subst hjn
      have h1 : (List.range j).countP P = j := by
        have h2 : ∀ a ∈ List.range j, P a = true := fun a ha =>
          ho a (by have := List.mem_range.1 ha; omega)
            (by have := List.mem_range.1 ha; omega)
        calc (List.range j).countP P = (List.range j).length :=
              List.countP_eq_length.2 h2
          _ = j := List.length_range j
      rw [h1]
      simp [List.countP_cons, hPj]
    · have h2 : j < n := by omega
      rw [ih h2 (fun i hi hij => ho i (by omega) hij)]
      have h3 : P n = true := ho n (by omega) (fun h => hjn h.symm)
      simp [List.countP_cons, h3]
      omega

theorem countP_range_le_sub_one (n j : Nat) (P : Nat → Bool) (hj : j < n)
    (hPj : P j = false) : (List.range n).countP P ≤ n - 1 := by
  induction n with
  | zero => omega
  | succ n ih =>
    rw [List.range_succ, List.countP_append]
    by_cases hjn : j = n
    · subst hjn
      have h1 : (List.range j).countP P ≤ (List.range j).length :=
        List.countP_le_length P
      rw [List.length_range] at h1
      simp [List.countP_cons, hPj]
      omega
    · have h2 := ih (by omega)
      have h3 : List.countP P [n] ≤ [n].length := List.countP_le_length P
      simp only [List.length_cons, List.length_nil] at h3
      omega

theorem countP_range_le_sub_two (n j1 j2 : Nat) (P : Nat → Bool) (h1 : j1 < n)
    (h2 : j2 < n) (hne : j1 ≠ j2) (hP1 : P j1 = false) (hP2 : P j2 = false) :
    (List.range n).countP P ≤ n - 2 := by
  induction n with
  | zero => omega
  | succ n ih =>
    rw [List.range_succ, List.countP_append]
    by_cases hj1n : j1 = n
    · subst hj1n
      have h3 := countP_range_le_sub_one j1 j2 P (by omega) hP2
      simp [List.countP_cons, hP1]
      omega
    · by_cases hj2n : j2 = n
      · subst hj2n
        have h3 := countP_range_le_sub_one j2 j1 P (by omega) hP1
        simp [List.countP_cons, hP2]
        omega
      · have h3 := ih (by omega) (by omega)
        have h4 : List.countP P [n] ≤ [n].length := List.countP_le_length P
        simp only [List.length_cons, List.length_nil] at h4
        omega

theorem findIdx?_map_range_eq (G : Nat → Option Digest) (j : Nat) (hj : j < 16)
    (hpj : (G j).isSome = true) (hbefore : ∀ i, i < j → G i = none) :
    ((List.range 16).map G).findIdx? (fun x => x.isSome) = some j := by
  rw [List.findIdx?_eq_some_iff_getElem]
  refine ⟨by simpa using hj, ?_, ?_⟩
  · simpa using hpj
  · intro i hij
    have hnone := hbefore i hij
    simp [hnone]

theorem canonAll_unshift_mem (m k : Nat) (a b : List Nat × Bytes) (t : Entries)
    (hc : Canon (m + 1) (a :: b :: t)) (hk1 : 1 ≤ k)
    (hk : k ≤ sharedLen (a :: b :: t)) (d : Digest)
    (hd : d ∈ canonAll (m + 1) (a :: b :: t)) :
    d = canonDigest (m + 1) (a :: b :: t) ∨
      d ∈ canonAll m ((a :: b :: t).map (fun pv => (pv.1.drop k, pv.2))) := by
  have hclt : sharedLen (a :: b :: t) < m + 1 := sharedLen_lt hc
  obtain ⟨n, rfl⟩ : ∃ n, m = n + 1 := ⟨m - 1, by omega⟩
  rw [canonAll_multi] at hd
  rcases List.mem_cons.1 hd with rfl | hd2
  · exact Or.inl rfl
  · right
    have hmap : (a :: b :: t).map (fun pv => (pv.1.drop k, pv.2)) =
        (a.1.drop k, a.2) :: (b.1.drop k, b.2) ::
          t.map (fun pv => (pv.1.drop k, pv.2)) := by
      simp
    have hsh : sharedLen ((a.1.drop k, a.2) :: (b.1.drop k, b.2) ::
        t.map (fun pv => (pv.1.drop k, pv.2))) = sharedLen (a :: b :: t) - k := by
      rw [← hmap]
      exact sharedLen_map_drop (n + 1) k a b t hc hk
    rcases (mem_foldr_append _ _ _).1 hd2 with ⟨i, hi, hdi⟩
    rw [hmap, canonAll_multi]
    apply List.mem_cons_of_mem
    apply (mem_foldr_append _ _ _).2
    refine ⟨i, hi, ?_⟩
    rw [hsh, ← hmap, groupAt_map_drop (sharedLen (a :: b :: t)) k i (a :: b :: t) hk]
    by_cases hemp : groupAt (sharedLen (a :: b :: t)) i (a :: b :: t) = []
    · rw [hemp, canonAll_nil] at hdi
      exact absurd hdi (List.not_mem_nil d)
    · have hcg := canon_groupAt hc i hemp
      rwa [canonAll_fuel_congr (n + 1) n
        (n + 1 + 1 - sharedLen (a :: b :: t) - 1) _ hcg (by omega) (by omega)] at hdi

theorem eraseEntry_eq_nil_imp {es : Entries} {p : List Nat}
    (h : eraseEntry es p = []) : ∀ x ∈ es, x.1 = p := by
  intro x hx
  by_contra hne
  have : x ∈ eraseEntry es p := by
    rw [eraseEntry_eq_filter]
    exact List.mem_filter.2 ⟨hx, by simpa using hne⟩
  rw [h] at this
  exact absurd this (List.not_mem_nil x)

theorem two_le_length_of_mem {α : Type} {l : List α} {a b : α}
    (ha : a ∈ l) (hb : b ∈ l) (hne : a ≠ b) : 2 ≤ l.length := by
  cases l with
  | nil => exact absurd ha (List.not_mem_nil a)
  | cons c lt =>
    simp only [List.length_cons]
    rcases List.mem_cons.1 ha with rfl | ha2
    · rcases List.mem_cons.1 hb with rfl | hb2
      · exact absurd rfl hne
      · have := List.length_pos_of_mem hb2
        omega
    · have := List.length_pos_of_mem ha2
      omega

set_option maxHeartbeats 1000000 in
theorem insert_aux_canon (fuel : Nat) :
    ∀ (l : Nat) (es : Entries) (s : TrieState) (path : List Nat) (v : Bytes),
      Canon l es → StoreHas s.db l es → CacheOK s.cache →
      WFPath l path → l + 2 ≤ fuel →
      ∃ db2 cache2,
        insert_aux fuel s path v (some (canonDigest l es)) =
          ({ db := db2, cache := cache2, root := s.root,
             oldVal := match lookupVal es path with
               | some w => some w
               | none => s.oldVal },
           .ok (canonDigest l (insertEntry es path v))) ∧
        (∀ x ∈ s.db, x ∈ db2) ∧ StoreHas db2 l (insertEntry es path v) ∧
        CacheOK cache2 := by
  induction fuel with
  | zero =>
    intro l es s path v _ _ _ _ hf
    omega
  | succ f ih =>
    intro l es s path v hc hst hok hw hf
    have hmem : canonDigest l es ∈ s.db :=
      hst _ (canonDigest_mem_canonAll l l es hc (Nat.le_refl l))
    obtain ⟨cacheR, hread, hokR⟩ := readNodeCached_ok s (canonDigest l es) hok hmem
    have hdec := decoded_canonDigest l l es hc (Nat.le_refl l)
    cases es with
    | nil => exact absurd rfl hc.1
    | cons pv0 rest =>
      cases rest with
      | nil =>
        -- current node is the leaf pv0
        obtain ⟨p0, w0⟩ := pv0
        rw [canonNode_singleton] at hdec
        have hlp : p0.length = l := (hc.2.2 (p0, w0) (by simp)).1
        by_cases hpp : p0 = path
        · -- leaf replacement
          refine ⟨RlpNode.encoded (.Leaf path v) :: s.db,
            cacheInsert cacheR (RlpNode.encoded (.Leaf path v))
              (RlpNode.encoded (.Leaf path v)), ?_, ?_, ?_, ?_⟩
          · unfold insert_aux
            dsimp only
            rw [hread]
            dsimp only
            rw [hdec]
            dsimp only
            rw [if_pos hpp]
            rw [insertEntry_cons_pos (show ((p0, w0) : List Nat × Bytes).1 = path from hpp)]
            rw [lookupVal_cons_pos (show ((p0, w0) : List Nat × Bytes).1 = path from hpp)]
            rw [canonDigest, canonNode_singleton]
            rfl
          · intro x hx
            simp [hx]
          · intro d hd
            rw [insertEntry_cons_pos (show ((p0, w0) : List Nat × Bytes).1 = path from hpp)]
              at hd
            rw [canonAll_singleton] at hd
            simp at hd
            simp [hd]
          · exact cacheOK_insert hokR _
        · -- split the leaf into a branch with two child leaves
          have hlpath : path.length = l := hw.1
          have hlen : p0.length = path.length := by omega
          have hci : nsCommon p0 path < p0.length := nsCommon_lt_of_ne p0 path hlen hpp
          have hcip : nsCommon p0 path < path.length := by omega
          obtain ⟨m, rfl⟩ : ∃ m, l = m + 1 := ⟨l - 1, by omega⟩
          obtain ⟨g, rfl⟩ : ∃ g, f = g + 1 := ⟨f - 1, by omega⟩
          have hwp0 : WFPath (m + 1) p0 := hc.2.2 (p0, w0) (by simp)
          have hn1 : nsAt p0 (nsCommon p0 path) < 16 :=
            nsAt_lt_16 (hc.2.2 (p0, w0) (by simp)) (by omega)
          have hn2 : nsAt path (nsCommon p0 path) < 16 := nsAt_lt_16 hw (by omega)
          have hne2 : nsAt p0 (nsCommon p0 path) ≠ nsAt path (nsCommon p0 path) :=
            nsAt_nsCommon_ne p0 path hci hcip
          have hshared : sharedLen [(p0, w0), (path, v)] = nsCommon p0 path :=
            sharedLen_pair p0 path w0 v hlen hpp
          have hg1 : groupAt (nsCommon p0 path) (nsAt p0 (nsCommon p0 path))
              [(p0, w0), (path, v)] = [(p0.drop (nsCommon p0 path + 1), w0)] := by
            rw [groupAt_cons_pos (show nsAt ((p0, w0) : List Nat × Bytes).1
              (nsCommon p0 path) = nsAt p0 (nsCommon p0 path) from rfl)]
            rw [groupAt_cons_neg (show nsAt ((path, v) : List Nat × Bytes).1
              (nsCommon p0 path) ≠ nsAt p0 (nsCommon p0 path) from fun h => hne2 h.symm)]
            rfl
          have hg2 : groupAt (nsCommon p0 path) (nsAt path (nsCommon p0 path))
              [(p0, w0), (path, v)] = [(path.drop (nsCommon p0 path + 1), v)] := by
            rw [groupAt_cons_neg (show nsAt ((p0, w0) : List Nat × Bytes).1
              (nsCommon p0 path) ≠ nsAt path (nsCommon p0 path) from hne2)]
            rw [groupAt_cons_pos (show nsAt ((path, v) : List Nat × Bytes).1
              (nsCommon p0 path) = nsAt path (nsCommon p0 path) from rfl)]
            rfl
          have hgo : ∀ i, i < 16 → i ≠ nsAt p0 (nsCommon p0 path) →
              i ≠ nsAt path (nsCommon p0 path) →
              groupAt (nsCommon p0 path) i [(p0, w0), (path, v)] = [] := by
            intro i _ h1 h2
            apply groupAt_empty_of
            intro pv hpv
            rcases List.mem_cons.1 hpv with rfl | hpv2
            · exact fun h => h1 h.symm
            · rw [List.mem_singleton] at hpv2
              subst hpv2
              exact fun h => h2 h.symm
          have hch := children_two (nsAt p0 (nsCommon p0 path))
            (nsAt path (nsCommon p0 path)) hn1 hn2 hne2
            (fun i => if (groupAt (nsCommon p0 path) i [(p0, w0), (path, v)]).isEmpty
              then none
              else some (RlpNode.encoded (canonNode m
                (groupAt (nsCommon p0 path) i [(p0, w0), (path, v)]))))
            (RlpNode.encoded (.Leaf (p0.drop (nsCommon p0 path + 1)) w0))
            (RlpNode.encoded (.Leaf (path.drop (nsCommon p0 path + 1)) v))
            (by dsimp only; rw [hg1, if_neg (by simp), canonNode_singleton])
            (by dsimp only; rw [hg2, if_neg (by simp), canonNode_singleton])
            (by intro i hi h1 h2; dsimp only; rw [hgo i hi h1 h2]; simp)
          refine ⟨(RlpNode.Branch (p0.take (nsCommon p0 path))
              ((empty_children.set (nsAt p0 (nsCommon p0 path)) (some (RlpNode.Leaf (p0.drop (nsCommon p0 path + 1)) w0).encoded)).set
                (nsAt path (nsCommon p0 path)) (some (RlpNode.Leaf (path.drop (nsCommon p0 path + 1)) v).encoded))).encoded ::
              (RlpNode.Leaf (path.drop (nsCommon p0 path + 1)) v).encoded :: (RlpNode.Leaf (p0.drop (nsCommon p0 path + 1)) w0).encoded :: s.db,
            cacheInsert (cacheInsert (cacheInsert cacheR
              (RlpNode.Leaf (p0.drop (nsCommon p0 path + 1)) w0).encoded (RlpNode.Leaf (p0.drop (nsCommon p0 path + 1)) w0).encoded)
              (RlpNode.Leaf (path.drop (nsCommon p0 path + 1)) v).encoded (RlpNode.Leaf (path.drop (nsCommon p0 path + 1)) v).encoded)
              ((RlpNode.Branch (p0.take (nsCommon p0 path))
              ((empty_children.set (nsAt p0 (nsCommon p0 path)) (some (RlpNode.Leaf (p0.drop (nsCommon p0 path + 1)) w0).encoded)).set
                (nsAt path (nsCommon p0 path)) (some (RlpNode.Leaf (path.drop (nsCommon p0 path + 1)) v).encoded))).encoded)
              ((RlpNode.Branch (p0.take (nsCommon p0 path))
              ((empty_children.set (nsAt p0 (nsCommon p0 path)) (some (RlpNode.Leaf (p0.drop (nsCommon p0 path + 1)) w0).encoded)).set
                (nsAt path (nsCommon p0 path)) (some (RlpNode.Leaf (path.drop (nsCommon p0 path + 1)) v).encoded))).encoded),
            ?_, ?_, ?_, ?_⟩
          · -- the computation
            unfold insert_aux
            dsimp only
            rw [hread]
            dsimp only
            rw [hdec]
            dsimp only
            rw [if_neg hpp]
            rw [show empty_children.getD (nsAt (p0.drop (nsCommon p0 path)) 0) none =
              none from getD_replicate_none _]
            rw [insert_aux_none g]
            dsimp only
            rw [show ((empty_children.set (nsAt (p0.drop (nsCommon p0 path)) 0)
                (some (RlpNode.encoded (.Leaf ((p0.drop (nsCommon p0 path)).drop 1)
                  w0)))).getD (nsAt (path.drop (nsCommon p0 path)) 0) none) = none from by
              rw [getD_set_ne _ _ _ _ (show nsAt (p0.drop (nsCommon p0 path)) 0 ≠
                nsAt (path.drop (nsCommon p0 path)) 0 from by
                  rw [nsAt_drop, nsAt_drop]; exact hne2)]
              exact getD_replicate_none _]
            rw [insert_aux_none g]
            dsimp only
            rw [encoded_until_branch]
            rw [show nsAt (p0.drop (nsCommon p0 path)) 0 = nsAt p0 (nsCommon p0 path)
              from by rw [nsAt_drop, Nat.add_zero]]
            rw [show nsAt (path.drop (nsCommon p0 path)) 0 = nsAt path (nsCommon p0 path)
              from by rw [nsAt_drop, Nat.add_zero]]
            rw [show (p0.drop (nsCommon p0 path)).drop 1 =
              p0.drop (nsCommon p0 path + 1) from by rw [List.drop_drop, Nat.add_comm]]
            rw [show (path.drop (nsCommon p0 path)).drop 1 =
              path.drop (nsCommon p0 path + 1) from by rw [List.drop_drop, Nat.add_comm]]
            rw [insertEntry_cons_neg (show ((p0, w0) : List Nat × Bytes).1 ≠ path
              from hpp)]
            rw [insertEntry_nil]
            rw [lookupVal_cons_neg (show ((p0, w0) : List Nat × Bytes).1 ≠ path
              from hpp)]
            rw [show lookupVal [] path = none from rfl]
            dsimp only
            rw [canonDigest, canonNode_multi]
            rw [hshared]
            rw [hch]
            dsimp only [dbInsert]
          · -- the store only grows
            intro x hx
            simp [hx]
          · -- every canonical node is stored
            rw [insertEntry_cons_neg (show ((p0, w0) : List Nat × Bytes).1 ≠ path
              from hpp)]
            rw [insertEntry_nil]
            intro d hd
            rw [canonAll_multi, hshared] at hd
            rcases List.mem_cons.1 hd with rfl | hd2
            · have hBeq : canonDigest (m + 1) [(p0, w0), (path, v)] =
                  RlpNode.encoded (.Branch (p0.take (nsCommon p0 path))
                    ((empty_children.set (nsAt p0 (nsCommon p0 path))
                      (some (RlpNode.encoded
                        (.Leaf (p0.drop (nsCommon p0 path + 1)) w0)))).set
                      (nsAt path (nsCommon p0 path))
                      (some (RlpNode.encoded
                        (.Leaf (path.drop (nsCommon p0 path + 1)) v))))) := by
                rw [canonDigest, canonNode_multi, hshared, hch]
              rw [hBeq]
              simp
            · rcases (mem_foldr_append _ _ _).1 hd2 with ⟨i, hi, hdi⟩
              by_cases hii1 : i = nsAt p0 (nsCommon p0 path)
              · subst hii1
                rw [hg1, canonAll_singleton] at hdi
                rw [List.mem_singleton] at hdi
                subst hdi
                simp
              · by_cases hii2 : i = nsAt path (nsCommon p0 path)
                · subst hii2
                  rw [hg2, canonAll_singleton] at hdi
                  rw [List.mem_singleton] at hdi
                  subst hdi
                  simp
                · rw [hgo i (List.mem_range.1 hi) hii1 hii2] at hdi
                  have hnil : canonAll m ([] : Entries) = [] := by cases m <;> rfl
                  rw [hnil] at hdi
                  exact absurd hdi (List.not_mem_nil d)
          · -- cache consistency
            exact cacheOK_insert (cacheOK_insert (cacheOK_insert hokR _) _) _
      | cons pv1 t =>
        -- the current node is the canonical branch of at least two entries
        have hclt : sharedLen (pv0 :: pv1 :: t) < l := sharedLen_lt hc
        obtain ⟨m, rfl⟩ : ∃ m, l = m + 1 := ⟨l - 1, by omega⟩
        obtain ⟨g, rfl⟩ : ∃ g, f = g + 1 := ⟨f - 1, by omega⟩
        rw [canonNode_multi] at hdec
        have hlpath : path.length = m + 1 := hw.1
        have hlp0 : pv0.1.length = m + 1 := (hc.2.2 pv0 (by simp)).1
        have hplen : (pv0.1.take (sharedLen (pv0 :: pv1 :: t))).length = sharedLen (pv0 :: pv1 :: t) := by
          rw [List.length_take]
          omega
        by_cases hcc : nsCommon (pv0.1.take (sharedLen (pv0 :: pv1 :: t))) path < (pv0.1.take (sharedLen (pv0 :: pv1 :: t))).length
        · -- the walk diverges inside the shared prefix
          have hc2C : nsCommon (pv0.1.take (sharedLen (pv0 :: pv1 :: t))) path < sharedLen (pv0 :: pv1 :: t) := by omega
          have hc2path : nsCommon (pv0.1.take (sharedLen (pv0 :: pv1 :: t))) path < path.length := by omega
          have hTT : ∀ y : List Nat, (y.take (sharedLen (pv0 :: pv1 :: t))).take (nsCommon (pv0.1.take (sharedLen (pv0 :: pv1 :: t))) path) = y.take (nsCommon (pv0.1.take (sharedLen (pv0 :: pv1 :: t))) path) := by
            intro y
            rw [List.take_take, Nat.min_eq_left (Nat.le_of_lt hc2C)]
          have hpp2 : (pv0.1.take (sharedLen (pv0 :: pv1 :: t))).take (nsCommon (pv0.1.take (sharedLen (pv0 :: pv1 :: t))) path) = path.take (nsCommon (pv0.1.take (sharedLen (pv0 :: pv1 :: t))) path) := take_nsCommon (pv0.1.take (sharedLen (pv0 :: pv1 :: t))) path
          have hneA : nsAt (pv0.1.take (sharedLen (pv0 :: pv1 :: t))) (nsCommon (pv0.1.take (sharedLen (pv0 :: pv1 :: t))) path) ≠ nsAt path (nsCommon (pv0.1.take (sharedLen (pv0 :: pv1 :: t))) path) :=
            nsAt_nsCommon_ne (pv0.1.take (sharedLen (pv0 :: pv1 :: t))) path hcc (by omega)
          have hi1lt : nsAt (pv0.1.take (sharedLen (pv0 :: pv1 :: t))) (nsCommon (pv0.1.take (sharedLen (pv0 :: pv1 :: t))) path) < 16 := by
            rw [nsAt_take pv0.1 (sharedLen (pv0 :: pv1 :: t)) (nsCommon (pv0.1.take (sharedLen (pv0 :: pv1 :: t))) path) hc2C]
            exact nsAt_lt_16 (hc.2.2 pv0 (by simp)) (by omega)
          have hi2lt : nsAt path (nsCommon (pv0.1.take (sharedLen (pv0 :: pv1 :: t))) path) < 16 := nsAt_lt_16 hw (by omega)
          have hallnib : ∀ x ∈ (pv0 :: pv1 :: t), nsAt x.1 (nsCommon (pv0.1.take (sharedLen (pv0 :: pv1 :: t))) path) = nsAt (pv0.1.take (sharedLen (pv0 :: pv1 :: t))) (nsCommon (pv0.1.take (sharedLen (pv0 :: pv1 :: t))) path) := by
            intro x hx
            rw [nsAt_take pv0.1 (sharedLen (pv0 :: pv1 :: t)) (nsCommon (pv0.1.take (sharedLen (pv0 :: pv1 :: t))) path) hc2C]
            exact take_eq_imp_nsAt_eq
              (take_sharedLen_eq (pv0 :: pv1 :: t) x pv0 hx (by simp)) hc2C
          have hnotmem : path ∉ (pv0 :: pv1 :: t).map Prod.fst := by
            intro hmem2
            rcases List.mem_map.1 hmem2 with ⟨x, hx, hxeq⟩
            have h1 : (pv0.1.take (sharedLen (pv0 :: pv1 :: t))).take (sharedLen (pv0 :: pv1 :: t)) = path.take (sharedLen (pv0 :: pv1 :: t)) := by
              rw [← hxeq, List.take_take, Nat.min_self]
              exact (take_sharedLen_eq (pv0 :: pv1 :: t) x pv0 hx (by simp)).symm
            have h3 := le_nsCommon_of_take_eq (pv0.1.take (sharedLen (pv0 :: pv1 :: t))) path (sharedLen (pv0 :: pv1 :: t))
              (Nat.le_of_eq hplen.symm) h1
            omega
          have hins : (insertEntry (pv0 :: pv1 :: t) path v) = (pv0 :: pv1 :: t) ++ [(path, v)] :=
            insertEntry_append_of_not_mem hnotmem
          have h2len2 : 2 ≤ (insertEntry (pv0 :: pv1 :: t) path v).length :=
            Nat.le_trans (by simp) insertEntry_length_ge
          have hsl2A : sharedLen (insertEntry (pv0 :: pv1 :: t) path v) = nsCommon (pv0.1.take (sharedLen (pv0 :: pv1 :: t))) path := by
            apply sharedLen_spec
            · rcases mem_insertEntry (headD_mem (insertEntry_ne_nil (pv0 :: pv1 :: t) path v))
                with h | h
              · have h2 := (hc.2.2 _ h).1
                omega
              · have h2 : (((insertEntry (pv0 :: pv1 :: t) path v).headD ([], [])).1).length = path.length := by
                  rw [h]
                omega
            · intro x hx y hy
              have key : ∀ z ∈ (insertEntry (pv0 :: pv1 :: t) path v), z.1.take (nsCommon (pv0.1.take (sharedLen (pv0 :: pv1 :: t))) path) = path.take (nsCommon (pv0.1.take (sharedLen (pv0 :: pv1 :: t))) path) := by
                intro z hz
                rcases mem_insertEntry hz with h | h
                · rw [← hTT z.1,
                    take_sharedLen_eq (pv0 :: pv1 :: t) z pv0 h (by simp), hTT pv0.1,
                    ← hTT pv0.1]
                  exact hpp2
                · rw [h]
              rw [key x hx, key y hy]
            · rcases @mem_fst_insertEntry (pv0 :: pv1 :: t) path v pv0 (by simp)
                with ⟨x2, hx2, hx2eq⟩
              refine ⟨x2, hx2, (path, v), by rw [hins]; simp, ?_⟩
              rw [hx2eq]
              rw [show nsAt pv0.1 (nsCommon (pv0.1.take (sharedLen (pv0 :: pv1 :: t))) path) = nsAt (pv0.1.take (sharedLen (pv0 :: pv1 :: t))) (nsCommon (pv0.1.take (sharedLen (pv0 :: pv1 :: t))) path) from
                (nsAt_take pv0.1 (sharedLen (pv0 :: pv1 :: t)) (nsCommon (pv0.1.take (sharedLen (pv0 :: pv1 :: t))) path) hc2C).symm]
              exact hneA
          have hhead2A : (((insertEntry (pv0 :: pv1 :: t) path v).headD ([], [])).1).take (nsCommon (pv0.1.take (sharedLen (pv0 :: pv1 :: t))) path) =
              (pv0.1.take (sharedLen (pv0 :: pv1 :: t))).take (nsCommon (pv0.1.take (sharedLen (pv0 :: pv1 :: t))) path) := by
            rcases mem_insertEntry (headD_mem (insertEntry_ne_nil (pv0 :: pv1 :: t) path v))
              with h | h
            · rw [← hTT (((insertEntry (pv0 :: pv1 :: t) path v).headD ([], [])).1),
                take_sharedLen_eq (pv0 :: pv1 :: t) _ pv0 h (by simp), hTT pv0.1, ← hTT pv0.1]
            · rw [h]
              exact hpp2.symm
          have hgrpi1 : groupAt (nsCommon (pv0.1.take (sharedLen (pv0 :: pv1 :: t))) path) (nsAt (pv0.1.take (sharedLen (pv0 :: pv1 :: t))) (nsCommon (pv0.1.take (sharedLen (pv0 :: pv1 :: t))) path)) (insertEntry (pv0 :: pv1 :: t) path v) =
              ((pv0 :: pv1 :: t).map (fun pv => (pv.1.drop (nsCommon (pv0.1.take (sharedLen (pv0 :: pv1 :: t))) path + 1), pv.2))) := by
            rw [hins, groupAt_append]
            rw [groupAt_full (nsCommon (pv0.1.take (sharedLen (pv0 :: pv1 :: t))) path) (nsAt (pv0.1.take (sharedLen (pv0 :: pv1 :: t))) (nsCommon (pv0.1.take (sharedLen (pv0 :: pv1 :: t))) path)) (pv0 :: pv1 :: t) hallnib]
            rw [groupAt_cons_neg (show nsAt ((path, v) : List Nat × Bytes).1 (nsCommon (pv0.1.take (sharedLen (pv0 :: pv1 :: t))) path) ≠
              nsAt (pv0.1.take (sharedLen (pv0 :: pv1 :: t))) (nsCommon (pv0.1.take (sharedLen (pv0 :: pv1 :: t))) path) from fun h => hneA h.symm)]
            rw [groupAt_nil, List.append_nil]
          have hgrpi2 : groupAt (nsCommon (pv0.1.take (sharedLen (pv0 :: pv1 :: t))) path) (nsAt path (nsCommon (pv0.1.take (sharedLen (pv0 :: pv1 :: t))) path)) (insertEntry (pv0 :: pv1 :: t) path v) =
              [(path.drop (nsCommon (pv0.1.take (sharedLen (pv0 :: pv1 :: t))) path + 1), v)] := by
            rw [hins, groupAt_append]
            rw [groupAt_empty_of (nsCommon (pv0.1.take (sharedLen (pv0 :: pv1 :: t))) path) (nsAt path (nsCommon (pv0.1.take (sharedLen (pv0 :: pv1 :: t))) path)) (pv0 :: pv1 :: t)
              (fun x hx h => hneA ((hallnib x hx).symm.trans h))]
            rw [groupAt_cons_pos (show nsAt ((path, v) : List Nat × Bytes).1 (nsCommon (pv0.1.take (sharedLen (pv0 :: pv1 :: t))) path) =
              nsAt path (nsCommon (pv0.1.take (sharedLen (pv0 :: pv1 :: t))) path) from rfl)]
            rw [groupAt_nil]
            rfl
          have hgoA : ∀ i, i ≠ nsAt (pv0.1.take (sharedLen (pv0 :: pv1 :: t))) (nsCommon (pv0.1.take (sharedLen (pv0 :: pv1 :: t))) path) → i ≠ nsAt path (nsCommon (pv0.1.take (sharedLen (pv0 :: pv1 :: t))) path) →
              groupAt (nsCommon (pv0.1.take (sharedLen (pv0 :: pv1 :: t))) path) i (insertEntry (pv0 :: pv1 :: t) path v) = [] := by
            intro i h1 h2
            rw [hins, groupAt_append]
            rw [groupAt_empty_of (nsCommon (pv0.1.take (sharedLen (pv0 :: pv1 :: t))) path) i (pv0 :: pv1 :: t)
              (fun x hx h => h1 ((hallnib x hx).symm.trans h).symm)]
            rw [groupAt_cons_neg (show nsAt ((path, v) : List Nat × Bytes).1 (nsCommon (pv0.1.take (sharedLen (pv0 :: pv1 :: t))) path) ≠ i
              from fun h => h2 h.symm)]
            rw [groupAt_nil]
            rfl
          have hchA : List.map (fun i => if (groupAt (nsCommon (pv0.1.take (sharedLen (pv0 :: pv1 :: t))) path) i (insertEntry (pv0 :: pv1 :: t) path v)).isEmpty then none
              else some (RlpNode.encoded (canonNode m (groupAt (nsCommon (pv0.1.take (sharedLen (pv0 :: pv1 :: t))) path) i (insertEntry (pv0 :: pv1 :: t) path v))))) (List.range 16) =
              (empty_children.set (nsAt (pv0.1.take (sharedLen (pv0 :: pv1 :: t))) (nsCommon (pv0.1.take (sharedLen (pv0 :: pv1 :: t))) path)) (some ((RlpNode.Branch ((pv0.1.take (sharedLen (pv0 :: pv1 :: t))).drop (nsCommon (pv0.1.take (sharedLen (pv0 :: pv1 :: t))) path + 1))
              (List.map (fun i => if (groupAt (sharedLen (pv0 :: pv1 :: t)) i (pv0 :: pv1 :: t)).isEmpty then none
              else some (RlpNode.encoded (canonNode m (groupAt (sharedLen (pv0 :: pv1 :: t)) i (pv0 :: pv1 :: t))))) (List.range 16))).encoded))).set
                (nsAt path (nsCommon (pv0.1.take (sharedLen (pv0 :: pv1 :: t))) path)) (some ((RlpNode.Leaf (path.drop (nsCommon (pv0.1.take (sharedLen (pv0 :: pv1 :: t))) path + 1)) v).encoded)) := by
            apply children_two (nsAt (pv0.1.take (sharedLen (pv0 :: pv1 :: t))) (nsCommon (pv0.1.take (sharedLen (pv0 :: pv1 :: t))) path)) (nsAt path (nsCommon (pv0.1.take (sharedLen (pv0 :: pv1 :: t))) path))
              hi1lt hi2lt hneA
            · dsimp only
              rw [hgrpi1]
              rw [if_neg (by simp)]
              rw [canonNode_shift m m (nsCommon (pv0.1.take (sharedLen (pv0 :: pv1 :: t))) path + 1) pv0 pv1 t hc (by omega) (by omega)]
            · dsimp only
              rw [hgrpi2]
              rw [if_neg (by simp)]
              rw [canonNode_singleton]
            · intro i hi h1 h2
              dsimp only
              rw [hgoA i h1 h2]
              simp
          refine ⟨((RlpNode.Branch ((pv0.1.take (sharedLen (pv0 :: pv1 :: t))).take (nsCommon (pv0.1.take (sharedLen (pv0 :: pv1 :: t))) path)) ((empty_children.set (nsAt (pv0.1.take (sharedLen (pv0 :: pv1 :: t))) (nsCommon (pv0.1.take (sharedLen (pv0 :: pv1 :: t))) path)) (some ((RlpNode.Branch ((pv0.1.take (sharedLen (pv0 :: pv1 :: t))).drop (nsCommon (pv0.1.take (sharedLen (pv0 :: pv1 :: t))) path + 1))
              (List.map (fun i => if (groupAt (sharedLen (pv0 :: pv1 :: t)) i (pv0 :: pv1 :: t)).isEmpty then none
              else some (RlpNode.encoded (canonNode m (groupAt (sharedLen (pv0 :: pv1 :: t)) i (pv0 :: pv1 :: t))))) (List.range 16))).encoded))).set
              (nsAt path (nsCommon (pv0.1.take (sharedLen (pv0 :: pv1 :: t))) path)) (some ((RlpNode.Leaf (path.drop (nsCommon (pv0.1.take (sharedLen (pv0 :: pv1 :: t))) path + 1)) v).encoded)))).encoded) :: ((RlpNode.Leaf (path.drop (nsCommon (pv0.1.take (sharedLen (pv0 :: pv1 :: t))) path + 1)) v).encoded) :: ((RlpNode.Branch ((pv0.1.take (sharedLen (pv0 :: pv1 :: t))).drop (nsCommon (pv0.1.take (sharedLen (pv0 :: pv1 :: t))) path + 1))
              (List.map (fun i => if (groupAt (sharedLen (pv0 :: pv1 :: t)) i (pv0 :: pv1 :: t)).isEmpty then none
              else some (RlpNode.encoded (canonNode m (groupAt (sharedLen (pv0 :: pv1 :: t)) i (pv0 :: pv1 :: t))))) (List.range 16))).encoded) :: s.db,
            cacheInsert (cacheInsert (cacheInsert cacheR ((RlpNode.Branch ((pv0.1.take (sharedLen (pv0 :: pv1 :: t))).drop (nsCommon (pv0.1.take (sharedLen (pv0 :: pv1 :: t))) path + 1))
              (List.map (fun i => if (groupAt (sharedLen (pv0 :: pv1 :: t)) i (pv0 :: pv1 :: t)).isEmpty then none
              else some (RlpNode.encoded (canonNode m (groupAt (sharedLen (pv0 :: pv1 :: t)) i (pv0 :: pv1 :: t))))) (List.range 16))).encoded) ((RlpNode.Branch ((pv0.1.take (sharedLen (pv0 :: pv1 :: t))).drop (nsCommon (pv0.1.take (sharedLen (pv0 :: pv1 :: t))) path + 1))
              (List.map (fun i => if (groupAt (sharedLen (pv0 :: pv1 :: t)) i (pv0 :: pv1 :: t)).isEmpty then none
              else some (RlpNode.encoded (canonNode m (groupAt (sharedLen (pv0 :: pv1 :: t)) i (pv0 :: pv1 :: t))))) (List.range 16))).encoded)) ((RlpNode.Leaf (path.drop (nsCommon (pv0.1.take (sharedLen (pv0 :: pv1 :: t))) path + 1)) v).encoded) ((RlpNode.Leaf (path.drop (nsCommon (pv0.1.take (sharedLen (pv0 :: pv1 :: t))) path + 1)) v).encoded))
              ((RlpNode.Branch ((pv0.1.take (sharedLen (pv0 :: pv1 :: t))).take (nsCommon (pv0.1.take (sharedLen (pv0 :: pv1 :: t))) path)) ((empty_children.set (nsAt (pv0.1.take (sharedLen (pv0 :: pv1 :: t))) (nsCommon (pv0.1.take (sharedLen (pv0 :: pv1 :: t))) path)) (some ((RlpNode.Branch ((pv0.1.take (sharedLen (pv0 :: pv1 :: t))).drop (nsCommon (pv0.1.take (sharedLen (pv0 :: pv1 :: t))) path + 1))
              (List.map (fun i => if (groupAt (sharedLen (pv0 :: pv1 :: t)) i (pv0 :: pv1 :: t)).isEmpty then none
              else some (RlpNode.encoded (canonNode m (groupAt (sharedLen (pv0 :: pv1 :: t)) i (pv0 :: pv1 :: t))))) (List.range 16))).encoded))).set
              (nsAt path (nsCommon (pv0.1.take (sharedLen (pv0 :: pv1 :: t))) path)) (some ((RlpNode.Leaf (path.drop (nsCommon (pv0.1.take (sharedLen (pv0 :: pv1 :: t))) path + 1)) v).encoded)))).encoded) ((RlpNode.Branch ((pv0.1.take (sharedLen (pv0 :: pv1 :: t))).take (nsCommon (pv0.1.take (sharedLen (pv0 :: pv1 :: t))) path)) ((empty_children.set (nsAt (pv0.1.take (sharedLen (pv0 :: pv1 :: t))) (nsCommon (pv0.1.take (sharedLen (pv0 :: pv1 :: t))) path)) (some ((RlpNode.Branch ((pv0.1.take (sharedLen (pv0 :: pv1 :: t))).drop (nsCommon (pv0.1.take (sharedLen (pv0 :: pv1 :: t))) path + 1))
              (List.map (fun i => if (groupAt (sharedLen (pv0 :: pv1 :: t)) i (pv0 :: pv1 :: t)).isEmpty then none
              else some (RlpNode.encoded (canonNode m (groupAt (sharedLen (pv0 :: pv1 :: t)) i (pv0 :: pv1 :: t))))) (List.range 16))).encoded))).set
              (nsAt path (nsCommon (pv0.1.take (sharedLen (pv0 :: pv1 :: t))) path)) (some ((RlpNode.Leaf (path.drop (nsCommon (pv0.1.take (sharedLen (pv0 :: pv1 :: t))) path + 1)) v).encoded)))).encoded),
            ?_, ?_, ?_, ?_⟩
          · unfold insert_aux
            dsimp only
            rw [hread]
            dsimp only
            rw [hdec]
            dsimp only
            rw [if_pos hcc]
            dsimp only [dbInsert]
            rw [show ((pv0.1.take (sharedLen (pv0 :: pv1 :: t))).drop (nsCommon (pv0.1.take (sharedLen (pv0 :: pv1 :: t))) path)).drop 1 = (pv0.1.take (sharedLen (pv0 :: pv1 :: t))).drop ((nsCommon (pv0.1.take (sharedLen (pv0 :: pv1 :: t))) path) + 1) from by
              rw [List.drop_drop, Nat.add_comm]]
            rw [show nsAt ((pv0.1.take (sharedLen (pv0 :: pv1 :: t))).drop (nsCommon (pv0.1.take (sharedLen (pv0 :: pv1 :: t))) path)) 0 = nsAt (pv0.1.take (sharedLen (pv0 :: pv1 :: t))) (nsCommon (pv0.1.take (sharedLen (pv0 :: pv1 :: t))) path) from by
              rw [nsAt_drop, Nat.add_zero]]
            rw [show nsAt (path.drop (nsCommon (pv0.1.take (sharedLen (pv0 :: pv1 :: t))) path)) 0 = nsAt path (nsCommon (pv0.1.take (sharedLen (pv0 :: pv1 :: t))) path) from by
              rw [nsAt_drop, Nat.add_zero]]
            rw [show (path.drop (nsCommon (pv0.1.take (sharedLen (pv0 :: pv1 :: t))) path)).drop 1 = path.drop ((nsCommon (pv0.1.take (sharedLen (pv0 :: pv1 :: t))) path) + 1) from by
              rw [List.drop_drop, Nat.add_comm]]
            rw [show (empty_children.set (nsAt (pv0.1.take (sharedLen (pv0 :: pv1 :: t))) (nsCommon (pv0.1.take (sharedLen (pv0 :: pv1 :: t))) path)) (some ((RlpNode.Branch ((pv0.1.take (sharedLen (pv0 :: pv1 :: t))).drop (nsCommon (pv0.1.take (sharedLen (pv0 :: pv1 :: t))) path + 1))
              (List.map (fun i => if (groupAt (sharedLen (pv0 :: pv1 :: t)) i (pv0 :: pv1 :: t)).isEmpty then none
              else some (RlpNode.encoded (canonNode m (groupAt (sharedLen (pv0 :: pv1 :: t)) i (pv0 :: pv1 :: t))))) (List.range 16))).encoded))).getD
                (nsAt path (nsCommon (pv0.1.take (sharedLen (pv0 :: pv1 :: t))) path)) none = none from by
              rw [getD_set_ne _ _ _ _ hneA]
              exact getD_replicate_none _]
            rw [insert_aux_none g]
            dsimp only
            rw [encoded_until_branch]
            rw [show lookupVal (pv0 :: pv1 :: t) path = none from
              (lookupVal_eq_none_iff (pv0 :: pv1 :: t) path).2 hnotmem]
            dsimp only
            rw [show canonDigest (m + 1) (insertEntry (pv0 :: pv1 :: t) path v) =
              RlpNode.encoded (canonNode (m + 1) (insertEntry (pv0 :: pv1 :: t) path v)) from rfl]
            rw [canonNode_multi' m (insertEntry (pv0 :: pv1 :: t) path v) h2len2, hsl2A, hhead2A, hchA]
          · intro x hx
            simp [hx]
          · intro d hd
            rw [canonAll_multi' m (insertEntry (pv0 :: pv1 :: t) path v) h2len2, hsl2A] at hd
            rcases List.mem_cons.1 hd with rfl | hd2
            · have hdig : canonDigest (m + 1) (insertEntry (pv0 :: pv1 :: t) path v) = ((RlpNode.Branch ((pv0.1.take (sharedLen (pv0 :: pv1 :: t))).take (nsCommon (pv0.1.take (sharedLen (pv0 :: pv1 :: t))) path)) ((empty_children.set (nsAt (pv0.1.take (sharedLen (pv0 :: pv1 :: t))) (nsCommon (pv0.1.take (sharedLen (pv0 :: pv1 :: t))) path)) (some ((RlpNode.Branch ((pv0.1.take (sharedLen (pv0 :: pv1 :: t))).drop (nsCommon (pv0.1.take (sharedLen (pv0 :: pv1 :: t))) path + 1))
              (List.map (fun i => if (groupAt (sharedLen (pv0 :: pv1 :: t)) i (pv0 :: pv1 :: t)).isEmpty then none
              else some (RlpNode.encoded (canonNode m (groupAt (sharedLen (pv0 :: pv1 :: t)) i (pv0 :: pv1 :: t))))) (List.range 16))).encoded))).set
              (nsAt path (nsCommon (pv0.1.take (sharedLen (pv0 :: pv1 :: t))) path)) (some ((RlpNode.Leaf (path.drop (nsCommon (pv0.1.take (sharedLen (pv0 :: pv1 :: t))) path + 1)) v).encoded)))).encoded) := by
                rw [show canonDigest (m + 1) (insertEntry (pv0 :: pv1 :: t) path v) =
                  RlpNode.encoded (canonNode (m + 1) (insertEntry (pv0 :: pv1 :: t) path v)) from rfl]
                rw [canonNode_multi' m (insertEntry (pv0 :: pv1 :: t) path v) h2len2, hsl2A, hhead2A, hchA]
              rw [hdig]
              simp
            · rcases (mem_foldr_append _ _ _).1 hd2 with ⟨i, hi, hdi⟩
              by_cases hii1 : i = nsAt (pv0.1.take (sharedLen (pv0 :: pv1 :: t))) (nsCommon (pv0.1.take (sharedLen (pv0 :: pv1 :: t))) path)
              · subst hii1
                rw [hgrpi1] at hdi
                rcases canonAll_shift_mem m (nsCommon (pv0.1.take (sharedLen (pv0 :: pv1 :: t))) path + 1) pv0 pv1 t hc
                  (by omega) (by omega) d hdi with heq | hmm2
                · have hbh : canonDigest m ((pv0 :: pv1 :: t).map (fun pv => (pv.1.drop (nsCommon (pv0.1.take (sharedLen (pv0 :: pv1 :: t))) path + 1), pv.2))) = ((RlpNode.Branch ((pv0.1.take (sharedLen (pv0 :: pv1 :: t))).drop (nsCommon (pv0.1.take (sharedLen (pv0 :: pv1 :: t))) path + 1))
              (List.map (fun i => if (groupAt (sharedLen (pv0 :: pv1 :: t)) i (pv0 :: pv1 :: t)).isEmpty then none
              else some (RlpNode.encoded (canonNode m (groupAt (sharedLen (pv0 :: pv1 :: t)) i (pv0 :: pv1 :: t))))) (List.range 16))).encoded) := by
                    rw [show canonDigest m ((pv0 :: pv1 :: t).map (fun pv => (pv.1.drop (nsCommon (pv0.1.take (sharedLen (pv0 :: pv1 :: t))) path + 1), pv.2))) =
                      RlpNode.encoded (canonNode m ((pv0 :: pv1 :: t).map (fun pv => (pv.1.drop (nsCommon (pv0.1.take (sharedLen (pv0 :: pv1 :: t))) path + 1), pv.2)))) from rfl]
                    rw [canonNode_shift m m (nsCommon (pv0.1.take (sharedLen (pv0 :: pv1 :: t))) path + 1) pv0 pv1 t hc
                      (by omega) (by omega)]
                  rw [heq, hbh]
                  simp
                · exact List.mem_cons_of_mem _ (List.mem_cons_of_mem _
                    (List.mem_cons_of_mem _ (hst d hmm2)))
              · by_cases hii2 : i = nsAt path (nsCommon (pv0.1.take (sharedLen (pv0 :: pv1 :: t))) path)
                · subst hii2
                  rw [hgrpi2, canonAll_singleton] at hdi
                  rw [List.mem_singleton] at hdi
                  subst hdi
                  simp
                · rw [hgoA i hii1 hii2, canonAll_nil] at hdi
                  exact absurd hdi (List.not_mem_nil d)
          · exact cacheOK_insert (cacheOK_insert (cacheOK_insert hokR _) _) _
        · -- the walk descends into a child slot
          have hcomm : nsCommon (pv0.1.take (sharedLen (pv0 :: pv1 :: t))) path = sharedLen (pv0 :: pv1 :: t) := by
            have h1 := nsCommon_le_left (pv0.1.take (sharedLen (pv0 :: pv1 :: t))) path
            omega
          have hpfx : pv0.1.take (sharedLen (pv0 :: pv1 :: t)) = path.take (sharedLen (pv0 :: pv1 :: t)) := by
            have h1 := take_nsCommon (pv0.1.take (sharedLen (pv0 :: pv1 :: t))) path
            rw [hcomm, List.take_take, Nat.min_self] at h1
            exact h1
          have hshare : ∀ x ∈ (pv0 :: pv1 :: t), x.1.take (sharedLen (pv0 :: pv1 :: t)) = path.take (sharedLen (pv0 :: pv1 :: t)) := by
            intro x hx
            exact (take_sharedLen_eq (pv0 :: pv1 :: t) x pv0 hx (by simp)).trans hpfx
          have hlen_es : ∀ x ∈ (pv0 :: pv1 :: t), sharedLen (pv0 :: pv1 :: t) < x.1.length := by
            intro x hx
            rw [(hc.2.2 x hx).1]
            omega
          have hcpath : sharedLen (pv0 :: pv1 :: t) < path.length := by omega
          have hi2lt : nsAt path (sharedLen (pv0 :: pv1 :: t)) < 16 := nsAt_lt_16 hw (by omega)
          have h2len : 2 ≤ (insertEntry (pv0 :: pv1 :: t) path v).length :=
            Nat.le_trans (by simp) insertEntry_length_ge
          have hsl2 : sharedLen (insertEntry (pv0 :: pv1 :: t) path v) = sharedLen (pv0 :: pv1 :: t) := by
            apply sharedLen_spec
            · rcases mem_insertEntry (headD_mem (insertEntry_ne_nil (pv0 :: pv1 :: t) path v))
                with h | h
              · have h2 := (hc.2.2 _ h).1
                omega
              · have h2 : (((insertEntry (pv0 :: pv1 :: t) path v).headD ([], [])).1).length = path.length := by
                  rw [h]
                omega
            · intro x hx y hy
              have gx : x.1.take (sharedLen (pv0 :: pv1 :: t)) = path.take (sharedLen (pv0 :: pv1 :: t)) := by
                rcases mem_insertEntry hx with h | h
                · exact hshare x h
                · rw [h]
              have gy : y.1.take (sharedLen (pv0 :: pv1 :: t)) = path.take (sharedLen (pv0 :: pv1 :: t)) := by
                rcases mem_insertEntry hy with h | h
                · exact hshare y h
                · rw [h]
              rw [gx, gy]
            · rcases exists_nsAt_ne hc with ⟨x, hx, y, hy, hxy⟩
              rcases @mem_fst_insertEntry (pv0 :: pv1 :: t) path v x hx with ⟨x2, hx2, hx2eq⟩
              rcases @mem_fst_insertEntry (pv0 :: pv1 :: t) path v y hy with ⟨y2, hy2, hy2eq⟩
              exact ⟨x2, hx2, y2, hy2, by rw [hx2eq, hy2eq]; exact hxy⟩
          have hhead2 : (((insertEntry (pv0 :: pv1 :: t) path v).headD ([], [])).1).take (sharedLen (pv0 :: pv1 :: t)) = pv0.1.take (sharedLen (pv0 :: pv1 :: t)) := by
            rcases mem_insertEntry (headD_mem (insertEntry_ne_nil (pv0 :: pv1 :: t) path v))
              with h | h
            · exact take_sharedLen_eq (pv0 :: pv1 :: t) _ pv0 h (by simp)
            · rw [h]
              exact hpfx.symm
          have hgrp_eq : groupAt (sharedLen (pv0 :: pv1 :: t)) (nsAt path (sharedLen (pv0 :: pv1 :: t))) (insertEntry (pv0 :: pv1 :: t) path v) =
              insertEntry (groupAt (sharedLen (pv0 :: pv1 :: t)) (nsAt path (sharedLen (pv0 :: pv1 :: t))) (pv0 :: pv1 :: t)) (path.drop (sharedLen (pv0 :: pv1 :: t) + 1)) v :=
            groupAt_insertEntry_eq (sharedLen (pv0 :: pv1 :: t)) (pv0 :: pv1 :: t) path v hshare hlen_es hcpath
          have hlook : lookupVal (pv0 :: pv1 :: t) path = lookupVal (groupAt (sharedLen (pv0 :: pv1 :: t)) (nsAt path (sharedLen (pv0 :: pv1 :: t))) (pv0 :: pv1 :: t)) (path.drop (sharedLen (pv0 :: pv1 :: t) + 1)) :=
            lookupVal_groupAt (sharedLen (pv0 :: pv1 :: t)) (pv0 :: pv1 :: t) path hshare hlen_es hcpath
          have hwsub : WFPath (m - (sharedLen (pv0 :: pv1 :: t))) (path.drop (sharedLen (pv0 :: pv1 :: t) + 1)) := by
            refine ⟨by rw [List.length_drop, hlpath]; omega, ?_⟩
            intro n hn
            exact hw.2 n (List.mem_of_mem_drop hn)
          by_cases hgemp : (groupAt (sharedLen (pv0 :: pv1 :: t)) (nsAt path (sharedLen (pv0 :: pv1 :: t))) (pv0 :: pv1 :: t)) = []
          · -- the addressed child slot is empty: a fresh leaf is planted
            have hch2 : List.map (fun i => if (groupAt (sharedLen (pv0 :: pv1 :: t)) i (insertEntry (pv0 :: pv1 :: t) path v)).isEmpty then none
                else some (RlpNode.encoded (canonNode m (groupAt (sharedLen (pv0 :: pv1 :: t)) i (insertEntry (pv0 :: pv1 :: t) path v))))) (List.range 16) =
                ((List.map (fun i => if (groupAt (sharedLen (pv0 :: pv1 :: t)) i (pv0 :: pv1 :: t)).isEmpty then none
                else some (RlpNode.encoded (canonNode m (groupAt (sharedLen (pv0 :: pv1 :: t)) i (pv0 :: pv1 :: t))))) (List.range 16)).set (nsAt path (sharedLen (pv0 :: pv1 :: t))) (some ((RlpNode.Leaf (path.drop (sharedLen (pv0 :: pv1 :: t) + 1)) v).encoded))) := by
              apply children_update_gen (nsAt path (sharedLen (pv0 :: pv1 :: t))) hi2lt
              · dsimp only
                rw [hgrp_eq, hgemp, insertEntry_nil, if_neg (by simp),
                  canonNode_singleton]
              · intro i hi hne
                dsimp only
                rw [groupAt_insertEntry_ne (sharedLen (pv0 :: pv1 :: t)) (pv0 :: pv1 :: t) path v i hne]
            refine ⟨((RlpNode.Branch (pv0.1.take (sharedLen (pv0 :: pv1 :: t))) ((List.map (fun i => if (groupAt (sharedLen (pv0 :: pv1 :: t)) i (pv0 :: pv1 :: t)).isEmpty then none
                else some (RlpNode.encoded (canonNode m (groupAt (sharedLen (pv0 :: pv1 :: t)) i (pv0 :: pv1 :: t))))) (List.range 16)).set (nsAt path (sharedLen (pv0 :: pv1 :: t))) (some ((RlpNode.Leaf (path.drop (sharedLen (pv0 :: pv1 :: t) + 1)) v).encoded)))).encoded) :: ((RlpNode.Leaf (path.drop (sharedLen (pv0 :: pv1 :: t) + 1)) v).encoded) :: s.db,
              cacheInsert (cacheInsert cacheR ((RlpNode.Leaf (path.drop (sharedLen (pv0 :: pv1 :: t) + 1)) v).encoded) ((RlpNode.Leaf (path.drop (sharedLen (pv0 :: pv1 :: t) + 1)) v).encoded)) ((RlpNode.Branch (pv0.1.take (sharedLen (pv0 :: pv1 :: t))) ((List.map (fun i => if (groupAt (sharedLen (pv0 :: pv1 :: t)) i (pv0 :: pv1 :: t)).isEmpty then none
                else some (RlpNode.encoded (canonNode m (groupAt (sharedLen (pv0 :: pv1 :: t)) i (pv0 :: pv1 :: t))))) (List.range 16)).set (nsAt path (sharedLen (pv0 :: pv1 :: t))) (some ((RlpNode.Leaf (path.drop (sharedLen (pv0 :: pv1 :: t) + 1)) v).encoded)))).encoded) ((RlpNode.Branch (pv0.1.take (sharedLen (pv0 :: pv1 :: t))) ((List.map (fun i => if (groupAt (sharedLen (pv0 :: pv1 :: t)) i (pv0 :: pv1 :: t)).isEmpty then none
                else some (RlpNode.encoded (canonNode m (groupAt (sharedLen (pv0 :: pv1 :: t)) i (pv0 :: pv1 :: t))))) (List.range 16)).set (nsAt path (sharedLen (pv0 :: pv1 :: t))) (some ((RlpNode.Leaf (path.drop (sharedLen (pv0 :: pv1 :: t) + 1)) v).encoded)))).encoded),
              ?_, ?_, ?_, ?_⟩
            · unfold insert_aux
              dsimp only
              rw [hread]
              dsimp only
              rw [hdec]
              dsimp only
              rw [if_neg hcc]
              rw [hcomm]
              rw [show nsAt (path.drop (sharedLen (pv0 :: pv1 :: t))) 0 = nsAt path (sharedLen (pv0 :: pv1 :: t)) from by
                rw [nsAt_drop, Nat.add_zero]]
              rw [show (path.drop (sharedLen (pv0 :: pv1 :: t))).drop 1 = path.drop (sharedLen (pv0 :: pv1 :: t) + 1) from by
                rw [List.drop_drop, Nat.add_comm]]
              rw [show (List.map (fun i => if (groupAt (sharedLen (pv0 :: pv1 :: t)) i (pv0 :: pv1 :: t)).isEmpty then none
                else some (RlpNode.encoded (canonNode m (groupAt (sharedLen (pv0 :: pv1 :: t)) i (pv0 :: pv1 :: t))))) (List.range 16)).getD (nsAt path (sharedLen (pv0 :: pv1 :: t))) none =
                  none from by
                rw [getD_range16_map _ _ hi2lt]
                rw [hgemp]
                rfl]
              rw [insert_aux_none g]
              dsimp only
              rw [hlook, hgemp]
              rw [show lookupVal ([] : Entries) (path.drop (sharedLen (pv0 :: pv1 :: t) + 1)) = none from rfl]
              dsimp only
              rw [canonDigest, canonNode_multi' m (insertEntry (pv0 :: pv1 :: t) path v) h2len, hsl2, hhead2, hch2]
              dsimp only [dbInsert]
            · intro x hx
              simp [hx]
            · intro d hd
              rw [canonAll_multi' m (insertEntry (pv0 :: pv1 :: t) path v) h2len, hsl2] at hd
              rcases List.mem_cons.1 hd with rfl | hd2
              · have hdig : canonDigest (m + 1) (insertEntry (pv0 :: pv1 :: t) path v) = ((RlpNode.Branch (pv0.1.take (sharedLen (pv0 :: pv1 :: t))) ((List.map (fun i => if (groupAt (sharedLen (pv0 :: pv1 :: t)) i (pv0 :: pv1 :: t)).isEmpty then none
                else some (RlpNode.encoded (canonNode m (groupAt (sharedLen (pv0 :: pv1 :: t)) i (pv0 :: pv1 :: t))))) (List.range 16)).set (nsAt path (sharedLen (pv0 :: pv1 :: t))) (some ((RlpNode.Leaf (path.drop (sharedLen (pv0 :: pv1 :: t) + 1)) v).encoded)))).encoded) := by
                  rw [canonDigest, canonNode_multi' m (insertEntry (pv0 :: pv1 :: t) path v) h2len, hsl2, hhead2, hch2]
                rw [hdig]
                simp
              · rcases (mem_foldr_append _ _ _).1 hd2 with ⟨i, hi, hdi⟩
                by_cases hii : i = nsAt path (sharedLen (pv0 :: pv1 :: t))
                · subst hii
                  rw [hgrp_eq, hgemp, insertEntry_nil, canonAll_singleton] at hdi
                  rw [List.mem_singleton] at hdi
                  subst hdi
                  simp
                · rw [groupAt_insertEntry_ne (sharedLen (pv0 :: pv1 :: t)) (pv0 :: pv1 :: t) path v i hii] at hdi
                  have hmem2 := hst d
                    (canonAll_group_subset m pv0 pv1 t i (List.mem_range.1 hi) d hdi)
                  exact List.mem_cons_of_mem _ (List.mem_cons_of_mem _ hmem2)
            · exact cacheOK_insert (cacheOK_insert hokR _) _
          · -- the addressed child exists: recurse into it
            have hcg0 : Canon (m - (sharedLen (pv0 :: pv1 :: t))) (groupAt (sharedLen (pv0 :: pv1 :: t)) (nsAt path (sharedLen (pv0 :: pv1 :: t))) (pv0 :: pv1 :: t)) := by
              have h := canon_groupAt hc (nsAt path (sharedLen (pv0 :: pv1 :: t))) hgemp
              rwa [show m + 1 - (sharedLen (pv0 :: pv1 :: t)) - 1 = m - (sharedLen (pv0 :: pv1 :: t)) from by omega] at h
            have hcanonIns : Canon (m - (sharedLen (pv0 :: pv1 :: t))) (insertEntry (groupAt (sharedLen (pv0 :: pv1 :: t)) (nsAt path (sharedLen (pv0 :: pv1 :: t))) (pv0 :: pv1 :: t)) (path.drop (sharedLen (pv0 :: pv1 :: t) + 1)) v) :=
              canon_insertEntry hcg0 hwsub
            have hstg0 : StoreHas s.db (m - (sharedLen (pv0 :: pv1 :: t))) (groupAt (sharedLen (pv0 :: pv1 :: t)) (nsAt path (sharedLen (pv0 :: pv1 :: t))) (pv0 :: pv1 :: t)) := by
              intro d hd
              rw [canonAll_fuel_congr (m - (sharedLen (pv0 :: pv1 :: t))) m (m - (sharedLen (pv0 :: pv1 :: t))) (groupAt (sharedLen (pv0 :: pv1 :: t)) (nsAt path (sharedLen (pv0 :: pv1 :: t))) (pv0 :: pv1 :: t)) hcg0
                (Nat.le_refl _) (by omega)] at hd
              exact hst d
                (canonAll_group_subset m pv0 pv1 t (nsAt path (sharedLen (pv0 :: pv1 :: t))) hi2lt d hd)
            obtain ⟨db2, cache2, hstep, hgrow, hsto, hcok2⟩ :=
              ih (m - (sharedLen (pv0 :: pv1 :: t))) (groupAt (sharedLen (pv0 :: pv1 :: t)) (nsAt path (sharedLen (pv0 :: pv1 :: t))) (pv0 :: pv1 :: t))
                ({ db := s.db, cache := cacheR, root := s.root, oldVal := s.oldVal })
                (path.drop (sharedLen (pv0 :: pv1 :: t) + 1)) v hcg0 hstg0 hokR hwsub (by omega)
            have hch2 : List.map (fun i => if (groupAt (sharedLen (pv0 :: pv1 :: t)) i (insertEntry (pv0 :: pv1 :: t) path v)).isEmpty then none
                else some (RlpNode.encoded (canonNode m (groupAt (sharedLen (pv0 :: pv1 :: t)) i (insertEntry (pv0 :: pv1 :: t) path v))))) (List.range 16) =
                ((List.map (fun i => if (groupAt (sharedLen (pv0 :: pv1 :: t)) i (pv0 :: pv1 :: t)).isEmpty then none
                else some (RlpNode.encoded (canonNode m (groupAt (sharedLen (pv0 :: pv1 :: t)) i (pv0 :: pv1 :: t))))) (List.range 16)).set (nsAt path (sharedLen (pv0 :: pv1 :: t))) (some (canonDigest (m - (sharedLen (pv0 :: pv1 :: t))) (insertEntry (groupAt (sharedLen (pv0 :: pv1 :: t)) (nsAt path (sharedLen (pv0 :: pv1 :: t))) (pv0 :: pv1 :: t)) (path.drop (sharedLen (pv0 :: pv1 :: t) + 1)) v)))) := by
              apply children_update_gen (nsAt path (sharedLen (pv0 :: pv1 :: t))) hi2lt
              · dsimp only
                rw [hgrp_eq]
                rw [if_neg (fun h => insertEntry_ne_nil (groupAt (sharedLen (pv0 :: pv1 :: t)) (nsAt path (sharedLen (pv0 :: pv1 :: t))) (pv0 :: pv1 :: t)) (path.drop (sharedLen (pv0 :: pv1 :: t) + 1)) v (by simpa using h))]
                rw [canonNode_fuel_congr m (m - (sharedLen (pv0 :: pv1 :: t))) (m - (sharedLen (pv0 :: pv1 :: t))) _ hcanonIns
                  (by omega) (Nat.le_refl _)]
                rw [canonDigest]
              · intro i hi hne
                dsimp only
                rw [groupAt_insertEntry_ne (sharedLen (pv0 :: pv1 :: t)) (pv0 :: pv1 :: t) path v i hne]
            refine ⟨((RlpNode.Branch (pv0.1.take (sharedLen (pv0 :: pv1 :: t))) ((List.map (fun i => if (groupAt (sharedLen (pv0 :: pv1 :: t)) i (pv0 :: pv1 :: t)).isEmpty then none
                else some (RlpNode.encoded (canonNode m (groupAt (sharedLen (pv0 :: pv1 :: t)) i (pv0 :: pv1 :: t))))) (List.range 16)).set (nsAt path (sharedLen (pv0 :: pv1 :: t))) (some (canonDigest (m - (sharedLen (pv0 :: pv1 :: t))) (insertEntry (groupAt (sharedLen (pv0 :: pv1 :: t)) (nsAt path (sharedLen (pv0 :: pv1 :: t))) (pv0 :: pv1 :: t)) (path.drop (sharedLen (pv0 :: pv1 :: t) + 1)) v))))).encoded) :: db2,
              cacheInsert cache2 ((RlpNode.Branch (pv0.1.take (sharedLen (pv0 :: pv1 :: t))) ((List.map (fun i => if (groupAt (sharedLen (pv0 :: pv1 :: t)) i (pv0 :: pv1 :: t)).isEmpty then none
                else some (RlpNode.encoded (canonNode m (groupAt (sharedLen (pv0 :: pv1 :: t)) i (pv0 :: pv1 :: t))))) (List.range 16)).set (nsAt path (sharedLen (pv0 :: pv1 :: t))) (some (canonDigest (m - (sharedLen (pv0 :: pv1 :: t))) (insertEntry (groupAt (sharedLen (pv0 :: pv1 :: t)) (nsAt path (sharedLen (pv0 :: pv1 :: t))) (pv0 :: pv1 :: t)) (path.drop (sharedLen (pv0 :: pv1 :: t) + 1)) v))))).encoded) ((RlpNode.Branch (pv0.1.take (sharedLen (pv0 :: pv1 :: t))) ((List.map (fun i => if (groupAt (sharedLen (pv0 :: pv1 :: t)) i (pv0 :: pv1 :: t)).isEmpty then none
                else some (RlpNode.encoded (canonNode m (groupAt (sharedLen (pv0 :: pv1 :: t)) i (pv0 :: pv1 :: t))))) (List.range 16)).set (nsAt path (sharedLen (pv0 :: pv1 :: t))) (some (canonDigest (m - (sharedLen (pv0 :: pv1 :: t))) (insertEntry (groupAt (sharedLen (pv0 :: pv1 :: t)) (nsAt path (sharedLen (pv0 :: pv1 :: t))) (pv0 :: pv1 :: t)) (path.drop (sharedLen (pv0 :: pv1 :: t) + 1)) v))))).encoded),
              ?_, ?_, ?_, ?_⟩
            · unfold insert_aux
              dsimp only
              rw [hread]
              dsimp only
              rw [hdec]
              dsimp only
              rw [if_neg hcc]
              rw [hcomm]
              rw [show nsAt (path.drop (sharedLen (pv0 :: pv1 :: t))) 0 = nsAt path (sharedLen (pv0 :: pv1 :: t)) from by
                rw [nsAt_drop, Nat.add_zero]]
              rw [show (path.drop (sharedLen (pv0 :: pv1 :: t))).drop 1 = path.drop (sharedLen (pv0 :: pv1 :: t) + 1) from by
                rw [List.drop_drop, Nat.add_comm]]
              rw [show (List.map (fun i => if (groupAt (sharedLen (pv0 :: pv1 :: t)) i (pv0 :: pv1 :: t)).isEmpty then none
                else some (RlpNode.encoded (canonNode m (groupAt (sharedLen (pv0 :: pv1 :: t)) i (pv0 :: pv1 :: t))))) (List.range 16)).getD (nsAt path (sharedLen (pv0 :: pv1 :: t))) none =
                  some (canonDigest (m - (sharedLen (pv0 :: pv1 :: t))) (groupAt (sharedLen (pv0 :: pv1 :: t)) (nsAt path (sharedLen (pv0 :: pv1 :: t))) (pv0 :: pv1 :: t))) from by
                rw [getD_range16_map _ _ hi2lt]
                rw [if_neg (fun h => hgemp (by simpa using h))]
                rw [canonNode_fuel_congr m (m - (sharedLen (pv0 :: pv1 :: t))) (m - (sharedLen (pv0 :: pv1 :: t))) _ hcg0
                  (by omega) (Nat.le_refl _)]
                rw [canonDigest]]
              rw [hstep]
              dsimp only
              rw [hlook]
              rw [show canonDigest (m + 1) (insertEntry (pv0 :: pv1 :: t) path v) =
                RlpNode.encoded (canonNode (m + 1) (insertEntry (pv0 :: pv1 :: t) path v))
                from rfl]
              rw [canonNode_multi' m (insertEntry (pv0 :: pv1 :: t) path v) h2len, hsl2, hhead2, hch2]
              dsimp only [dbInsert]
            · intro x hx
              exact List.mem_cons_of_mem _ (hgrow x hx)
            · intro d hd
              rw [canonAll_multi' m (insertEntry (pv0 :: pv1 :: t) path v) h2len, hsl2] at hd
              rcases List.mem_cons.1 hd with rfl | hd2
              · have hdig : canonDigest (m + 1) (insertEntry (pv0 :: pv1 :: t) path v) = ((RlpNode.Branch (pv0.1.take (sharedLen (pv0 :: pv1 :: t))) ((List.map (fun i => if (groupAt (sharedLen (pv0 :: pv1 :: t)) i (pv0 :: pv1 :: t)).isEmpty then none
                else some (RlpNode.encoded (canonNode m (groupAt (sharedLen (pv0 :: pv1 :: t)) i (pv0 :: pv1 :: t))))) (List.range 16)).set (nsAt path (sharedLen (pv0 :: pv1 :: t))) (some (canonDigest (m - (sharedLen (pv0 :: pv1 :: t))) (insertEntry (groupAt (sharedLen (pv0 :: pv1 :: t)) (nsAt path (sharedLen (pv0 :: pv1 :: t))) (pv0 :: pv1 :: t)) (path.drop (sharedLen (pv0 :: pv1 :: t) + 1)) v))))).encoded) := by
                  rw [canonDigest, canonNode_multi' m (insertEntry (pv0 :: pv1 :: t) path v) h2len, hsl2, hhead2, hch2]
                rw [hdig]
                simp
              · rcases (mem_foldr_append _ _ _).1 hd2 with ⟨i, hi, hdi⟩
                by_cases hii : i = nsAt path (sharedLen (pv0 :: pv1 :: t))
                · subst hii
                  rw [hgrp_eq] at hdi
                  rw [canonAll_fuel_congr m (m - (sharedLen (pv0 :: pv1 :: t))) (m - (sharedLen (pv0 :: pv1 :: t))) _ hcanonIns
                    (by omega) (Nat.le_refl _)] at hdi
                  exact List.mem_cons_of_mem _ (hsto d hdi)
                · rw [groupAt_insertEntry_ne (sharedLen (pv0 :: pv1 :: t)) (pv0 :: pv1 :: t) path v i hii] at hdi
                  have hmem2 := hst d
                    (canonAll_group_subset m pv0 pv1 t i (List.mem_range.1 hi) d hdi)
                  exact List.mem_cons_of_mem _ (hgrow d hmem2)
            · exact cacheOK_insert hcok2 _

set_option maxHeartbeats 1600000 in
theorem remove_aux_canon (fuel : Nat) :
    ∀ (l : Nat) (es : Entries) (s : TrieState) (path : List Nat),
      Canon l es → StoreHas s.db l es → WFPath l path → l + 2 ≤ fuel →
      ∃ db2,
        remove_aux fuel s path (some (canonDigest l es)) =
          ({ db := db2, cache := s.cache, root := s.root,
             oldVal := match lookupVal es path with
               | some w => some w
               | none => s.oldVal },
           .ok (canonSlot l (eraseEntry es path))) ∧
        (∀ x ∈ s.db, x ∈ db2) ∧ StoreHas db2 l (eraseEntry es path) := by
  induction fuel with
  | zero =>
    intro l es s path _ _ _ hf
    omega
  | succ f ih =>
    intro l es s path hc hst hw hf
    have hmem : canonDigest l es ∈ s.db :=
      hst _ (canonDigest_mem_canonAll l l es hc (Nat.le_refl l))
    have hdec := decoded_canonDigest l l es hc (Nat.le_refl l)
    cases es with
    | nil => exact absurd rfl hc.1
    | cons pv0 rest =>
      cases rest with
      | nil =>
        -- the current node is a leaf
        rw [canonNode_singleton] at hdec
        by_cases hpp : path = pv0.1
        · -- the key is present: the leaf is removed
          refine ⟨s.db, ?_, fun x hx => hx, ?_⟩
          · unfold remove_aux
            dsimp only
            rw [dbGet_of_mem hmem]
            dsimp only
            rw [hdec]
            dsimp only
            rw [if_pos hpp]
            rw [lookupVal_cons_pos (show (pv0 : List Nat × Bytes).1 = path
              from hpp.symm)]
            rw [eraseEntry_cons_pos (show (pv0 : List Nat × Bytes).1 = path
              from hpp.symm)]
            rfl
          · rw [eraseEntry_cons_pos (show (pv0 : List Nat × Bytes).1 = path
              from hpp.symm)]
            intro d hd
            rw [show eraseEntry ([] : Entries) path = [] from rfl, canonAll_nil] at hd
            exact absurd hd (List.not_mem_nil d)
        · -- the key is absent: untouched
          have herase : eraseEntry [pv0] path = [pv0] := by
            rw [eraseEntry_cons_neg (show (pv0 : List Nat × Bytes).1 ≠ path
              from fun h => hpp h.symm)]
            rfl
          refine ⟨s.db, ?_, fun x hx => hx, by rw [herase]; exact hst⟩
          unfold remove_aux
          dsimp only
          rw [dbGet_of_mem hmem]
          dsimp only
          rw [hdec]
          dsimp only
          rw [if_neg hpp]
          rw [lookupVal_cons_neg (show (pv0 : List Nat × Bytes).1 ≠ path
            from fun h => hpp h.symm)]
          rw [show lookupVal ([] : Entries) path = none from rfl]
          rw [herase, canonSlot_cons]
      | cons pv1 t =>
        -- the current node is the canonical branch
        have hclt : sharedLen (pv0 :: pv1 :: t) < l := sharedLen_lt hc
        obtain ⟨m, rfl⟩ : ∃ m, l = m + 1 := ⟨l - 1, by omega⟩
        obtain ⟨g, rfl⟩ : ∃ g, f = g + 1 := ⟨f - 1, by omega⟩
        rw [canonNode_multi] at hdec
        have hlpath : path.length = m + 1 := hw.1
        have hlp0 : pv0.1.length = m + 1 := (hc.2.2 pv0 (by simp)).1
        have hplen : (pv0.1.take (sharedLen (pv0 :: pv1 :: t))).length = sharedLen (pv0 :: pv1 :: t) := by
          rw [List.length_take]
          omega
        by_cases hpre : (pv0.1.take (sharedLen (pv0 :: pv1 :: t))).isPrefixOf path = true
        · -- the branch prefix lies on the path: descend
          have hpfx : path.take (sharedLen (pv0 :: pv1 :: t)) = (pv0.1.take (sharedLen (pv0 :: pv1 :: t))) := by
            have h1 := (isPrefixOf_take (pv0.1.take (sharedLen (pv0 :: pv1 :: t))) path).1 hpre
            rwa [hplen] at h1
          have hshare : ∀ x ∈ (pv0 :: pv1 :: t), x.1.take (sharedLen (pv0 :: pv1 :: t)) = path.take (sharedLen (pv0 :: pv1 :: t)) := by
            intro x hx
            rw [hpfx]
            exact take_sharedLen_eq (pv0 :: pv1 :: t) x pv0 hx (by simp)
          have hlen_es : ∀ x ∈ (pv0 :: pv1 :: t), sharedLen (pv0 :: pv1 :: t) < x.1.length := by
            intro x hx
            rw [(hc.2.2 x hx).1]
            omega
          have hcpath : sharedLen (pv0 :: pv1 :: t) < path.length := by omega
          have hi2lt : nsAt path (sharedLen (pv0 :: pv1 :: t)) < 16 := nsAt_lt_16 hw (by omega)
          have hlook : lookupVal (pv0 :: pv1 :: t) path =
              lookupVal (groupAt (sharedLen (pv0 :: pv1 :: t)) (nsAt path (sharedLen (pv0 :: pv1 :: t))) (pv0 :: pv1 :: t)) (path.drop (sharedLen (pv0 :: pv1 :: t) + 1)) :=
            lookupVal_groupAt (sharedLen (pv0 :: pv1 :: t)) (pv0 :: pv1 :: t) path hshare hlen_es hcpath
          rcases exists_two_groups hc with ⟨j1, j2, hj1, hj2, hjne, hg1, hg2⟩
          have hFnone : ∀ i, groupAt (sharedLen (pv0 :: pv1 :: t)) i (pv0 :: pv1 :: t) ≠ [] →
              ((if (groupAt (sharedLen (pv0 :: pv1 :: t)) i (pv0 :: pv1 :: t)).isEmpty then none
                else some (RlpNode.encoded (canonNode m
                  (groupAt (sharedLen (pv0 :: pv1 :: t)) i (pv0 :: pv1 :: t))))) : Option Digest).isNone = false := by
            intro i hne
            rw [if_neg (fun h => hne (by simpa using h))]
            rfl
          by_cases hgemp : (groupAt (sharedLen (pv0 :: pv1 :: t)) (nsAt path (sharedLen (pv0 :: pv1 :: t))) (pv0 :: pv1 :: t)) = []
          · -- the addressed slot is already empty: nothing to remove
            have hnotmem : path ∉ (pv0 :: pv1 :: t).map Prod.fst := by
              intro hmem2
              rcases List.mem_map.1 hmem2 with ⟨x, hx, hxeq⟩
              have : (x.1.drop (sharedLen (pv0 :: pv1 :: t) + 1), x.2) ∈ (groupAt (sharedLen (pv0 :: pv1 :: t)) (nsAt path (sharedLen (pv0 :: pv1 :: t))) (pv0 :: pv1 :: t)) := by
                apply mem_groupAt_of hx
                rw [hxeq]
              rw [hgemp] at this
              exact absurd this (List.not_mem_nil _)
            have herase : eraseEntry (pv0 :: pv1 :: t) path = (pv0 :: pv1 :: t) :=
              eraseEntry_of_not_mem hnotmem
            have hsetsame : List.map (fun i => if (groupAt (sharedLen (pv0 :: pv1 :: t)) i (pv0 :: pv1 :: t)).isEmpty then none
              else some (RlpNode.encoded (canonNode m (groupAt (sharedLen (pv0 :: pv1 :: t)) i (pv0 :: pv1 :: t))))) (List.range 16) =
                (List.map (fun i => if (groupAt (sharedLen (pv0 :: pv1 :: t)) i (pv0 :: pv1 :: t)).isEmpty then none
              else some (RlpNode.encoded (canonNode m (groupAt (sharedLen (pv0 :: pv1 :: t)) i (pv0 :: pv1 :: t))))) (List.range 16)).set (nsAt path (sharedLen (pv0 :: pv1 :: t))) none := by
              apply children_update_gen (nsAt path (sharedLen (pv0 :: pv1 :: t))) hi2lt
              · rw [hgemp]
                rfl
              · intro i hi hne
                rfl
            have hcnt : (List.range 16).countP
                (fun i => ((if (groupAt (sharedLen (pv0 :: pv1 :: t)) i (pv0 :: pv1 :: t)).isEmpty then none
                  else some (RlpNode.encoded (canonNode m
                    (groupAt (sharedLen (pv0 :: pv1 :: t)) i (pv0 :: pv1 :: t))))) : Option Digest).isNone) ≤ 14 :=
              countP_range_le_sub_two 16 j1 j2 _ hj1 hj2 hjne
                (hFnone j1 hg1) (hFnone j2 hg2)
            refine ⟨((RlpNode.Branch (pv0.1.take (sharedLen (pv0 :: pv1 :: t))) (List.map (fun i => if (groupAt (sharedLen (pv0 :: pv1 :: t)) i (pv0 :: pv1 :: t)).isEmpty then none
              else some (RlpNode.encoded (canonNode m (groupAt (sharedLen (pv0 :: pv1 :: t)) i (pv0 :: pv1 :: t))))) (List.range 16))).encoded) :: s.db, ?_, fun x hx => List.mem_cons_of_mem _ hx,
              ?_⟩
            · unfold remove_aux
              dsimp only
              rw [dbGet_of_mem hmem]
              dsimp only
              rw [hdec]
              dsimp only
              rw [if_pos hpre]
              rw [hplen]
              rw [show nsAt (path.drop (sharedLen (pv0 :: pv1 :: t))) 0 = nsAt path (sharedLen (pv0 :: pv1 :: t)) from by
                rw [nsAt_drop, Nat.add_zero]]
              rw [show (List.map (fun i => if (groupAt (sharedLen (pv0 :: pv1 :: t)) i (pv0 :: pv1 :: t)).isEmpty then none
              else some (RlpNode.encoded (canonNode m (groupAt (sharedLen (pv0 :: pv1 :: t)) i (pv0 :: pv1 :: t))))) (List.range 16)).getD (nsAt path (sharedLen (pv0 :: pv1 :: t)))
                  none = none from by
                rw [getD_range16_map _ _ hi2lt]
                rw [hgemp]
                rfl]
              rw [remove_aux_none g]
              dsimp only
              rw [show ((List.map (fun i => if (groupAt (sharedLen (pv0 :: pv1 :: t)) i (pv0 :: pv1 :: t)).isEmpty then none
              else some (RlpNode.encoded (canonNode m (groupAt (sharedLen (pv0 :: pv1 :: t)) i (pv0 :: pv1 :: t))))) (List.range 16)).set (nsAt path (sharedLen (pv0 :: pv1 :: t)))
                  none).getD (nsAt path (sharedLen (pv0 :: pv1 :: t))) none = none from
                getD_set_lt _ _ _ (by
                  simp only [List.length_map, List.length_range]
                  exact hi2lt)]
              rw [if_pos rfl]
              rw [← hsetsame]
              rw [countP_map_range16]
              rw [if_neg (by omega), if_neg (by omega)]
              rw [hlook, hgemp]
              rw [show lookupVal ([] : Entries) (path.drop (sharedLen (pv0 :: pv1 :: t) + 1)) = none from rfl]
              dsimp only
              rw [herase, canonSlot_cons]
              rw [show canonDigest (m + 1) (pv0 :: pv1 :: t) =
                RlpNode.encoded (canonNode (m + 1) (pv0 :: pv1 :: t)) from rfl]
              rw [canonNode_multi]
              dsimp only [dbInsert]
            · rw [herase]
              intro d hd
              exact List.mem_cons_of_mem _ (hst d hd)
          · -- the addressed child exists: recurse into it
            have hcg0 : Canon (m - (sharedLen (pv0 :: pv1 :: t))) (groupAt (sharedLen (pv0 :: pv1 :: t)) (nsAt path (sharedLen (pv0 :: pv1 :: t))) (pv0 :: pv1 :: t)) := by
              have h := canon_groupAt hc (nsAt path (sharedLen (pv0 :: pv1 :: t))) hgemp
              rwa [show m + 1 - (sharedLen (pv0 :: pv1 :: t)) - 1 = m - (sharedLen (pv0 :: pv1 :: t)) from by omega] at h
            have hstg0 : StoreHas s.db (m - (sharedLen (pv0 :: pv1 :: t))) (groupAt (sharedLen (pv0 :: pv1 :: t)) (nsAt path (sharedLen (pv0 :: pv1 :: t))) (pv0 :: pv1 :: t)) := by
              intro d hd
              rw [canonAll_fuel_congr (m - (sharedLen (pv0 :: pv1 :: t))) m (m - (sharedLen (pv0 :: pv1 :: t))) (groupAt (sharedLen (pv0 :: pv1 :: t)) (nsAt path (sharedLen (pv0 :: pv1 :: t))) (pv0 :: pv1 :: t)) hcg0
                (Nat.le_refl _) (by omega)] at hd
              exact hst d
                (canonAll_group_subset m pv0 pv1 t (nsAt path (sharedLen (pv0 :: pv1 :: t))) hi2lt d hd)
            have hwsub : WFPath (m - (sharedLen (pv0 :: pv1 :: t))) (path.drop (sharedLen (pv0 :: pv1 :: t) + 1)) := by
              refine ⟨by rw [List.length_drop, hlpath]; omega, ?_⟩
              intro n hn
              exact hw.2 n (List.mem_of_mem_drop hn)
            obtain ⟨db2, hstep, hgrow, hsto⟩ :=
              ih (m - (sharedLen (pv0 :: pv1 :: t))) (groupAt (sharedLen (pv0 :: pv1 :: t)) (nsAt path (sharedLen (pv0 :: pv1 :: t))) (pv0 :: pv1 :: t)) s (path.drop (sharedLen (pv0 :: pv1 :: t) + 1)) hcg0 hstg0 hwsub (by omega)
            have hgrp_eq : groupAt (sharedLen (pv0 :: pv1 :: t)) (nsAt path (sharedLen (pv0 :: pv1 :: t))) (eraseEntry (pv0 :: pv1 :: t) path) =
                eraseEntry (groupAt (sharedLen (pv0 :: pv1 :: t)) (nsAt path (sharedLen (pv0 :: pv1 :: t))) (pv0 :: pv1 :: t)) (path.drop (sharedLen (pv0 :: pv1 :: t) + 1)) :=
              groupAt_eraseEntry_eq (sharedLen (pv0 :: pv1 :: t)) (pv0 :: pv1 :: t) path hshare hlen_es hcpath
            cases hg0e : eraseEntry (groupAt (sharedLen (pv0 :: pv1 :: t)) (nsAt path (sharedLen (pv0 :: pv1 :: t))) (pv0 :: pv1 :: t)) (path.drop (sharedLen (pv0 :: pv1 :: t) + 1)) with
            | cons y0 ys0 =>
              -- the child sub-trie survives: the slot is overwritten in place
              have hcg0e : Canon (m - (sharedLen (pv0 :: pv1 :: t))) (eraseEntry (groupAt (sharedLen (pv0 :: pv1 :: t)) (nsAt path (sharedLen (pv0 :: pv1 :: t))) (pv0 :: pv1 :: t)) (path.drop (sharedLen (pv0 :: pv1 :: t) + 1))) :=
                canon_eraseEntry hcg0 (by rw [hg0e]; exact List.cons_ne_nil y0 ys0)
              -- a surviving entry of the addressed group and one of another group
              obtain ⟨jo, hjo16, hjone, hgjo⟩ :
                  ∃ jo, jo < 16 ∧ jo ≠ nsAt path (sharedLen (pv0 :: pv1 :: t)) ∧
                    groupAt (sharedLen (pv0 :: pv1 :: t)) jo (pv0 :: pv1 :: t) ≠ [] := by
                by_cases h1 : j1 = nsAt path (sharedLen (pv0 :: pv1 :: t))
                · exact ⟨j2, hj2, fun h => hjne (h1.trans h.symm), hg2⟩
                · exact ⟨j1, hj1, h1, hg1⟩
              obtain ⟨qv, hqv, hqvnib⟩ : ∃ qv, qv ∈ (pv0 :: pv1 :: t) ∧ nsAt qv.1 (sharedLen (pv0 :: pv1 :: t)) = jo := by
                rcases List.exists_mem_of_ne_nil _ hgjo with ⟨u, hu⟩
                rcases mem_groupAt.1 hu with ⟨qv, hqv, hnib, _⟩
                exact ⟨qv, hqv, hnib⟩
              have hqv2 : qv ∈ (eraseEntry (pv0 :: pv1 :: t) path) := by
                rw [eraseEntry_eq_filter]
                refine List.mem_filter.2 ⟨hqv, ?_⟩
                simp only [decide_eq_true_eq]
                intro he
                apply hjone
                rw [← hqvnib, he]
              obtain ⟨zv, hzv, hzvnib⟩ : ∃ zv, zv ∈ (eraseEntry (pv0 :: pv1 :: t) path) ∧
                  nsAt zv.1 (sharedLen (pv0 :: pv1 :: t)) = nsAt path (sharedLen (pv0 :: pv1 :: t)) := by
                have hy0 : y0 ∈ eraseEntry (groupAt (sharedLen (pv0 :: pv1 :: t)) (nsAt path (sharedLen (pv0 :: pv1 :: t))) (pv0 :: pv1 :: t)) (path.drop (sharedLen (pv0 :: pv1 :: t) + 1)) := by
                  rw [hg0e]
                  simp
                have hy0g := (mem_eraseEntry hy0).1
                have hy0ne := (mem_eraseEntry hy0).2
                rcases mem_groupAt.1 hy0g with ⟨zv, hzv, hznib, hzeq⟩
                refine ⟨zv, ?_, hznib⟩
                rw [eraseEntry_eq_filter]
                refine List.mem_filter.2 ⟨hzv, ?_⟩
                simp only [decide_eq_true_eq]
                intro he
                apply hy0ne
                rw [hzeq]
                simp only
                rw [he]
              have hzqne : zv ≠ qv := by
                intro he
                apply hjone
                rw [← hqvnib, ← he, hzvnib]
              have h2len2 : 2 ≤ (eraseEntry (pv0 :: pv1 :: t) path).length :=
                two_le_length_of_mem hzv hqv2 hzqne
              have hes2ne : (eraseEntry (pv0 :: pv1 :: t) path) ≠ [] := by
                intro h0
                rw [h0] at hzv
                exact absurd hzv (List.not_mem_nil zv)
              have hsub2 : ∀ x ∈ (eraseEntry (pv0 :: pv1 :: t) path), x ∈ (pv0 :: pv1 :: t) := by
                intro x hx
                exact (mem_eraseEntry hx).1
              have hsl2 : sharedLen (eraseEntry (pv0 :: pv1 :: t) path) = sharedLen (pv0 :: pv1 :: t) := by
                apply sharedLen_spec
                · rcases List.exists_mem_of_ne_nil _ hes2ne with ⟨u, hu⟩
                  have h2 := (hc.2.2 u (hsub2 u hu)).1
                  have h3 := headD_mem hes2ne
                  have h4 := (hc.2.2 _ (hsub2 _ h3)).1
                  omega
                · intro x hx y hy
                  exact take_sharedLen_eq (pv0 :: pv1 :: t) x y (hsub2 x hx) (hsub2 y hy)
                · exact ⟨zv, hzv, qv, hqv2, by rw [hzvnib, hqvnib]; exact hjone.symm⟩
              have hhead2 : (((eraseEntry (pv0 :: pv1 :: t) path).headD ([], [])).1).take (sharedLen (pv0 :: pv1 :: t)) =
                  pv0.1.take (sharedLen (pv0 :: pv1 :: t)) :=
                take_sharedLen_eq (pv0 :: pv1 :: t) _ pv0 (hsub2 _ (headD_mem hes2ne)) (by simp)
              have hch2 : List.map (fun i => if (groupAt (sharedLen (pv0 :: pv1 :: t)) i (eraseEntry (pv0 :: pv1 :: t) path)).isEmpty then none
                else some (RlpNode.encoded (canonNode m (groupAt (sharedLen (pv0 :: pv1 :: t)) i (eraseEntry (pv0 :: pv1 :: t) path))))) (List.range 16) = ((List.map (fun i => if (groupAt (sharedLen (pv0 :: pv1 :: t)) i (pv0 :: pv1 :: t)).isEmpty then none
                else some (RlpNode.encoded (canonNode m (groupAt (sharedLen (pv0 :: pv1 :: t)) i (pv0 :: pv1 :: t))))) (List.range 16)).set (nsAt path (sharedLen (pv0 :: pv1 :: t))) (some (canonDigest (m - (sharedLen (pv0 :: pv1 :: t))) (eraseEntry (groupAt (sharedLen (pv0 :: pv1 :: t)) (nsAt path (sharedLen (pv0 :: pv1 :: t))) (pv0 :: pv1 :: t)) (path.drop (sharedLen (pv0 :: pv1 :: t) + 1)))))) := by
                apply children_update_gen (nsAt path (sharedLen (pv0 :: pv1 :: t))) hi2lt
                · dsimp only
                  rw [hgrp_eq]
                  rw [if_neg (by rw [hg0e]; simp)]
                  rw [canonNode_fuel_congr m (m - (sharedLen (pv0 :: pv1 :: t))) (m - (sharedLen (pv0 :: pv1 :: t))) _ hcg0e
                    (by omega) (Nat.le_refl _)]
                  rw [canonDigest]
                · intro i hi hne
                  dsimp only
                  rw [groupAt_eraseEntry_ne (sharedLen (pv0 :: pv1 :: t)) (pv0 :: pv1 :: t) path i hne]
              refine ⟨((RlpNode.Branch (pv0.1.take (sharedLen (pv0 :: pv1 :: t))) ((List.map (fun i => if (groupAt (sharedLen (pv0 :: pv1 :: t)) i (pv0 :: pv1 :: t)).isEmpty then none
                else some (RlpNode.encoded (canonNode m (groupAt (sharedLen (pv0 :: pv1 :: t)) i (pv0 :: pv1 :: t))))) (List.range 16)).set (nsAt path (sharedLen (pv0 :: pv1 :: t))) (some (canonDigest (m - (sharedLen (pv0 :: pv1 :: t))) (eraseEntry (groupAt (sharedLen (pv0 :: pv1 :: t)) (nsAt path (sharedLen (pv0 :: pv1 :: t))) (pv0 :: pv1 :: t)) (path.drop (sharedLen (pv0 :: pv1 :: t) + 1))))))).encoded) :: db2, ?_, ?_, ?_⟩
              · unfold remove_aux
                dsimp only
                rw [dbGet_of_mem hmem]
                dsimp only
                rw [hdec]
                dsimp only
                rw [if_pos hpre]
                rw [hplen]
                rw [show nsAt (path.drop (sharedLen (pv0 :: pv1 :: t))) 0 = nsAt path (sharedLen (pv0 :: pv1 :: t)) from by
                  rw [nsAt_drop, Nat.add_zero]]
                rw [show (path.drop (sharedLen (pv0 :: pv1 :: t))).drop 1 = path.drop (sharedLen (pv0 :: pv1 :: t) + 1) from by
                  rw [List.drop_drop, Nat.add_comm]]
                rw [show (List.map (fun i => if (groupAt (sharedLen (pv0 :: pv1 :: t)) i (pv0 :: pv1 :: t)).isEmpty then none
                else some (RlpNode.encoded (canonNode m (groupAt (sharedLen (pv0 :: pv1 :: t)) i (pv0 :: pv1 :: t))))) (List.range 16)).getD (nsAt path (sharedLen (pv0 :: pv1 :: t)))
                    none = some (canonDigest (m - (sharedLen (pv0 :: pv1 :: t))) (groupAt (sharedLen (pv0 :: pv1 :: t)) (nsAt path (sharedLen (pv0 :: pv1 :: t))) (pv0 :: pv1 :: t))) from by
                  rw [getD_range16_map _ _ hi2lt]
                  rw [if_neg (fun h => hgemp (by simpa using h))]
                  rw [canonNode_fuel_congr m (m - (sharedLen (pv0 :: pv1 :: t))) (m - (sharedLen (pv0 :: pv1 :: t))) _ hcg0
                    (by omega) (Nat.le_refl _)]
                  rw [canonDigest]]
                rw [hstep]
                dsimp only
                rw [show canonSlot (m - (sharedLen (pv0 :: pv1 :: t))) (eraseEntry (groupAt (sharedLen (pv0 :: pv1 :: t)) (nsAt path (sharedLen (pv0 :: pv1 :: t))) (pv0 :: pv1 :: t)) (path.drop (sharedLen (pv0 :: pv1 :: t) + 1))) =
                    some (canonDigest (m - (sharedLen (pv0 :: pv1 :: t))) (eraseEntry (groupAt (sharedLen (pv0 :: pv1 :: t)) (nsAt path (sharedLen (pv0 :: pv1 :: t))) (pv0 :: pv1 :: t)) (path.drop (sharedLen (pv0 :: pv1 :: t) + 1)))) from by rw [hg0e]; rw [canonSlot_cons]]
                rw [show ((List.map (fun i => if (groupAt (sharedLen (pv0 :: pv1 :: t)) i (pv0 :: pv1 :: t)).isEmpty then none
                else some (RlpNode.encoded (canonNode m (groupAt (sharedLen (pv0 :: pv1 :: t)) i (pv0 :: pv1 :: t))))) (List.range 16)).set (nsAt path (sharedLen (pv0 :: pv1 :: t)))
                    (some (canonDigest (m - (sharedLen (pv0 :: pv1 :: t))) (eraseEntry (groupAt (sharedLen (pv0 :: pv1 :: t)) (nsAt path (sharedLen (pv0 :: pv1 :: t))) (pv0 :: pv1 :: t)) (path.drop (sharedLen (pv0 :: pv1 :: t) + 1)))))).getD (nsAt path (sharedLen (pv0 :: pv1 :: t))) none = some (canonDigest (m - (sharedLen (pv0 :: pv1 :: t))) (eraseEntry (groupAt (sharedLen (pv0 :: pv1 :: t)) (nsAt path (sharedLen (pv0 :: pv1 :: t))) (pv0 :: pv1 :: t)) (path.drop (sharedLen (pv0 :: pv1 :: t) + 1)))) from
                  getD_set_lt _ _ _ (by
                    simp only [List.length_map, List.length_range]
                    exact hi2lt)]
                rw [if_neg (by simp)]
                rw [hlook]
                rw [show canonSlot (m + 1) (eraseEntry (pv0 :: pv1 :: t) path) =
                    some (canonDigest (m + 1) (eraseEntry (pv0 :: pv1 :: t) path)) from by
                  unfold canonSlot
                  rw [if_neg (by simpa using hes2ne)]]
                rw [show canonDigest (m + 1) (eraseEntry (pv0 :: pv1 :: t) path) =
                  RlpNode.encoded (canonNode (m + 1) (eraseEntry (pv0 :: pv1 :: t) path)) from rfl]
                rw [canonNode_multi' m (eraseEntry (pv0 :: pv1 :: t) path) h2len2, hsl2, hhead2, hch2]
                dsimp only [dbInsert]
              · intro x hx
                exact List.mem_cons_of_mem _ (hgrow x hx)
              · intro d hd
                rw [canonAll_multi' m (eraseEntry (pv0 :: pv1 :: t) path) h2len2, hsl2] at hd
                rcases List.mem_cons.1 hd with rfl | hd2
                · have hdig : canonDigest (m + 1) (eraseEntry (pv0 :: pv1 :: t) path) = ((RlpNode.Branch (pv0.1.take (sharedLen (pv0 :: pv1 :: t))) ((List.map (fun i => if (groupAt (sharedLen (pv0 :: pv1 :: t)) i (pv0 :: pv1 :: t)).isEmpty then none
                else some (RlpNode.encoded (canonNode m (groupAt (sharedLen (pv0 :: pv1 :: t)) i (pv0 :: pv1 :: t))))) (List.range 16)).set (nsAt path (sharedLen (pv0 :: pv1 :: t))) (some (canonDigest (m - (sharedLen (pv0 :: pv1 :: t))) (eraseEntry (groupAt (sharedLen (pv0 :: pv1 :: t)) (nsAt path (sharedLen (pv0 :: pv1 :: t))) (pv0 :: pv1 :: t)) (path.drop (sharedLen (pv0 :: pv1 :: t) + 1))))))).encoded) := by
                    rw [show canonDigest (m + 1) (eraseEntry (pv0 :: pv1 :: t) path) =
                      RlpNode.encoded (canonNode (m + 1) (eraseEntry (pv0 :: pv1 :: t) path)) from rfl]
                    rw [canonNode_multi' m (eraseEntry (pv0 :: pv1 :: t) path) h2len2, hsl2, hhead2, hch2]
                  rw [hdig]
                  simp
                · rcases (mem_foldr_append _ _ _).1 hd2 with ⟨i, hi, hdi⟩
                  by_cases hii : i = nsAt path (sharedLen (pv0 :: pv1 :: t))
                  · subst hii
                    rw [hgrp_eq] at hdi
                    rw [canonAll_fuel_congr m (m - (sharedLen (pv0 :: pv1 :: t))) (m - (sharedLen (pv0 :: pv1 :: t))) _ hcg0e
                      (by omega) (Nat.le_refl _)] at hdi
                    exact List.mem_cons_of_mem _ (hsto d hdi)
                  · rw [groupAt_eraseEntry_ne (sharedLen (pv0 :: pv1 :: t)) (pv0 :: pv1 :: t) path i hii] at hdi
                    have hmem2 := hst d
                      (canonAll_group_subset m pv0 pv1 t i (List.mem_range.1 hi) d hdi)
                    exact List.mem_cons_of_mem _ (hgrow d hmem2)
            | nil =>
              -- the child sub-trie disappears: the branch must be fixed
              have hgrp_nil : groupAt (sharedLen (pv0 :: pv1 :: t)) (nsAt path (sharedLen (pv0 :: pv1 :: t))) (eraseEntry (pv0 :: pv1 :: t) path) = [] := by
                rw [hgrp_eq, hg0e]
              have hnib_all : ∀ x ∈ (eraseEntry (pv0 :: pv1 :: t) path), nsAt x.1 (sharedLen (pv0 :: pv1 :: t)) ≠ nsAt path (sharedLen (pv0 :: pv1 :: t)) := by
                intro x hx hnib
                have := mem_groupAt_of hx hnib
                rw [hgrp_nil] at this
                exact absurd this (List.not_mem_nil _)
              have hsub2 : ∀ x ∈ (eraseEntry (pv0 :: pv1 :: t) path), x ∈ (pv0 :: pv1 :: t) := by
                intro x hx
                exact (mem_eraseEntry hx).1
              have hch3 : List.map (fun i => if i = nsAt path (sharedLen (pv0 :: pv1 :: t)) then none
                else if (groupAt (sharedLen (pv0 :: pv1 :: t)) i (pv0 :: pv1 :: t)).isEmpty then none
                else some (RlpNode.encoded (canonNode m (groupAt (sharedLen (pv0 :: pv1 :: t)) i (pv0 :: pv1 :: t))))) (List.range 16) =
                  (List.map (fun i => if (groupAt (sharedLen (pv0 :: pv1 :: t)) i (pv0 :: pv1 :: t)).isEmpty then none
                else some (RlpNode.encoded (canonNode m (groupAt (sharedLen (pv0 :: pv1 :: t)) i (pv0 :: pv1 :: t))))) (List.range 16)).set (nsAt path (sharedLen (pv0 :: pv1 :: t))) none := by
                apply children_update_gen (nsAt path (sharedLen (pv0 :: pv1 :: t))) hi2lt
                · rw [if_pos rfl]
                · intro i hi hne
                  rw [if_neg hne]
              by_cases htwo : ∃ k1 k2, k1 < 16 ∧ k2 < 16 ∧ k1 ≠ k2 ∧
                  k1 ≠ nsAt path (sharedLen (pv0 :: pv1 :: t)) ∧ k2 ≠ nsAt path (sharedLen (pv0 :: pv1 :: t)) ∧
                  groupAt (sharedLen (pv0 :: pv1 :: t)) k1 (pv0 :: pv1 :: t) ≠ [] ∧ groupAt (sharedLen (pv0 :: pv1 :: t)) k2 (pv0 :: pv1 :: t) ≠ []
              · -- at least two other children remain: re-emit the branch
                obtain ⟨k1, k2, hk1, hk2, hkne, hk1ne, hk2ne, hgk1, hgk2⟩ := htwo
                have hcnt : (List.range 16).countP
                    (fun i => (((if i = nsAt path (sharedLen (pv0 :: pv1 :: t)) then none
                      else if (groupAt (sharedLen (pv0 :: pv1 :: t)) i (pv0 :: pv1 :: t)).isEmpty then none
                else some (RlpNode.encoded (canonNode m (groupAt (sharedLen (pv0 :: pv1 :: t)) i (pv0 :: pv1 :: t))))) : Option Digest)).isNone) ≤ 14 := by
                  apply countP_range_le_sub_two 16 k1 k2 _ hk1 hk2 hkne
                  · dsimp only
                    rw [if_neg hk1ne]
                    exact hFnone k1 hgk1
                  · dsimp only
                    rw [if_neg hk2ne]
                    exact hFnone k2 hgk2
                obtain ⟨qv1, hqv1, hqn1⟩ : ∃ qv, qv ∈ (pv0 :: pv1 :: t) ∧
                    nsAt qv.1 (sharedLen (pv0 :: pv1 :: t)) = k1 := by
                  rcases List.exists_mem_of_ne_nil _ hgk1 with ⟨u, hu⟩
                  rcases mem_groupAt.1 hu with ⟨qv, hqv, hnib, _⟩
                  exact ⟨qv, hqv, hnib⟩
                obtain ⟨qv2, hqv2, hqn2⟩ : ∃ qv, qv ∈ (pv0 :: pv1 :: t) ∧
                    nsAt qv.1 (sharedLen (pv0 :: pv1 :: t)) = k2 := by
                  rcases List.exists_mem_of_ne_nil _ hgk2 with ⟨u, hu⟩
                  rcases mem_groupAt.1 hu with ⟨qv, hqv, hnib, _⟩
                  exact ⟨qv, hqv, hnib⟩
                have hq1in : qv1 ∈ (eraseEntry (pv0 :: pv1 :: t) path) := by
                  rw [eraseEntry_eq_filter]
                  refine List.mem_filter.2 ⟨hqv1, ?_⟩
                  simp only [decide_eq_true_eq]
                  intro he
                  exact hk1ne (by rw [← hqn1, he])
                have hq2in : qv2 ∈ (eraseEntry (pv0 :: pv1 :: t) path) := by
                  rw [eraseEntry_eq_filter]
                  refine List.mem_filter.2 ⟨hqv2, ?_⟩
                  simp only [decide_eq_true_eq]
                  intro he
                  exact hk2ne (by rw [← hqn2, he])
                have hqne : qv1 ≠ qv2 := by
                  intro he
                  exact hkne (by rw [← hqn1, he, hqn2])
                have h2len2 : 2 ≤ (eraseEntry (pv0 :: pv1 :: t) path).length :=
                  two_le_length_of_mem hq1in hq2in hqne
                have hes2ne : (eraseEntry (pv0 :: pv1 :: t) path) ≠ [] := by
                  intro h0
                  rw [h0] at hq1in
                  exact absurd hq1in (List.not_mem_nil qv1)
                have hsl2 : sharedLen (eraseEntry (pv0 :: pv1 :: t) path) = sharedLen (pv0 :: pv1 :: t) := by
                  apply sharedLen_spec
                  · have h4 := (hc.2.2 _ (hsub2 _ (headD_mem hes2ne))).1
                    omega
                  · intro x hx y hy
                    exact take_sharedLen_eq (pv0 :: pv1 :: t) x y (hsub2 x hx) (hsub2 y hy)
                  · exact ⟨qv1, hq1in, qv2, hq2in,
                      by rw [hqn1, hqn2]; exact hkne⟩
                have hhead2 : (((eraseEntry (pv0 :: pv1 :: t) path).headD ([], [])).1).take (sharedLen (pv0 :: pv1 :: t)) =
                    pv0.1.take (sharedLen (pv0 :: pv1 :: t)) :=
                  take_sharedLen_eq (pv0 :: pv1 :: t) _ pv0 (hsub2 _ (headD_mem hes2ne)) (by simp)
                have hFF : List.map (fun i => if (groupAt (sharedLen (pv0 :: pv1 :: t)) i (eraseEntry (pv0 :: pv1 :: t) path)).isEmpty then none
                else some (RlpNode.encoded (canonNode m (groupAt (sharedLen (pv0 :: pv1 :: t)) i (eraseEntry (pv0 :: pv1 :: t) path))))) (List.range 16) =
                    List.map (fun i => if i = nsAt path (sharedLen (pv0 :: pv1 :: t)) then none
                else if (groupAt (sharedLen (pv0 :: pv1 :: t)) i (pv0 :: pv1 :: t)).isEmpty then none
                else some (RlpNode.encoded (canonNode m (groupAt (sharedLen (pv0 :: pv1 :: t)) i (pv0 :: pv1 :: t))))) (List.range 16) := by
                  apply List.map_congr_left
                  intro i hi
                  by_cases hii : i = nsAt path (sharedLen (pv0 :: pv1 :: t))
                  · subst hii
                    rw [if_pos rfl, if_pos (by rw [hgrp_nil]; rfl)]
                  · rw [if_neg hii, groupAt_eraseEntry_ne (sharedLen (pv0 :: pv1 :: t)) (pv0 :: pv1 :: t) path i hii]
                refine ⟨((RlpNode.Branch (pv0.1.take (sharedLen (pv0 :: pv1 :: t))) (List.map (fun i => if i = nsAt path (sharedLen (pv0 :: pv1 :: t)) then none
                else if (groupAt (sharedLen (pv0 :: pv1 :: t)) i (pv0 :: pv1 :: t)).isEmpty then none
                else some (RlpNode.encoded (canonNode m (groupAt (sharedLen (pv0 :: pv1 :: t)) i (pv0 :: pv1 :: t))))) (List.range 16))).encoded) :: db2, ?_, ?_, ?_⟩
                · unfold remove_aux
                  dsimp only
                  rw [dbGet_of_mem hmem]
                  dsimp only
                  rw [hdec]
                  dsimp only
                  rw [if_pos hpre]
                  rw [hplen]
                  rw [show nsAt (path.drop (sharedLen (pv0 :: pv1 :: t))) 0 = nsAt path (sharedLen (pv0 :: pv1 :: t)) from by
                    rw [nsAt_drop, Nat.add_zero]]
                  rw [show (path.drop (sharedLen (pv0 :: pv1 :: t))).drop 1 = path.drop (sharedLen (pv0 :: pv1 :: t) + 1) from by
                    rw [List.drop_drop, Nat.add_comm]]
                  rw [show (List.map (fun i => if (groupAt (sharedLen (pv0 :: pv1 :: t)) i (pv0 :: pv1 :: t)).isEmpty then none
                else some (RlpNode.encoded (canonNode m (groupAt (sharedLen (pv0 :: pv1 :: t)) i (pv0 :: pv1 :: t))))) (List.range 16)).getD (nsAt path (sharedLen (pv0 :: pv1 :: t)))
                      none = some (canonDigest (m - (sharedLen (pv0 :: pv1 :: t))) (groupAt (sharedLen (pv0 :: pv1 :: t)) (nsAt path (sharedLen (pv0 :: pv1 :: t))) (pv0 :: pv1 :: t))) from by
                    rw [getD_range16_map _ _ hi2lt]
                    rw [if_neg (fun h => hgemp (by simpa using h))]
                    rw [canonNode_fuel_congr m (m - (sharedLen (pv0 :: pv1 :: t))) (m - (sharedLen (pv0 :: pv1 :: t))) _ hcg0
                      (by omega) (Nat.le_refl _)]
                    rw [canonDigest]]
                  rw [hstep]
                  dsimp only
                  rw [show canonSlot (m - (sharedLen (pv0 :: pv1 :: t))) (eraseEntry (groupAt (sharedLen (pv0 :: pv1 :: t)) (nsAt path (sharedLen (pv0 :: pv1 :: t))) (pv0 :: pv1 :: t)) (path.drop (sharedLen (pv0 :: pv1 :: t) + 1))) = none
                    from by rw [hg0e]; rfl]
                  rw [show ((List.map (fun i => if (groupAt (sharedLen (pv0 :: pv1 :: t)) i (pv0 :: pv1 :: t)).isEmpty then none
                else some (RlpNode.encoded (canonNode m (groupAt (sharedLen (pv0 :: pv1 :: t)) i (pv0 :: pv1 :: t))))) (List.range 16)).set (nsAt path (sharedLen (pv0 :: pv1 :: t)))
                      none).getD (nsAt path (sharedLen (pv0 :: pv1 :: t))) none = none from
                    getD_set_lt _ _ _ (by
                      simp only [List.length_map, List.length_range]
                      exact hi2lt)]
                  rw [if_pos rfl]
                  rw [← hch3]
                  rw [countP_map_range16]
                  rw [if_neg (by omega), if_neg (by omega)]
                  rw [hlook]
                  rw [show canonSlot (m + 1) (eraseEntry (pv0 :: pv1 :: t) path) =
                      some (canonDigest (m + 1) (eraseEntry (pv0 :: pv1 :: t) path)) from by
                    unfold canonSlot
                    rw [if_neg (by simpa using hes2ne)]]
                  rw [show canonDigest (m + 1) (eraseEntry (pv0 :: pv1 :: t) path) =
                    RlpNode.encoded (canonNode (m + 1) (eraseEntry (pv0 :: pv1 :: t) path)) from rfl]
                  rw [canonNode_multi' m (eraseEntry (pv0 :: pv1 :: t) path) h2len2, hsl2, hhead2, hFF]
                  dsimp only [dbInsert]
                · intro x hx
                  exact List.mem_cons_of_mem _ (hgrow x hx)
                · intro d hd
                  rw [canonAll_multi' m (eraseEntry (pv0 :: pv1 :: t) path) h2len2, hsl2] at hd
                  rcases List.mem_cons.1 hd with rfl | hd2
                  · have hdig : canonDigest (m + 1) (eraseEntry (pv0 :: pv1 :: t) path) = ((RlpNode.Branch (pv0.1.take (sharedLen (pv0 :: pv1 :: t))) (List.map (fun i => if i = nsAt path (sharedLen (pv0 :: pv1 :: t)) then none
                else if (groupAt (sharedLen (pv0 :: pv1 :: t)) i (pv0 :: pv1 :: t)).isEmpty then none
                else some (RlpNode.encoded (canonNode m (groupAt (sharedLen (pv0 :: pv1 :: t)) i (pv0 :: pv1 :: t))))) (List.range 16))).encoded) := by
                      rw [show canonDigest (m + 1) (eraseEntry (pv0 :: pv1 :: t) path) =
                        RlpNode.encoded (canonNode (m + 1) (eraseEntry (pv0 :: pv1 :: t) path)) from rfl]
                      rw [canonNode_multi' m (eraseEntry (pv0 :: pv1 :: t) path) h2len2, hsl2, hhead2, hFF]
                    rw [hdig]
                    simp
                  · rcases (mem_foldr_append _ _ _).1 hd2 with ⟨i, hi, hdi⟩
                    by_cases hii : i = nsAt path (sharedLen (pv0 :: pv1 :: t))
                    · subst hii
                      rw [hgrp_nil, canonAll_nil] at hdi
                      exact absurd hdi (List.not_mem_nil d)
                    · rw [groupAt_eraseEntry_ne (sharedLen (pv0 :: pv1 :: t)) (pv0 :: pv1 :: t) path i hii] at hdi
                      have hmem2 := hst d
                        (canonAll_group_subset m pv0 pv1 t i (List.mem_range.1 hi) d hdi)
                      exact List.mem_cons_of_mem _ (hgrow d hmem2)
              · -- exactly one other child remains: collapse it into its parent
                obtain ⟨j, hj16, hjni2, hgj⟩ : ∃ j, j < 16 ∧ j ≠ nsAt path (sharedLen (pv0 :: pv1 :: t)) ∧
                    groupAt (sharedLen (pv0 :: pv1 :: t)) j (pv0 :: pv1 :: t) ≠ [] := by
                  by_cases h1 : j1 = nsAt path (sharedLen (pv0 :: pv1 :: t))
                  · exact ⟨j2, hj2, fun h => hjne (h1.trans h.symm), hg2⟩
                  · exact ⟨j1, hj1, h1, hg1⟩
                have huniq : ∀ i, i < 16 → i ≠ nsAt path (sharedLen (pv0 :: pv1 :: t)) → i ≠ j →
                    groupAt (sharedLen (pv0 :: pv1 :: t)) i (pv0 :: pv1 :: t) = [] := by
                  intro i hi hii2 hij
                  by_contra hne2
                  exact htwo ⟨j, i, hj16, hi, fun h => hij h.symm, hjni2, hii2,
                    hgj, hne2⟩
                have hcnt15 : (List.range 16).countP
                    (fun i => (((if i = nsAt path (sharedLen (pv0 :: pv1 :: t)) then none
                      else if (groupAt (sharedLen (pv0 :: pv1 :: t)) i (pv0 :: pv1 :: t)).isEmpty then none
                else some (RlpNode.encoded (canonNode m (groupAt (sharedLen (pv0 :: pv1 :: t)) i (pv0 :: pv1 :: t))))) : Option Digest)).isNone) = 15 := by
                  apply countP_range_eq_sub_one 16 j _ hj16
                  · dsimp only
                    rw [if_neg hjni2]
                    exact hFnone j hgj
                  · intro i hi hij
                    dsimp only
                    by_cases hii2 : i = nsAt path (sharedLen (pv0 :: pv1 :: t))
                    · rw [if_pos hii2]
                      rfl
                    · rw [if_neg hii2, huniq i hi hii2 hij]
                      rfl
                have hFidx : (List.map (fun i => if i = nsAt path (sharedLen (pv0 :: pv1 :: t)) then none
                else if (groupAt (sharedLen (pv0 :: pv1 :: t)) i (pv0 :: pv1 :: t)).isEmpty then none
                else some (RlpNode.encoded (canonNode m (groupAt (sharedLen (pv0 :: pv1 :: t)) i (pv0 :: pv1 :: t))))) (List.range 16)).findIdx?
                    (fun x => x.isSome) = some j := by
                  apply findIdx?_map_range_eq _ j hj16
                  · dsimp only
                    rw [if_neg hjni2, if_neg (fun h => hgj (by simpa using h))]
                    rfl
                  · intro i hij
                    dsimp only
                    by_cases hii2 : i = nsAt path (sharedLen (pv0 :: pv1 :: t))
                    · rw [if_pos hii2]
                    · rw [if_neg hii2, huniq i (by omega) hii2 (by omega)]
                      rfl
                have hcgj : Canon (m - (sharedLen (pv0 :: pv1 :: t))) (groupAt (sharedLen (pv0 :: pv1 :: t)) j (pv0 :: pv1 :: t)) := by
                  have h := canon_groupAt hc j hgj
                  rwa [show m + 1 - (sharedLen (pv0 :: pv1 :: t)) - 1 = m - (sharedLen (pv0 :: pv1 :: t)) from by omega] at h
                have hmemj : canonDigest (m - (sharedLen (pv0 :: pv1 :: t))) (groupAt (sharedLen (pv0 :: pv1 :: t)) j (pv0 :: pv1 :: t)) ∈ db2 := by
                  rw [show canonDigest (m - (sharedLen (pv0 :: pv1 :: t))) (groupAt (sharedLen (pv0 :: pv1 :: t)) j (pv0 :: pv1 :: t)) =
                      RlpNode.encoded (canonNode (m - (sharedLen (pv0 :: pv1 :: t))) (groupAt (sharedLen (pv0 :: pv1 :: t)) j (pv0 :: pv1 :: t))) from rfl]
                  rw [canonNode_fuel_congr (m - (sharedLen (pv0 :: pv1 :: t))) m (m - (sharedLen (pv0 :: pv1 :: t))) _ hcgj
                    (Nat.le_refl _) (by omega)]
                  exact hgrow _ (hst _ (canonAll_group_subset m pv0 pv1 t j hj16 _
                    (canonDigest_mem_canonAll m (m - (sharedLen (pv0 :: pv1 :: t))) _ hcgj (by omega))))
                have hdecj : RlpNode.decoded (canonDigest (m - (sharedLen (pv0 :: pv1 :: t))) (groupAt (sharedLen (pv0 :: pv1 :: t)) j (pv0 :: pv1 :: t))) =
                    some (canonNode (m - (sharedLen (pv0 :: pv1 :: t))) (groupAt (sharedLen (pv0 :: pv1 :: t)) j (pv0 :: pv1 :: t))) :=
                  decoded_canonDigest (m - (sharedLen (pv0 :: pv1 :: t))) (m - (sharedLen (pv0 :: pv1 :: t))) _ hcgj (Nat.le_refl _)
                have hgetj : (List.map (fun i => if i = nsAt path (sharedLen (pv0 :: pv1 :: t)) then none
                else if (groupAt (sharedLen (pv0 :: pv1 :: t)) i (pv0 :: pv1 :: t)).isEmpty then none
                else some (RlpNode.encoded (canonNode m (groupAt (sharedLen (pv0 :: pv1 :: t)) i (pv0 :: pv1 :: t))))) (List.range 16)).getD j none =
                    some (canonDigest (m - (sharedLen (pv0 :: pv1 :: t))) (groupAt (sharedLen (pv0 :: pv1 :: t)) j (pv0 :: pv1 :: t))) := by
                  rw [getD_range16_map _ _ hj16]
                  rw [if_neg hjni2, if_neg (fun h => hgj (by simpa using h))]
                  rw [canonNode_fuel_congr m (m - (sharedLen (pv0 :: pv1 :: t))) (m - (sharedLen (pv0 :: pv1 :: t))) _ hcgj
                    (by omega) (Nat.le_refl _)]
                  rw [canonDigest]
                have hnibfull : ∀ x ∈ (eraseEntry (pv0 :: pv1 :: t) path), nsAt x.1 (sharedLen (pv0 :: pv1 :: t)) = j := by
                  intro x hx
                  have hx16 : nsAt x.1 (sharedLen (pv0 :: pv1 :: t)) < 16 :=
                    nsAt_lt_16 (hc.2.2 x (hsub2 x hx)) (by omega)
                  by_contra hne2
                  have hemp := huniq (nsAt x.1 (sharedLen (pv0 :: pv1 :: t))) hx16 (hnib_all x hx) hne2
                  have hmm := mem_groupAt_of (hsub2 x hx)
                    (rfl : nsAt x.1 (sharedLen (pv0 :: pv1 :: t)) = nsAt x.1 (sharedLen (pv0 :: pv1 :: t)))
                  rw [hemp] at hmm
                  exact absurd hmm (List.not_mem_nil _)
                have hmapfull : (eraseEntry (pv0 :: pv1 :: t) path).map (fun pv => (pv.1.drop (sharedLen (pv0 :: pv1 :: t) + 1), pv.2)) =
                    (groupAt (sharedLen (pv0 :: pv1 :: t)) j (pv0 :: pv1 :: t)) := by
                  have h1 := groupAt_full (sharedLen (pv0 :: pv1 :: t)) j (eraseEntry (pv0 :: pv1 :: t) path) hnibfull
                  have h2 := groupAt_eraseEntry_ne (sharedLen (pv0 :: pv1 :: t)) (pv0 :: pv1 :: t) path j hjni2
                  rw [← h1, h2]
                cases hgjs : (groupAt (sharedLen (pv0 :: pv1 :: t)) j (pv0 :: pv1 :: t)) with
                | nil => exact absurd hgjs hgj
                | cons y1 ys1 =>
                  cases ys1 with
                  | nil =>
                    -- the remaining child is a leaf: merge the prefixes
                    rcases hzshape : (eraseEntry (pv0 :: pv1 :: t) path) with _ | ⟨z, zs⟩
                    · rw [hzshape, hgjs] at hmapfull
                      exact absurd hmapfull (by simp)
                    · cases zs with
                      | cons z2 zs2 =>
                        rw [hzshape, hgjs] at hmapfull
                        exact absurd hmapfull (by simp)
                      | nil =>
                        rw [hzshape, hgjs] at hmapfull
                        simp only [List.map_cons, List.map_nil,
                          List.cons.injEq, and_true] at hmapfull
                        have hz1 : z.1.drop (sharedLen (pv0 :: pv1 :: t) + 1) = y1.1 := by
                          rw [← hmapfull]
                        have hz2 : z.2 = y1.2 := by
                          rw [← hmapfull]
                        have hzmem : z ∈ (eraseEntry (pv0 :: pv1 :: t) path) := by
                          rw [hzshape]
                          simp
                        have hzes : z ∈ (pv0 :: pv1 :: t) := hsub2 z hzmem
                        have hzlen : z.1.length = m + 1 := (hc.2.2 z hzes).1
                        have hzfull : z.1 = pv0.1.take (sharedLen (pv0 :: pv1 :: t)) ++ [j] ++ y1.1 := by
                          have h8 := take_nib_drop z.1 (sharedLen (pv0 :: pv1 :: t)) (by omega)
                          rw [show z.1.take (sharedLen (pv0 :: pv1 :: t)) = pv0.1.take (sharedLen (pv0 :: pv1 :: t)) from
                            take_sharedLen_eq (pv0 :: pv1 :: t) z pv0 hzes (by simp)] at h8
                          rw [hnibfull z hzmem] at h8
                          rw [hz1] at h8
                          exact h8
                        refine ⟨((RlpNode.Leaf (pv0.1.take (sharedLen (pv0 :: pv1 :: t)) ++ [j] ++ y1.1)
                          y1.2).encoded) :: db2, ?_, ?_, ?_⟩
                        · unfold remove_aux
                          dsimp only
                          rw [dbGet_of_mem hmem]
                          dsimp only
                          rw [hdec]
                          dsimp only
                          rw [if_pos hpre]
                          rw [hplen]
                          rw [show nsAt (path.drop (sharedLen (pv0 :: pv1 :: t))) 0 = nsAt path (sharedLen (pv0 :: pv1 :: t)) from by
                            rw [nsAt_drop, Nat.add_zero]]
                          rw [show (path.drop (sharedLen (pv0 :: pv1 :: t))).drop 1 = path.drop (sharedLen (pv0 :: pv1 :: t) + 1) from by
                            rw [List.drop_drop, Nat.add_comm]]
                          rw [show (List.map (fun i => if (groupAt (sharedLen (pv0 :: pv1 :: t)) i (pv0 :: pv1 :: t)).isEmpty then none
                      else some (RlpNode.encoded (canonNode m (groupAt (sharedLen (pv0 :: pv1 :: t)) i (pv0 :: pv1 :: t))))) (List.range 16)).getD (nsAt path (sharedLen (pv0 :: pv1 :: t)))
                              none = some (canonDigest (m - (sharedLen (pv0 :: pv1 :: t))) (groupAt (sharedLen (pv0 :: pv1 :: t)) (nsAt path (sharedLen (pv0 :: pv1 :: t))) (pv0 :: pv1 :: t))) from by
                            rw [getD_range16_map _ _ hi2lt]
                            rw [if_neg (fun h => hgemp (by simpa using h))]
                            rw [canonNode_fuel_congr m (m - (sharedLen (pv0 :: pv1 :: t))) (m - (sharedLen (pv0 :: pv1 :: t))) _ hcg0
                              (by omega) (Nat.le_refl _)]
                            rw [canonDigest]]
                          rw [hstep]
                          dsimp only
                          rw [show canonSlot (m - (sharedLen (pv0 :: pv1 :: t))) (eraseEntry (groupAt (sharedLen (pv0 :: pv1 :: t)) (nsAt path (sharedLen (pv0 :: pv1 :: t))) (pv0 :: pv1 :: t)) (path.drop (sharedLen (pv0 :: pv1 :: t) + 1))) = none
                            from by rw [hg0e]; rfl]
                          rw [show ((List.map (fun i => if (groupAt (sharedLen (pv0 :: pv1 :: t)) i (pv0 :: pv1 :: t)).isEmpty then none
                      else some (RlpNode.encoded (canonNode m (groupAt (sharedLen (pv0 :: pv1 :: t)) i (pv0 :: pv1 :: t))))) (List.range 16)).set (nsAt path (sharedLen (pv0 :: pv1 :: t)))
                              none).getD (nsAt path (sharedLen (pv0 :: pv1 :: t))) none = none from
                            getD_set_lt _ _ _ (by
                              simp only [List.length_map, List.length_range]
                              exact hi2lt)]
                          rw [if_pos rfl]
                          rw [← hch3]
                          rw [countP_map_range16]
                          rw [if_neg (by omega)]
                          rw [if_pos hcnt15]
                          rw [hFidx]
                          dsimp only
                          rw [hgetj]
                          dsimp only
                          rw [dbGet_of_mem hmemj]
                          dsimp only
                          rw [hdecj]
                          rw [hgjs]
                          rw [canonNode_singleton]
                          dsimp only
                          rw [hlook]
                          rw [canonSlot_cons]
                          rw [show canonDigest (m + 1) [z] =
                            RlpNode.encoded (canonNode (m + 1) [z]) from rfl]
                          rw [canonNode_singleton]
                          rw [show (z : List Nat × Bytes).1 =
                            pv0.1.take (sharedLen (pv0 :: pv1 :: t)) ++ [j] ++ y1.1 from hzfull]
                          rw [show (z : List Nat × Bytes).2 = y1.2 from hz2]
                          dsimp only [dbInsert]
                        · intro x hx
                          exact List.mem_cons_of_mem _ (hgrow x hx)
                        · intro d hd
                          rw [canonAll_singleton] at hd
                          rw [List.mem_singleton] at hd
                          rw [hd]
                          rw [show (z : List Nat × Bytes).1 =
                            pv0.1.take (sharedLen (pv0 :: pv1 :: t)) ++ [j] ++ y1.1 from hzfull]
                          rw [show (z : List Nat × Bytes).2 = y1.2 from hz2]
                          simp
                  | cons y2 ys2 =>
                    -- the remaining child is a branch: merge the prefixes
                    rcases hzshape : (eraseEntry (pv0 :: pv1 :: t) path) with _ | ⟨a2, zs⟩
                    · rw [hzshape, hgjs] at hmapfull
                      exact absurd hmapfull (by simp)
                    · cases zs with
                      | nil =>
                        rw [hzshape, hgjs] at hmapfull
                        exact absurd hmapfull (by simp)
                      | cons b2 t2 =>
                        rw [hzshape] at hmapfull
                        have hc2 : Canon (m + 1) (a2 :: b2 :: t2) := by
                          rw [← hzshape]
                          exact canon_eraseEntry hc (by rw [hzshape]; simp)
                        have hsub3 : ∀ x ∈ (a2 :: b2 :: t2), x ∈ (pv0 :: pv1 :: t) := by
                          intro x hx
                          exact hsub2 x (by rw [hzshape]; exact hx)
                        have hnib3 : ∀ x ∈ (a2 :: b2 :: t2), nsAt x.1 (sharedLen (pv0 :: pv1 :: t)) = j := by
                          intro x hx
                          exact hnibfull x (by rw [hzshape]; exact hx)
                        have hcgj2 : Canon (m - (sharedLen (pv0 :: pv1 :: t))) (y1 :: y2 :: ys2) := by
                          rw [← hgjs]
                          exact hcgj
                        have hCm : sharedLen (y1 :: y2 :: ys2) < m - (sharedLen (pv0 :: pv1 :: t)) :=
                          sharedLen_lt hcgj2
                        have ha2len : a2.1.length = m + 1 := (hc2.2.2 a2 (by simp)).1
                        have hkshared : (sharedLen (pv0 :: pv1 :: t)) + 1 ≤ sharedLen (a2 :: b2 :: t2) := by
                          apply le_sharedLen
                          · simp only [List.headD_cons]
                            omega
                          · intro x hx y hy
                            have hlx : x.1.length = m + 1 := (hc2.2.2 x hx).1
                            have hly : y.1.length = m + 1 := (hc2.2.2 y hy).1
                            exact take_succ_eq_of (by omega) (by omega)
                              (take_sharedLen_eq (pv0 :: pv1 :: t) x y (hsub3 x hx) (hsub3 y hy))
                              (by rw [hnib3 x hx, hnib3 y hy])
                        have hsl2le : sharedLen (a2 :: b2 :: t2) ≤ a2.1.length := by
                          have h6 := sharedLen_le (a2 :: b2 :: t2)
                          simpa using h6
                        have hshift := canonNode_shift (m - (sharedLen (pv0 :: pv1 :: t))) m ((sharedLen (pv0 :: pv1 :: t)) + 1)
                          a2 b2 t2 hc2 hkshared (by omega)
                        have hvec : a2.1.take (sharedLen (a2 :: b2 :: t2)) =
                            pv0.1.take (sharedLen (pv0 :: pv1 :: t)) ++ [j] ++
                              (a2.1.take (sharedLen (a2 :: b2 :: t2))).drop ((sharedLen (pv0 :: pv1 :: t)) + 1) := by
                          have h7 : (sharedLen (pv0 :: pv1 :: t)) < (a2.1.take (sharedLen (a2 :: b2 :: t2))).length := by
                            rw [List.length_take]
                            omega
                          have h8 := take_nib_drop (a2.1.take (sharedLen (a2 :: b2 :: t2))) (sharedLen (pv0 :: pv1 :: t)) h7
                          rw [List.take_take,
                            Nat.min_eq_left (by omega : (sharedLen (pv0 :: pv1 :: t)) ≤ sharedLen (a2 :: b2 :: t2))] at h8
                          rw [nsAt_take a2.1 (sharedLen (a2 :: b2 :: t2)) (sharedLen (pv0 :: pv1 :: t)) (by omega)] at h8
                          rw [show a2.1.take (sharedLen (pv0 :: pv1 :: t)) = pv0.1.take (sharedLen (pv0 :: pv1 :: t)) from
                            take_sharedLen_eq (pv0 :: pv1 :: t) a2 pv0 (hsub3 a2 (by simp))
                              (by simp)] at h8
                          rw [hnib3 a2 (by simp)] at h8
                          exact h8
                        refine ⟨((RlpNode.Branch (a2.1.take (sharedLen (a2 :: b2 :: t2)))
                          (List.map (fun i => if (groupAt (sharedLen (a2 :: b2 :: t2)) i (a2 :: b2 :: t2)).isEmpty then none
                else some (RlpNode.encoded (canonNode m (groupAt (sharedLen (a2 :: b2 :: t2)) i (a2 :: b2 :: t2))))) (List.range 16))).encoded) :: db2,
                          ?_, ?_, ?_⟩
                        · unfold remove_aux
                          dsimp only
                          rw [dbGet_of_mem hmem]
                          dsimp only
                          rw [hdec]
                          dsimp only
                          rw [if_pos hpre]
                          rw [hplen]
                          rw [show nsAt (path.drop (sharedLen (pv0 :: pv1 :: t))) 0 = nsAt path (sharedLen (pv0 :: pv1 :: t)) from by
                            rw [nsAt_drop, Nat.add_zero]]
                          rw [show (path.drop (sharedLen (pv0 :: pv1 :: t))).drop 1 = path.drop (sharedLen (pv0 :: pv1 :: t) + 1) from by
                            rw [List.drop_drop, Nat.add_comm]]
                          rw [show (List.map (fun i => if (groupAt (sharedLen (pv0 :: pv1 :: t)) i (pv0 :: pv1 :: t)).isEmpty then none
                      else some (RlpNode.encoded (canonNode m (groupAt (sharedLen (pv0 :: pv1 :: t)) i (pv0 :: pv1 :: t))))) (List.range 16)).getD (nsAt path (sharedLen (pv0 :: pv1 :: t)))
                              none = some (canonDigest (m - (sharedLen (pv0 :: pv1 :: t))) (groupAt (sharedLen (pv0 :: pv1 :: t)) (nsAt path (sharedLen (pv0 :: pv1 :: t))) (pv0 :: pv1 :: t))) from by
                            rw [getD_range16_map _ _ hi2lt]
                            rw [if_neg (fun h => hgemp (by simpa using h))]
                            rw [canonNode_fuel_congr m (m - (sharedLen (pv0 :: pv1 :: t))) (m - (sharedLen (pv0 :: pv1 :: t))) _ hcg0
                              (by omega) (Nat.le_refl _)]
                            rw [canonDigest]]
                          rw [hstep]
                          dsimp only
                          rw [show canonSlot (m - (sharedLen (pv0 :: pv1 :: t))) (eraseEntry (groupAt (sharedLen (pv0 :: pv1 :: t)) (nsAt path (sharedLen (pv0 :: pv1 :: t))) (pv0 :: pv1 :: t)) (path.drop (sharedLen (pv0 :: pv1 :: t) + 1))) = none
                            from by rw [hg0e]; rfl]
                          rw [show ((List.map (fun i => if (groupAt (sharedLen (pv0 :: pv1 :: t)) i (pv0 :: pv1 :: t)).isEmpty then none
                      else some (RlpNode.encoded (canonNode m (groupAt (sharedLen (pv0 :: pv1 :: t)) i (pv0 :: pv1 :: t))))) (List.range 16)).set (nsAt path (sharedLen (pv0 :: pv1 :: t)))
                              none).getD (nsAt path (sharedLen (pv0 :: pv1 :: t))) none = none from
                            getD_set_lt _ _ _ (by
                              simp only [List.length_map, List.length_range]
                              exact hi2lt)]
                          rw [if_pos rfl]
                          rw [← hch3]
                          rw [countP_map_range16]
                          rw [if_neg (by omega)]
                          rw [if_pos hcnt15]
                          rw [hFidx]
                          dsimp only
                          rw [hgetj]
                          dsimp only
                          rw [dbGet_of_mem hmemj]
                          dsimp only
                          rw [hdecj]
                          rw [← hmapfull]
                          rw [hshift]
                          dsimp only
                          rw [← hvec]
                          rw [hlook]
                          rw [canonSlot_cons]
                          rw [show canonDigest (m + 1) (a2 :: b2 :: t2) =
                            RlpNode.encoded (canonNode (m + 1) (a2 :: b2 :: t2))
                            from rfl]
                          rw [canonNode_multi]
                          dsimp only [dbInsert]
                        · intro x hx
                          exact List.mem_cons_of_mem _ (hgrow x hx)
                        · intro d hd
                          rcases canonAll_unshift_mem m ((sharedLen (pv0 :: pv1 :: t)) + 1) a2 b2 t2 hc2
                            (by omega) hkshared d hd with heq | hmm2
                          · have hdig : canonDigest (m + 1) (a2 :: b2 :: t2) =
                                ((RlpNode.Branch (a2.1.take (sharedLen (a2 :: b2 :: t2)))
                                  (List.map (fun i => if (groupAt (sharedLen (a2 :: b2 :: t2)) i (a2 :: b2 :: t2)).isEmpty then none
                else some (RlpNode.encoded (canonNode m (groupAt (sharedLen (a2 :: b2 :: t2)) i (a2 :: b2 :: t2))))) (List.range 16))).encoded) := by
                              rw [show canonDigest (m + 1) (a2 :: b2 :: t2) =
                                RlpNode.encoded (canonNode (m + 1) (a2 :: b2 :: t2))
                                from rfl]
                              rw [canonNode_multi]
                            rw [heq, hdig]
                            simp
                          · rw [hmapfull] at hmm2
                            have hmem2 := hst d
                              (canonAll_group_subset m pv0 pv1 t j hj16 d hmm2)
                            exact List.mem_cons_of_mem _ (hgrow d hmem2)
        · -- the path diverges from the branch prefix: nothing to remove
          have hnotmem : path ∉ (pv0 :: pv1 :: t).map Prod.fst := by
            intro hmem2
            rcases List.mem_map.1 hmem2 with ⟨x, hx, hxeq⟩
            apply hpre
            rw [isPrefixOf_take, hplen, ← hxeq]
            exact (take_sharedLen_eq (pv0 :: pv1 :: t) x pv0 hx (by simp)).symm ▸
              (take_sharedLen_eq (pv0 :: pv1 :: t) x pv0 hx (by simp))
          have herase : eraseEntry (pv0 :: pv1 :: t) path = (pv0 :: pv1 :: t) :=
            eraseEntry_of_not_mem hnotmem
          refine ⟨s.db, ?_, fun x hx => hx, by rw [herase]; exact hst⟩
          unfold remove_aux
          dsimp only
          rw [dbGet_of_mem hmem]
          dsimp only
          rw [hdec]
          dsimp only
          rw [if_neg hpre]
          rw [show lookupVal (pv0 :: pv1 :: t) path = none from
            (lookupVal_eq_none_iff (pv0 :: pv1 :: t) path).2 hnotmem]
          dsimp only
          rw [herase, canonSlot_cons]


theorem greatestB_congr (p q : Nat → Bool) (n : Nat) (h : ∀ k, p k = q k) :
    greatestB p n = greatestB q n := by
  induction n with
  | zero => rfl
  | succ n ih =>
    unfold greatestB
    rw [h (n + 1), ih]

theorem sharedLen_perm {l : Nat} {es1 es2 : Entries} (hc : Canon l es1)
    (hperm : es1.Perm es2) : sharedLen es1 = sharedLen es2 := by
  have hne2 : es2 ≠ [] := by
    intro h0
    rw [h0] at hperm
    exact hc.1 hperm.eq_nil
  have hlen1 : ((es1.headD ([], [])).1).length = l :=
    (hc.2.2 _ (headD_mem hc.1)).1
  have hlen2 : ((es2.headD ([], [])).1).length = l :=
    (hc.2.2 _ (hperm.mem_iff.2 (headD_mem hne2))).1
  have hshare : ∀ k, allShareB es1 k = allShareB es2 k := by
    intro k
    have hiff : allShareB es1 k = true ↔ allShareB es2 k = true := by
      rw [allShareB_eq_true_iff, allShareB_eq_true_iff]
      constructor
      · intro h a ha b hb
        exact h a (hperm.mem_iff.2 ha) b (hperm.mem_iff.2 hb)
      · intro h a ha b hb
        exact h a (hperm.mem_iff.1 ha) b (hperm.mem_iff.1 hb)
    cases hx : allShareB es1 k <;> cases hy : allShareB es2 k
    · rfl
    · rw [hx, hy] at hiff
      exact absurd (hiff.2 rfl) (by simp)
    · rw [hx, hy] at hiff
      exact absurd (hiff.1 rfl) (by simp)
    · rfl
  unfold sharedLen
  rw [hlen1, hlen2, greatestB_congr _ _ l hshare]

theorem groupAt_perm {es1 es2 : Entries} (hperm : es1.Perm es2) (c i : Nat) :
    (groupAt c i es1).Perm (groupAt c i es2) := by
  unfold groupAt
  exact hperm.filterMap _

theorem canon_perm {l : Nat} {es1 es2 : Entries} (hc : Canon l es1)
    (hperm : es1.Perm es2) : Canon l es2 := by
  refine ⟨?_, ?_, ?_⟩
  · intro h0
    rw [h0] at hperm
    exact hc.1 hperm.eq_nil
  · exact ((hperm.map Prod.fst).nodup_iff).1 hc.2.1
  · intro pv hpv
    exact hc.2.2 pv (hperm.mem_iff.2 hpv)

theorem canonNode_perm (f : Nat) :
    ∀ (l : Nat) (es1 es2 : Entries), Canon l es1 → es1.Perm es2 → l ≤ f →
      canonNode f es1 = canonNode f es2 := by
  induction f using Nat.strong_induction_on with
  | _ f ih =>
    intro l es1 es2 hc hperm hl
    match es1, hperm with
    | [], hperm =>
      exact absurd rfl hc.1
    | [pv], hperm =>
      rw [List.perm_singleton.1 hperm.symm]
    | a :: b :: t, hperm =>
      have hlen2 : es2.length = t.length + 2 := by
        rw [← hperm.length_eq]
        simp
      match es2, hlen2 with
      | a2 :: b2 :: t2, _ =>
        have hclt : sharedLen (a :: b :: t) < l := sharedLen_lt hc
        rcases Nat.exists_eq_add_of_le (Nat.le_trans (by omega : 1 ≤ l) hl)
          with ⟨g, hg⟩
        rw [Nat.add_comm] at hg
        subst hg
        have hsl : sharedLen (a :: b :: t) = sharedLen (a2 :: b2 :: t2) :=
          sharedLen_perm hc hperm
        rw [canonNode_multi, canonNode_multi, ← hsl]
        have hhead : (a.1).take (sharedLen (a :: b :: t)) =
            (a2.1).take (sharedLen (a :: b :: t)) :=
          take_sharedLen_eq (a :: b :: t) a a2 (by simp)
            (hperm.mem_iff.2 (by simp))
        rw [← hhead]
        congr 1
        apply List.map_congr_left
        intro i hi
        have hgp : (groupAt (sharedLen (a :: b :: t)) i (a :: b :: t)).Perm
            (groupAt (sharedLen (a :: b :: t)) i (a2 :: b2 :: t2)) :=
          groupAt_perm hperm _ _
        by_cases hemp : groupAt (sharedLen (a :: b :: t)) i (a :: b :: t) = []
        · rw [hemp] at hgp
          rw [hemp, hgp.symm.eq_nil]
        · have hne2 : groupAt (sharedLen (a :: b :: t)) i (a2 :: b2 :: t2) ≠ [] := by
            intro h0
            rw [h0] at hgp
            exact hemp hgp.eq_nil
          rw [if_neg (fun h => hemp (by simpa using h)),
            if_neg (fun h => hne2 (by simpa using h))]
          have hcg := canon_groupAt hc i hemp
          rw [ih g (by omega) (l - sharedLen (a :: b :: t) - 1) _ _ hcg hgp
            (by omega)]


set_option maxHeartbeats 1000000 in
theorem insert_step {l : Nat} {s : TrieState} {es : Entries} (hrep : Rep l s es)
    {path : List Nat} (hw : WFPath l path) (v : Bytes) :
    Rep l (insert s path v).1 (insertEntry es path v) := by
  obtain ⟨hok, hroot0, hdisj⟩ := hrep
  rcases hdisj with ⟨hes, hroot⟩ | ⟨hc, hst, hroot⟩
  · -- the trie is empty: the walk replaces the undecodable null node by a leaf
    subst hes
    obtain ⟨cacheR, hread, hokR⟩ := readNodeCached_ok
      { db := s.db, cache := s.cache, root := EMPTY_ROOT, oldVal := none }
      EMPTY_ROOT hok hroot0
    unfold insert
    dsimp only
    rw [hroot]
    rw [show defaultFuel path = path.length + 1 + 1 from rfl]
    unfold insert_aux
    dsimp only
    rw [hread]
    dsimp only
    rw [decoded_empty_root]
    dsimp only
    rw [insertEntry_nil]
    refine ⟨cacheOK_insert hokR _, List.mem_cons_of_mem _ hroot0,
      Or.inr ⟨?_, ?_, ?_⟩⟩
    · refine ⟨by simp, by simp, ?_⟩
      intro pv hpv
      rw [List.mem_singleton] at hpv
      rw [hpv]
      exact hw
    · intro d hd
      rw [canonAll_singleton] at hd
      rw [List.mem_singleton] at hd
      rw [hd]
      dsimp only [dbInsert]
      simp
    · rw [show canonDigest l [(path, v)] = RlpNode.encoded (.Leaf path v) from by
        rw [canonDigest, canonNode_singleton]]
      dsimp only [dbInsert]
  · -- the trie is non-empty: the walk computes the canonical root
    obtain ⟨db2, cache2, hstep, hgrow, hsto, hok2⟩ :=
      insert_aux_canon (path.length + 2) l es
        { db := s.db, cache := s.cache, root := canonDigest l es, oldVal := none }
        path v hc hst hok hw (by rw [hw.1])
    unfold insert
    dsimp only
    rw [hroot]
    rw [show defaultFuel path = path.length + 2 from rfl]
    rw [hstep]
    dsimp only
    exact ⟨hok2, hgrow _ hroot0, Or.inr ⟨canon_insertEntry hc hw, hsto, rfl⟩⟩

set_option maxHeartbeats 1000000 in
theorem remove_spec {l : Nat} {s : TrieState} {es : Entries} (hrep : Rep l s es)
    {path : List Nat} (hw : WFPath l path) :
    Rep l (remove s path).1 (eraseEntry es path) ∧
    (remove s path).2 = .ok (lookupVal es path) ∧
    (lookupVal es path = none → ((remove s path).1).root = s.root) := by
  obtain ⟨hok, hroot0, hdisj⟩ := hrep
  rcases hdisj with ⟨hes, hroot⟩ | ⟨hc, hst, hroot⟩
  · -- the trie is empty: the null node does not decode, nothing happens
    subst hes
    unfold remove
    dsimp only
    rw [hroot]
    rw [show defaultFuel path = path.length + 1 + 1 from rfl]
    unfold remove_aux
    dsimp only
    rw [dbGet_of_mem hroot0]
    dsimp only
    rw [decoded_empty_root]
    dsimp only
    exact ⟨⟨hok, hroot0, Or.inl ⟨rfl, rfl⟩⟩, rfl, fun _ => rfl⟩
  · -- the trie is non-empty
    obtain ⟨db2, hstep, hgrow, hsto⟩ :=
      remove_aux_canon (path.length + 2) l es
        { db := s.db, cache := s.cache, root := canonDigest l es, oldVal := none }
        path hc hst hw (by rw [hw.1])
    unfold remove
    dsimp only
    rw [hroot]
    rw [show defaultFuel path = path.length + 2 from rfl]
    rw [hstep]
    cases hE : eraseEntry es path with
    | nil =>
      rw [canonSlot_nil]
      dsimp only
      have hlooknone : (Except.ok (lookupVal es path) :
            Except TrieError (Option Bytes)) =
          Except.ok (match lookupVal es path with
            | some w => some w
            | none => (none : Option Bytes)) := by
        cases lookupVal es path <;> rfl
      refine ⟨⟨hok, hgrow _ hroot0, Or.inl ⟨rfl, rfl⟩⟩, ?_, ?_⟩
      · rw [hlooknone]
      · intro habs
        exfalso
        have hmem2 : path ∈ es.map Prod.fst := by
          rcases List.exists_mem_of_ne_nil _ hc.1 with ⟨x, hx⟩
          have hxp := eraseEntry_eq_nil_imp hE x hx
          rw [← hxp]
          exact List.mem_map_of_mem Prod.fst hx
        rw [lookupVal_eq_none_iff] at habs
        exact habs hmem2
    | cons z zs =>
      rw [canonSlot_cons]
      dsimp only
      have hlooknone : (Except.ok (lookupVal es path) :
            Except TrieError (Option Bytes)) =
          Except.ok (match lookupVal es path with
            | some w => some w
            | none => (none : Option Bytes)) := by
        cases lookupVal es path <;> rfl
      refine ⟨⟨hok, hgrow _ hroot0, Or.inr ⟨?_, ?_, rfl⟩⟩, ?_, ?_⟩
      · rw [← hE]
        exact canon_eraseEntry hc (by rw [hE]; simp)
      · rw [← hE]
        exact hsto
      · rw [hlooknone]
      · intro habs
        rw [lookupVal_eq_none_iff] at habs
        have hnoop : eraseEntry es path = es := eraseEntry_of_not_mem habs
        rw [← hE, hnoop]


theorem rep_init (l : Nat) : Rep l (trieNew memDB) [] := by
  refine ⟨fun e he => absurd he (List.not_mem_nil e), ?_, Or.inl ⟨rfl, rfl⟩⟩
  simp [trieNew, memDB]

theorem runOps_rep {l : Nat} :
    ∀ (ops : List Op) (s : TrieState) (es : Entries),
      Rep l s es → WFOps l ops → Rep l (runOps s ops) (applyOps es ops) := by
  intro ops
  induction ops with
  | nil =>
    intro s es h _
    exact h
  | cons op ops ih =>
    intro s es h hwf
    cases op with
    | ins p v =>
      have hw : WFPath l p := hwf (.ins p v) (by simp)
      exact ih _ _ (insert_step h hw v) (fun o ho => hwf o (by simp [ho]))
    | del p =>
      have hw : WFPath l p := hwf (.del p) (by simp)
      exact ih _ _ ((remove_spec h hw).1) (fun o ho => hwf o (by simp [ho]))

theorem countP_range_one_le (n j : Nat) (P : Nat → Bool) (hj : j < n)
    (hPj : P j = true) : 1 ≤ (List.range n).countP P := by
  induction n with
  | zero => omega
  | succ n ih =>
    rw [List.range_succ, List.countP_append]
    by_cases hjn : j = n
    · subst hjn
      simp [List.countP_cons, hPj]
    · have := ih (by omega)
      omega

theorem countP_range_two_le (n j1 j2 : Nat) (P : Nat → Bool) (h1 : j1 < n)
    (h2 : j2 < n) (hne : j1 ≠ j2) (hP1 : P j1 = true) (hP2 : P j2 = true) :
    2 ≤ (List.range n).countP P := by
  induction n with
  | zero => omega
  | succ n ih =>
    rw [List.range_succ, List.countP_append]
    by_cases hj1n : j1 = n
    · subst hj1n
      have h3 := countP_range_one_le j1 j2 P (by omega) hP2
      rw [show List.countP P [j1] = 1 from by
        simp only [List.countP_cons, List.countP_nil, hP1, if_true]]
      omega
    · by_cases hj2n : j2 = n
      · subst hj2n
        have h3 := countP_range_one_le j2 j1 P (by omega) hP1
        rw [show List.countP P [j2] = 1 from by
          simp only [List.countP_cons, List.countP_nil, hP2, if_true]]
        omega
      · have h3 := ih (by omega) (by omega)
        omega

theorem reach_canon (f : Nat) :
    ∀ (l : Nat) (es : Entries) (db : List Bytes), Canon l es →
      reachOK f db (canonDigest l es) = true := by
  induction f with
  | zero =>
    intro l es db _
    rfl
  | succ f ih =>
    intro l es db hc
    unfold reachOK
    cases hget : dbGet db (canonDigest l es) with
    | none => rfl
    | some b =>
      have hb : b = canonDigest l es := by
        unfold dbGet at hget
        by_cases hmem : canonDigest l es ∈ db
        · rw [if_pos hmem] at hget
          injection hget with h
          exact h.symm
        · rw [if_neg hmem] at hget
          exact absurd hget (by simp)
      subst hb
      dsimp only
      rw [decoded_canonDigest l l es hc (Nat.le_refl l)]
      cases es with
      | nil => exact absurd rfl hc.1
      | cons pv0 rest =>
        cases rest with
        | nil =>
          rw [canonNode_singleton]
        | cons pv1 t =>
          have hclt : sharedLen (pv0 :: pv1 :: t) < l := sharedLen_lt hc
          obtain ⟨m, rfl⟩ : ∃ m, l = m + 1 := ⟨l - 1, by omega⟩
          rw [canonNode_multi]
          dsimp only
          rw [Bool.and_eq_true]
          constructor
          · rw [countP_map_range16]
            rcases exists_two_groups hc with ⟨i1, i2, hi1, hi2, hine, hg1, hg2⟩
            have hP : ∀ i, groupAt (sharedLen (pv0 :: pv1 :: t)) i
                (pv0 :: pv1 :: t) ≠ [] →
                (((if (groupAt (sharedLen (pv0 :: pv1 :: t)) i (pv0 :: pv1 :: t)).isEmpty
                  then none
                  else some (RlpNode.encoded (canonNode m (groupAt
                    (sharedLen (pv0 :: pv1 :: t)) i (pv0 :: pv1 :: t))))) :
                    Option Digest)).isSome = true := by
              intro i hne
              rw [if_neg (fun h => hne (by simpa using h))]
              rfl
            have h2le := countP_range_two_le 16 i1 i2
              (fun i => (((if (groupAt (sharedLen (pv0 :: pv1 :: t)) i
                  (pv0 :: pv1 :: t)).isEmpty
                then none
                else some (RlpNode.encoded (canonNode m (groupAt
                  (sharedLen (pv0 :: pv1 :: t)) i (pv0 :: pv1 :: t))))) :
                  Option Digest)).isSome)
              hi1 hi2 hine (hP i1 hg1) (hP i2 hg2)
            simp only [decide_eq_true_eq]
            exact h2le
          · rw [List.all_eq_true]
            intro c hcm
            rcases List.mem_map.1 hcm with ⟨i, hi, rfl⟩
            by_cases hemp : groupAt (sharedLen (pv0 :: pv1 :: t)) i
                (pv0 :: pv1 :: t) = []
            · rw [if_pos (by rw [hemp]; rfl)]
            · rw [if_neg (fun h => hemp (by simpa using h))]
              have hcg : Canon (m - sharedLen (pv0 :: pv1 :: t))
                  (groupAt (sharedLen (pv0 :: pv1 :: t)) i (pv0 :: pv1 :: t)) := by
                have h := canon_groupAt hc i hemp
                rwa [show m + 1 - sharedLen (pv0 :: pv1 :: t) - 1 =
                  m - sharedLen (pv0 :: pv1 :: t) from by omega] at h
              rw [canonNode_fuel_congr m (m - sharedLen (pv0 :: pv1 :: t))
                (m - sharedLen (pv0 :: pv1 :: t)) _ hcg (by omega) (Nat.le_refl _)]
              exact ih (m - sharedLen (pv0 :: pv1 :: t)) _ db hcg


  /-- C1: starting from `new()` over the fresh store, two sequences of
well-formed insertions and removals that leave behind the same set of
(hashed path, value) pairs — in particular the same pairs inserted in any
permutation, with or without intermediate deletions — produce the same
final root digest. -/
theorem c1_order_independence (l : Nat) (ops1 ops2 : List Op)
    (h1 : WFOps l ops1) (h2 : WFOps l ops2)
    (hsame : (applyOps [] ops1).Perm (applyOps [] ops2)) :
    (runOps (trieNew memDB) ops1).root = (runOps (trieNew memDB) ops2).root := by
  have hr1 := runOps_rep ops1 (trieNew memDB) [] (rep_init l) h1
  have hr2 := runOps_rep ops2 (trieNew memDB) [] (rep_init l) h2
  rcases hr1.2.2 with ⟨he1, hro1⟩ | ⟨hc1, -, hro1⟩
  · rcases hr2.2.2 with ⟨he2, hro2⟩ | ⟨hc2, -, hro2⟩
    · rw [hro1, hro2]
    · exfalso
      rw [he1] at hsame
      exact hc2.1 hsame.symm.eq_nil
  · rcases hr2.2.2 with ⟨he2, hro2⟩ | ⟨hc2, -, hro2⟩
    · exfalso
      rw [he2] at hsame
      exact hc1.1 hsame.eq_nil
    · rw [hro1, hro2]
      rw [show canonDigest l (applyOps [] ops1) =
        RlpNode.encoded (canonNode l (applyOps [] ops1)) from rfl]
      rw [show canonDigest l (applyOps [] ops2) =
        RlpNode.encoded (canonNode l (applyOps [] ops2)) from rfl]
      rw [canonNode_perm l l _ _ hc1 hsame (Nat.le_refl l)]

/-- C1, witness: two pairs inserted in either order — the second run also
creates and deletes a third key in between — give the same root. -/
theorem c1_witness :
    (runOps (trieNew memDB) [.ins [0, 1] [10], .ins [1, 2] [20]]).root =
      (runOps (trieNew memDB)
        [.ins [2, 3] [30], .ins [1, 2] [20], .del [2, 3],
          .ins [0, 1] [10]]).root :=
  c1_order_independence 2
    [.ins [0, 1] [10], .ins [1, 2] [20]]
    [.ins [2, 3] [30], .ins [1, 2] [20], .del [2, 3], .ins [0, 1] [10]]
    (by simp only [WFOps, WFPath]; decide)
    (by simp only [WFOps, WFPath]; decide)
    (by decide)

/-- C5, counterexample: the claim quantifies over every trie state, but
`insert_raw` — also part of the public mutation API — reaches states on
which it fails.  Plant, with `insert_raw`, a branch holding a single
occupied child slot (its child: the leaf stored by the first raw
insert).  `remove` of a key that is not bound then descends into an
empty slot of that branch, finds 15 empty slots during the fix-up,
collapses the branch into a leaf and re-roots the trie: it answers
`Ok(none)` — nothing was removed — yet the root digest changes. -/
theorem c5_counterexample :
    ∃ s1 s2 : TrieState,
      insert_raw (trieNew memDB) (.Leaf [5] [7]) = (s1, .ok none) ∧
      insert_raw s1 (.Branch [5] (empty_children.set 3
          (some (RlpNode.encoded (.Leaf [5] [7]))))) =
        (s2, .ok (some (RlpNode.encoded (.Leaf [5] [7])))) ∧
      (remove s2 [5, 2]).2 = .ok none ∧
      ((remove s2 [5, 2]).1).root ≠ s2.root := by
  refine ⟨_, _, rfl, rfl, rfl, by decide⟩

/-- C5, amended: on any trie reached from `new()` by well-formed
`insert` and `remove` operations — `insert_raw` excluded — removing a
key whose hashed path is not bound returns `none` and leaves the root
digest unchanged. -/
theorem c5_noop_remove (l : Nat) (ops : List Op) (hops : WFOps l ops)
    (path : List Nat) (hw : WFPath l path)
    (habs : lookupVal (applyOps [] ops) path = none) :
    (remove (runOps (trieNew memDB) ops) path).2 = .ok none ∧
    ((remove (runOps (trieNew memDB) ops) path).1).root =
      (runOps (trieNew memDB) ops).root := by
  have hrep := runOps_rep ops (trieNew memDB) [] (rep_init l) hops
  obtain ⟨-, hval, hroot⟩ := remove_spec hrep hw
  exact ⟨by rw [hval, habs], hroot habs⟩

/-- C5, witness: removing an absent key from a one-leaf trie answers
`none` and keeps the root. -/
theorem c5_witness :
    (remove (runOps (trieNew memDB) [.ins [3] [7]]) [5]).2 = .ok none ∧
    ((remove (runOps (trieNew memDB) [.ins [3] [7]]) [5]).1).root =
      (runOps (trieNew memDB) [.ins [3] [7]]).root :=
  c5_noop_remove 1 [.ins [3] [7]] (by simp only [WFOps, WFPath]; decide)
    [5] (by simp only [WFPath]; decide) (by decide)

/-- C8, counterexample: `insert_raw` happily plants a `Branch` with zero
occupied child slots at the root — a node the spec's branch-minimality
invariant forbids — so the claim is false for sequences that include
`insert_raw`. -/
theorem c8_counterexample :
    ∃ s2 : TrieState,
      insert_raw (trieNew memDB) (.Branch [] empty_children) = (s2, .ok none) ∧
      reachOK 1 s2.db s2.root = false := by
  refine ⟨_, rfl, rfl⟩

/-- C8, amended: after any sequence of well-formed `insert` and `remove`
operations starting from `new()` — `insert_raw` excluded — every branch
reachable from the root (to any depth) has at least two occupied child
slots. -/
theorem c8_branch_minimality (l : Nat) (ops : List Op) (hops : WFOps l ops)
    (f : Nat) :
    reachOK f (runOps (trieNew memDB) ops).db
      (runOps (trieNew memDB) ops).root = true := by
  have hrep := runOps_rep ops (trieNew memDB) [] (rep_init l) hops
  rcases hrep.2.2 with ⟨-, hroot⟩ | ⟨hc, -, hroot⟩
  · rw [hroot]
    cases f with
    | zero => rfl
    | succ f =>
      unfold reachOK
      rw [dbGet_of_mem hrep.2.1]
      dsimp only
      rw [decoded_empty_root]
  · rw [hroot]
    exact reach_canon f l _ _ hc

/-- C8, witness: after an insert and a removal that collapses a branch,
every reachable branch still has two children (checked to depth 3). -/
theorem c8_witness :
    reachOK 3 (runOps (trieNew memDB)
        [.ins [4, 0] [9], .ins [4, 1] [8], .del [4, 0]]).db
      (runOps (trieNew memDB)
        [.ins [4, 0] [9], .ins [4, 1] [8], .del [4, 0]]).root = true :=
  c8_branch_minimality 2 [.ins [4, 0] [9], .ins [4, 1] [8], .del [4, 0]]
    (by simp only [WFOps, WFPath]; decide) 3


end MerkleTrie